import Mathlib

/-!
# Reference-count pruning passes (`ffi/custom_passes.cpp`)

A shallow embedding of `RefNormalizePass` and `RefPrunePass`.

* An IR value is either the null pointer constant or some other value, named
  by a number; pointer identity of values is equality.
* An instruction carries an `id` (its address), whether its opcode is `Call`,
  the name of its called operand and its operand 0.  The address of an
  instruction is the record itself: two records are the same instruction iff
  they are equal.
* A basic block is its non-terminator instructions in order, plus the
  terminator.  The terminator's opcode is never `Call`, so `GetRefOpCall`
  answers `NULL` on it; it is kept apart from the instruction list.
* A function is the list of its blocks; a block's address is its index and
  block `0` is the entry block.
* The four `static size_t` counters are natural numbers.
-/

namespace RefPrune

/-- An IR value used as operand 0 of a call. -/
inductive Value where
  | nullPtr : Value
  | val : Nat → Value
  deriving DecidableEq, Repr

/-- A non-terminator instruction. -/
structure Instruction where
  id : Nat
  isCall : Bool
  calleeName : String
  direct : Bool
  arg0 : Value
  deriving DecidableEq, Repr

/-- The terminator of a block: its address and its successor blocks. -/
structure Terminator where
  id : Nat
  succs : List Nat
  deriving DecidableEq, Repr

/-- A basic block: instructions before the terminator, then the terminator. -/
structure BasicBlock where
  insts : List Instruction
  term : Terminator
  deriving DecidableEq, Repr

/-- A function is its list of blocks; block 0 is the entry block. -/
abbrev Function := List BasicBlock

/-- A `CallInst*` held in a function-wide list: parent block and instruction. -/
abbrev InstRef := Nat × Instruction

/-- The static counters of `RefPrunePass`. -/
structure Stats where
  per_bb : Nat
  diamond : Nat
  fanout : Nat
  fanout_raise : Nat
  deriving DecidableEq, Repr

/-- Source `IsIncRef`: the called operand is named `NRT_incref`. -/
def IsIncRef (call_inst : Instruction) : Bool :=
  call_inst.calleeName == "NRT_incref"

/-- Source `IsDecRef`: the called operand is named `NRT_decref`. -/
def IsDecRef (call_inst : Instruction) : Bool :=
  call_inst.calleeName == "NRT_decref"

/-- Source `GetRefOpCall`: the instruction itself when it is a call to one of the
two refop names, otherwise `NULL`. -/
def GetRefOpCall (ii : Instruction) : Option Instruction :=
  if ii.isCall then
    if IsIncRef ii || IsDecRef ii then some ii else none
  else none

/-- The test `refop != NULL && IsIncRef(refop)` on `GetRefOpCall(&ii)`. -/
def isIncrefOp (ii : Instruction) : Bool :=
  match GetRefOpCall ii with
  | some refop => IsIncRef refop
  | none => false

/-- The test `refop != NULL && IsDecRef(refop)` on `GetRefOpCall(&ii)`. -/
def isDecrefOp (ii : Instruction) : Bool :=
  match GetRefOpCall ii with
  | some refop => IsDecRef refop
  | none => false

/-- The test `GetRefOpCall(&ii) != NULL`. -/
def isRefOp (ii : Instruction) : Bool :=
  (GetRefOpCall ii).isSome

/-- Source `isRelatedDecref`: `ii` is a call named `NRT_decref` with the same
operand 0 as `incref` (non-`NULL` result). -/
def isRelatedDecref (incref ii : Instruction) : Bool :=
  if ii.isCall then
    if ii.calleeName != "NRT_decref" then false
    else if incref.arg0 != ii.arg0 then false
    else true
  else false

/-- Source `isNonNullFirstArg`: operand 0 is not the null pointer constant. -/
def isNonNullFirstArg (call_inst : Instruction) : Bool :=
  call_inst.arg0 != Value.nullPtr

/-- Source `hasAnyDecrefInNode`: some instruction of the block is a decref. -/
def hasAnyDecrefInNode (insts : List Instruction) : Bool :=
  insts.any isDecrefOp

/-- Source `hasDecrefInNode`: some instruction of the block is a decref related to
`incref`. -/
def hasDecrefInNode (incref : Instruction) (insts : List Instruction) : Bool :=
  insts.any (isRelatedDecref incref)

/-- Source `basicBlockInList`: the block is an element of the list. -/
def basicBlockInList (bb : Nat) (list : List Nat) : Bool :=
  list.any (fun each => bb == each)

/-- Source `eraseFromParent`, inside the instruction list of the parent block. -/
def eraseInst (insts : List Instruction) (ci : Instruction) : List Instruction :=
  insts.filter (fun x => x != ci)

/-- Source `moveBefore(bb.getTerminator())`: unlink the instruction and link it
again just before the terminator. -/
def moveBeforeTerminator (insts : List Instruction) (d : Instruction) :
    List Instruction :=
  eraseInst insts d ++ [d]

/-! ## RefNormalizePass -/

/-- The loop `for (CallInst* decref : to_be_moved)` of the normalize pass. -/
def moveLoop : List Instruction → List Instruction → Bool → List Instruction × Bool
  | [], insts, mutated => (insts, mutated)
  | d :: rest, insts, _ => moveLoop rest (moveBeforeTerminator insts d) true

/-- The body of `for (BasicBlock &bb : F)` in `RefNormalizePass::runOnFunction`. -/
def normalizeBlock (bb : BasicBlock) (mutated : Bool) : BasicBlock × Bool :=
  let has_incref := bb.insts.any isIncrefOp
  if has_incref then
    let to_be_moved := bb.insts.filter isDecrefOp
    let r := moveLoop to_be_moved bb.insts mutated
    ({ bb with insts := r.1 }, r.2)
  else (bb, mutated)

/-- The block loop of `RefNormalizePass::runOnFunction`. -/
def normalizeBlocks : List BasicBlock → Bool → List BasicBlock × Bool
  | [], mutated => ([], mutated)
  | bb :: rest, mutated =>
    let r := normalizeBlock bb mutated
    let r2 := normalizeBlocks rest r.2
    (r.1 :: r2.1, r2.2)

/-- Source `RefNormalizePass::runOnFunction`: the function after the pass and the
returned flag. -/
def RefNormalizePass.runOnFunction (F : Function) : Function × Bool :=
  normalizeBlocks F false

/-! ## RefPrunePass: per basic block pruning -/

/-- The loop `for (CallInst* ci: null_list)`: erase each refop on NULL and
count it. -/
def eraseNullLoop :
    List Instruction → List Instruction → Bool → Nat → List Instruction × Bool × Nat
  | [], insts, mutated, n => (insts, mutated, n)
  | ci :: rest, insts, _, n => eraseNullLoop rest (eraseInst insts ci) true (n + 1)

/-- The inner `for` loop over `decref_list`: the first slot that is not
`NULL` and holds a decref related to `incref`; the slot is set to `NULL`. -/
def takeRelatedSlot (incref : Instruction) :
    List (Option Instruction) → Option (Instruction × List (Option Instruction))
  | [] => none
  | none :: rest =>
    match takeRelatedSlot incref rest with
    | some (d, rest') => some (d, none :: rest')
    | none => none
  | some decref :: rest =>
    if isRelatedDecref incref decref then some (decref, none :: rest)
    else
      match takeRelatedSlot incref rest with
      | some (d, rest') => some (d, some decref :: rest')
      | none => none

/-- The loop `while (incref_list.size() > 0)`; the first argument is the
incref list in the order `pop_back_val` hands it out (last first). -/
def pairLoop :
    List Instruction → List (Option Instruction) → List Instruction → Bool → Nat →
      List Instruction × Bool × Nat
  | [], _, insts, mutated, n => (insts, mutated, n)
  | incref :: rest, decref_list, insts, mutated, n =>
    match takeRelatedSlot incref decref_list with
    | some (decref, decref_list') =>
      pairLoop rest decref_list' (eraseInst (eraseInst insts incref) decref) true (n + 2)
    | none => pairLoop rest decref_list insts mutated n

/-- The bucket `null_list` of a block. -/
def nullList (insts : List Instruction) : List Instruction :=
  insts.filter (fun ii => isRefOp ii && !isNonNullFirstArg ii)

/-- The bucket `incref_list` of a block. -/
def increfList (insts : List Instruction) : List Instruction :=
  insts.filter (fun ii => isRefOp ii && isNonNullFirstArg ii && IsIncRef ii)

/-- The bucket `decref_list` of a block. -/
def decrefList (insts : List Instruction) : List Instruction :=
  insts.filter (fun ii =>
    isRefOp ii && isNonNullFirstArg ii && !IsIncRef ii && IsDecRef ii)

/-- The body of `for (BasicBlock &bb : F)` in `runPerBasicBlockPrune`. -/
def pruneBlock (bb : BasicBlock) (mutated : Bool) (n : Nat) : BasicBlock × Bool × Nat :=
  let r1 := eraseNullLoop (nullList bb.insts) bb.insts mutated n
  let r2 := pairLoop (increfList bb.insts).reverse ((decrefList bb.insts).map some)
    r1.1 r1.2.1 r1.2.2
  ({ bb with insts := r2.1 }, r2.2.1, r2.2.2)

/-- The block loop of `runPerBasicBlockPrune`. -/
def pruneBlocks : List BasicBlock → Bool → Nat → List BasicBlock × Bool × Nat
  | [], mutated, n => ([], mutated, n)
  | bb :: rest, mutated, n =>
    let r := pruneBlock bb mutated n
    let r2 := pruneBlocks rest r.2.1 r.2.2
    (r.1 :: r2.1, r2.2.1, r2.2.2)

/-- Source `RefPrunePass::runPerBasicBlockPrune`: the function after the
pruner, the returned flag and the counters. -/
def runPerBasicBlockPrune (F : Function) (st : Stats) : Function × Bool × Stats :=
  let r := pruneBlocks F false st.per_bb
  (r.1, r.2.1, { st with per_bb := r.2.2 })

/-! ## CFG access -/

/-- Successors of the terminator of block `b`. -/
def succs (F : Function) (b : Nat) : List Nat :=
  match F[b]? with
  | some bb => bb.term.succs
  | none => []

/-- Instructions of block `b`. -/
def instsOf (F : Function) (b : Nat) : List Instruction :=
  match F[b]? with
  | some bb => bb.insts
  | none => []

/-- Predecessor blocks of `b`, in block order. -/
def preds (F : Function) (b : Nat) : List Nat :=
  (List.range F.length).filter (fun a => (succs F a).any (fun c => c == b))

/-- Source `eraseFromParent`, through a function-wide reference. -/
def eraseFromParent (F : Function) (r : InstRef) : Function :=
  match F[r.1]? with
  | some bb => F.set r.1 { bb with insts := eraseInst bb.insts r.2 }
  | none => F

/-- The nested loops collecting the refops that satisfy `p`, block by block,
each with its parent block. -/
def collectFrom (p : Instruction → Bool) : Nat → List BasicBlock → List InstRef
  | _, [] => []
  | i, bb :: rest => (bb.insts.filter p).map (fun ii => (i, ii)) ++ collectFrom p (i + 1) rest

/-- The function-wide `incref_list`. -/
def collectIncrefs (F : Function) : List InstRef :=
  collectFrom (fun ii => isRefOp ii && IsIncRef ii) 0 F

/-- The function-wide `decref_list`. -/
def collectDecrefs (F : Function) : List InstRef :=
  collectFrom (fun ii => isRefOp ii && !IsIncRef ii && IsDecRef ii) 0 F

/-! ## RefPrunePass: diamond pruning -/

/-- The loop over the successors in `hasDecrefBetweenGraph`; `walk` is the
recursive call, the list is the visited stack. -/
def betweenLoop (walk : Nat → List Nat → Bool × List Nat) (tail_node : Nat) :
    List Nat → List Nat → Bool × List Nat
  | [], stack => (false, stack)
  | child :: rest, stack =>
    if child == tail_node then betweenLoop walk tail_node rest stack
    else
      let r := walk child stack
      if r.1 then (true, r.2) else betweenLoop walk tail_node rest r.2

/-- Source `hasDecrefBetweenGraph`; the stack is passed by reference and never
popped, so it is returned with the answer.  The first argument bounds the
recursion depth; with `F.length + 1` on an empty stack the bound is never
the reason for the answer (`hasDecrefBetweenGraph_fuel`). -/
def hasDecrefBetweenGraph (F : Function) (tail_node : Nat) :
    Nat → Nat → List Nat → Bool × List Nat
  | 0, _, stack => (true, stack)
  | fuel + 1, head_node, stack =>
    if basicBlockInList head_node stack then (false, stack)
    else if hasAnyDecrefInNode (instsOf F head_node) then (true, stack)
    else
      betweenLoop (hasDecrefBetweenGraph F tail_node fuel) tail_node
        (succs F head_node) (stack ++ [head_node])

/-- The tests of one `(incref, decref)` pair in `runDiamondPrune`: `true`
when the pair is erased.  `DT` and `PDT` are the queries
`domtree.dominates(incref, decref)` and `postdomtree.dominates(decref, incref)`
of the two analyses handed to the pass. -/
def diamondTest (DT PDT : InstRef → InstRef → Bool) (F : Function)
    (incref decref : InstRef) : Bool :=
  if incref.1 == decref.1 then false
  else if !isRelatedDecref incref.2 decref.2 then false
  else if DT incref decref && PDT decref incref then
    if (hasDecrefBetweenGraph F decref.1 (F.length + 1) incref.1 []).1 then false
    else true
  else false

/-- The loop `for (CallInst*& decref: decref_list)` of `runDiamondPrune` for
one incref: the first slot that is not `NULL` and passes the tests, set to
`NULL`. -/
def diamondScan (DT PDT : InstRef → InstRef → Bool) (F : Function) (incref : InstRef) :
    List (Option InstRef) → Option (InstRef × List (Option InstRef))
  | [] => none
  | none :: rest =>
    match diamondScan DT PDT F incref rest with
    | some (d, rest') => some (d, none :: rest')
    | none => none
  | some decref :: rest =>
    if diamondTest DT PDT F incref decref then some (decref, none :: rest)
    else
      match diamondScan DT PDT F incref rest with
      | some (d, rest') => some (d, some decref :: rest')
      | none => none

/-- The loop `for (CallInst*& incref: incref_list)` of `runDiamondPrune`.  A
slot of `incref_list` is set to `NULL` only in its own iteration, which then
leaves the inner loop, so the test `incref == NULL` never holds. -/
def diamondLoop (DT PDT : InstRef → InstRef → Bool) :
    List InstRef → List (Option InstRef) → Function → Bool → Nat → Function × Bool × Nat
  | [], _, F, mutated, n => (F, mutated, n)
  | incref :: rest, decref_list, F, mutated, n =>
    match diamondScan DT PDT F incref decref_list with
    | some (decref, decref_list') =>
      diamondLoop DT PDT rest decref_list'
        (eraseFromParent (eraseFromParent F incref) decref) true (n + 2)
    | none => diamondLoop DT PDT rest decref_list F mutated n

/-- Source `RefPrunePass::runDiamondPrune`: the function after the pruner,
the returned flag and the counters. -/
def runDiamondPrune (DT PDT : InstRef → InstRef → Bool) (F : Function) (st : Stats) :
    Function × Bool × Stats :=
  let r := diamondLoop DT PDT (collectIncrefs F) ((collectDecrefs F).map some) F false
    st.diamond
  (r.1, r.2.1, { st with diamond := r.2.2 })

/-- The loop `for (CallInst*& incref: incref_list)` of `runDiamondPrune` as in
`diamondLoop`, returning next to its result every pair it erased, in order,
each with the function as it was when the pair passed the tests. -/
def diamondLoopTrace (DT PDT : InstRef → InstRef → Bool) :
    List InstRef → List (Option InstRef) → Function → Bool → Nat →
      (Function × Bool × Nat) × List (InstRef × InstRef × Function)
  | [], _, F, mutated, n => ((F, mutated, n), [])
  | incref :: rest, decref_list, F, mutated, n =>
    match diamondScan DT PDT F incref decref_list with
    | some (decref, decref_list') =>
      let r := diamondLoopTrace DT PDT rest decref_list'
        (eraseFromParent (eraseFromParent F incref) decref) true (n + 2)
      (r.1, (incref, decref, F) :: r.2)
    | none => diamondLoopTrace DT PDT rest decref_list F mutated n

/-- The function `runDiamondPrune` with the erased pairs recorded. -/
def runDiamondPruneTrace (DT PDT : InstRef → InstRef → Bool) (F : Function) (st : Stats) :
    (Function × Bool × Stats) × List (InstRef × InstRef × Function) :=
  let r := diamondLoopTrace DT PDT (collectIncrefs F) ((collectDecrefs F).map some) F false
    st.diamond
  ((r.1.1, r.1.2.1, { st with diamond := r.1.2.2 }), r.2)

/-- The function after the pairs of a record of `diamondLoopTrace` are erased
from it, in order. -/
def erasePairs (F : Function) (pairs : List (InstRef × InstRef × Function)) : Function :=
  pairs.foldl (fun G e => eraseFromParent (eraseFromParent G e.1) e.2.1) F

/-! ## RefPrunePass: fanout pruning -/

/-- Source `SetVector::insert`: append the block unless it is an element. -/
def setInsert (blocks : List Nat) (bb : Nat) : List Nat :=
  if basicBlockInList bb blocks then blocks else blocks ++ [bb]

/-- The loop over the successors shared by `findFanoutDecrefCandidates` and
`walkChildForDecref`: `walk` is the call on one child, the list is
`decref_blocks`, the flag is `found`. -/
def walkSuccessors (walk : Nat → List Nat → Bool × List Nat) :
    List Nat → List Nat → Bool → Bool × List Nat
  | [], decref_blocks, found => (found, decref_blocks)
  | child :: rest, decref_blocks, _ =>
    let r := walk child decref_blocks
    if !r.1 then (false, r.2) else walkSuccessors walk rest r.2 true

/-- Source `walkChildForDecref`; `path_stack` is in push order (element 0 first).
The first argument bounds the recursion depth; with 15 on a path stack of
one block it runs out only where the test on `path_stack.size()` answers
false anyway (`walkChildForDecref_fuel`). -/
def walkChildForDecref (F : Function) (incref : Instruction) :
    Nat → Nat → List Nat → List Nat → Bool × List Nat
  | 0, _, _, decref_blocks => (false, decref_blocks)
  | fuel + 1, cur_node, path_stack, decref_blocks =>
    if path_stack.length ≥ 15 then (false, decref_blocks)
    else if basicBlockInList cur_node path_stack then
      if path_stack.head? == some cur_node then (false, decref_blocks)
      else (true, decref_blocks)
    else if hasDecrefInNode incref (instsOf F cur_node) then
      (true, setInsert decref_blocks cur_node)
    else
      walkSuccessors
        (fun child blocks => walkChildForDecref F incref fuel child (path_stack ++ [cur_node]) blocks)
        (succs F cur_node) decref_blocks false

/-- Source `findFanoutDecrefCandidates`, called on the head block with an empty
`decref_blocks`. -/
def findFanoutDecrefCandidates (F : Function) (incref : Instruction) (cur_node : Nat)
    (decref_blocks : List Nat) : Bool × List Nat :=
  walkSuccessors
    (fun child blocks => walkChildForDecref F incref 15 child [cur_node] blocks)
    (succs F cur_node) decref_blocks false

/-- The loop over the predecessors in `verifyFanoutNonOverlapping`: `none`
is `return false`, otherwise the work stack (top first) after the pushes. -/
def pushPreds (head_node : Nat) (decref_blocks : List Nat) :
    List Nat → List Nat → Option (List Nat)
  | [], workstack => some workstack
  | pred :: rest, workstack =>
    if basicBlockInList pred decref_blocks then none
    else if pred != head_node then pushPreds head_node decref_blocks rest (pred :: workstack)
    else pushPreds head_node decref_blocks rest workstack

/-- The loop `while (workstack.size() > 0)` of `verifyFanoutNonOverlapping`;
the work stack has its top first.  The result is `false` for `return false`
and `true` when the stack runs empty.  The first argument bounds the number
of iterations; `F.length * F.length + 2` is never reached from a work stack
of one block of the function (`reverseWalk_fuel`).  The predecessors are
taken in block order; the answer does not depend on their order. -/
def reverseWalk (F : Function) (head_node : Nat) (decref_blocks : List Nat) :
    Nat → List Nat → List Nat → Bool
  | 0, _, _ => false
  | _ + 1, [], _ => true
  | fuel + 1, cur_node :: workstack, visited =>
    if basicBlockInList cur_node visited then
      reverseWalk F head_node decref_blocks fuel workstack visited
    else if cur_node == 0 then false
    else
      match pushPreds head_node decref_blocks (preds F cur_node) workstack with
      | none => false
      | some workstack' =>
        reverseWalk F head_node decref_blocks fuel workstack' (visited ++ [cur_node])

/-- The loop `while (todo.size() > 0)` of `verifyFanoutNonOverlapping`; the
list is `todo` in pop order. -/
def verifyLoop (F : Function) (head_node : Nat) (decref_blocks : List Nat) :
    List Nat → Bool
  | [] => true
  | bb :: todo =>
    if reverseWalk F head_node decref_blocks (F.length * F.length + 2) [bb] [] then
      verifyLoop F head_node decref_blocks todo
    else false

/-- Source `verifyFanoutNonOverlapping`: `todo` is filled from
`decref_blocks` and emptied from its back. -/
def verifyFanoutNonOverlapping (F : Function) (head_node : Nat)
    (decref_blocks : List Nat) : Bool :=
  verifyLoop F head_node decref_blocks decref_blocks.reverse

/-- Source `findFanout`: the answer and `decref_blocks` as the caller sees it. -/
def findFanout (F : Function) (incref : InstRef) : Bool × List Nat :=
  let r := findFanoutDecrefCandidates F incref.2 incref.1 []
  if r.1 then
    if verifyFanoutNonOverlapping F incref.1 r.2 then (true, r.2) else (false, r.2)
  else (false, r.2)

/-- The loop over the instructions of one tail block in `runFanoutPrune`:
erase the first decref related to `incref` and count it. -/
def eraseFirstRelated (incref : Instruction) (F : Function) (each : Nat) (n : Nat) :
    Function × Nat :=
  match (instsOf F each).find? (isRelatedDecref incref) with
  | some decref => (eraseFromParent F (each, decref), n + 1)
  | none => (F, n)

/-- The loop `for (BasicBlock* each : decref_blocks)` of `runFanoutPrune`. -/
def eraseTails (incref : Instruction) : List Nat → Function → Nat → Function × Nat
  | [], F, n => (F, n)
  | each :: rest, F, n =>
    let r := eraseFirstRelated incref F each n
    eraseTails incref rest r.1 r.2

/-- The body of `for (CallInst* incref : incref_list)` in `runFanoutPrune`. -/
def fanoutStep (incref : InstRef) (F : Function) (mutated : Bool) (n : Nat) :
    Function × Bool × Nat :=
  if hasAnyDecrefInNode (instsOf F incref.1) then (F, mutated, n)
  else
    let r := findFanout F incref
    if r.1 then
      let e := eraseTails incref.2 r.2 F n
      (eraseFromParent e.1 incref, true, e.2 + 1)
    else (F, mutated, n)

/-- The loop `for (CallInst* incref : incref_list)` of `runFanoutPrune`. -/
def fanoutLoop : List InstRef → Function → Bool → Nat → Function × Bool × Nat
  | [], F, mutated, n => (F, mutated, n)
  | incref :: rest, F, mutated, n =>
    let r := fanoutStep incref F mutated n
    fanoutLoop rest r.1 r.2.1 r.2.2

/-- Source `RefPrunePass::runFanoutPrune`: the function after the pruner,
the returned flag and the counters. -/
def runFanoutPrune (F : Function) (st : Stats) : Function × Bool × Stats :=
  let r := fanoutLoop (collectIncrefs F) F false st.fanout
  (r.1, r.2.1, { st with fanout := r.2.2 })

/-! ## RefPrunePass: the driver -/

/-- Number of instructions of the function, terminators apart. -/
def numInsts (F : Function) : Nat :=
  (F.map (fun bb => bb.insts.length)).sum

/-- One iteration of the `do { ... } while (local_mutated)` loop: the three
pruners in order and `local_mutated`. -/
def pruneIteration (DT PDT : InstRef → InstRef → Bool) (F : Function) (st : Stats) :
    Function × Bool × Stats :=
  let r1 := runPerBasicBlockPrune F st
  let r2 := runDiamondPrune DT PDT r1.1 r1.2.2
  let r3 := runFanoutPrune r2.1 r2.2.2
  (r3.1, r1.2.1 || r2.2.1 || r3.2.1, r3.2.2)

/-- The `do { ... } while (local_mutated)` loop of `runOnFunction`.  The
first argument bounds the number of iterations; `numInsts F + 1` is never
reached on a function with distinct instruction addresses
(`pruneLoop_fuel`). -/
def pruneLoop (DT PDT : InstRef → InstRef → Bool) :
    Nat → Function → Stats → Bool → Function × Bool × Stats
  | 0, F, st, mutated => (F, mutated, st)
  | fuel + 1, F, st, mutated =>
    let r := pruneIteration DT PDT F st
    if r.2.1 then pruneLoop DT PDT fuel r.1 r.2.2 (mutated || r.2.1)
    else (r.1, mutated || r.2.1, r.2.2)

/-- Source `RefPrunePass::runOnFunction`: the function after the pass, the returned
flag and the counters. -/
def RefPrunePass.runOnFunction (DT PDT : InstRef → InstRef → Bool) (F : Function)
    (st : Stats) : Function × Bool × Stats :=
  pruneLoop DT PDT (numInsts F + 1) F st false

/-- Source `LLVMPY_AddRefPrunePass` schedules the normalize pass and then the prune
pass; this is the pair run on one function. -/
def runRefPrunePasses (DT PDT : InstRef → InstRef → Bool) (F : Function) (st : Stats) :
    Function × Bool × Stats :=
  RefPrunePass.runOnFunction DT PDT (RefNormalizePass.runOnFunction F).1 st

/-- The struct `PRUNESTATS` filled by `LLVMPY_DumpRefPruneStats`. -/
structure PruneStats where
  basicblock : Nat
  diamond : Nat
  fanout : Nat
  fanout_raise : Nat
  deriving DecidableEq, Repr

/-- The text that `LLVMPY_DumpRefPruneStats` sends to `errs()` when
`do_print` is set: the chain of `<<` in source order, a counter being
written in decimal. -/
def statsLine (st : Stats) : String :=
  "refprune stats "
    ++ "per-BB " ++ toString st.per_bb ++ " "
    ++ "diamond " ++ toString st.diamond ++ " "
    ++ "fanout " ++ toString st.fanout ++ " "
    ++ "fanout+raise " ++ toString st.fanout_raise ++ " "
    ++ "\n"

/-- Source `LLVMPY_DumpRefPruneStats`: the struct written through `buf` and
the text written to standard error. -/
def LLVMPY_DumpRefPruneStats (st : Stats) (do_print : Bool) : PruneStats × String :=
  ({ basicblock := st.per_bb, diamond := st.diamond, fanout := st.fanout,
     fanout_raise := st.fanout_raise },
   if do_print then statsLine st else "")

/-- The counters after the two passes have run on each function of a list, in
order, every run with the analyses of its function. -/
def runAll :
    List ((InstRef → InstRef → Bool) × (InstRef → InstRef → Bool) × Function) → Stats → Stats
  | [], st => st
  | job :: rest, st => runAll rest (runRefPrunePasses job.1 job.2.1 job.2.2 st).2.2

/-! ## The forward walk with its path stacks recorded

The same walk as `walkChildForDecref`, returning next to its result every
value the path stack takes: the stack at the start of each call and the
stack after each `push_back`. -/

/-- The loop over the successors of `walkSuccessors`, with the recorded
stacks of the calls it makes. -/
def walkSuccessorsTrace (walk : Nat → List Nat → (Bool × List Nat) × List (List Nat)) :
    List Nat → List Nat → Bool → (Bool × List Nat) × List (List Nat)
  | [], decref_blocks, found => ((found, decref_blocks), [])
  | child :: rest, decref_blocks, _ =>
    let r := walk child decref_blocks
    if !r.1.1 then ((false, r.1.2), r.2)
    else
      let r2 := walkSuccessorsTrace walk rest r.1.2 true
      (r2.1, r.2 ++ r2.2)

/-- The function `walkChildForDecref` with the recorded stacks. -/
def walkChildForDecrefTrace (F : Function) (incref : Instruction) :
    Nat → Nat → List Nat → List Nat → (Bool × List Nat) × List (List Nat)
  | 0, _, path_stack, decref_blocks => ((false, decref_blocks), [path_stack])
  | fuel + 1, cur_node, path_stack, decref_blocks =>
    if path_stack.length ≥ 15 then ((false, decref_blocks), [path_stack])
    else if basicBlockInList cur_node path_stack then
      if path_stack.head? == some cur_node then ((false, decref_blocks), [path_stack])
      else ((true, decref_blocks), [path_stack])
    else if hasDecrefInNode incref (instsOf F cur_node) then
      ((true, setInsert decref_blocks cur_node), [path_stack])
    else
      let r := walkSuccessorsTrace
        (fun child blocks =>
          walkChildForDecrefTrace F incref fuel child (path_stack ++ [cur_node]) blocks)
        (succs F cur_node) decref_blocks false
      (r.1, path_stack :: (path_stack ++ [cur_node]) :: r.2)

/-- The function `findFanoutDecrefCandidates` with the recorded stacks; the
first one is the stack after the head block is pushed. -/
def findFanoutDecrefCandidatesTrace (F : Function) (incref : Instruction) (cur_node : Nat)
    (decref_blocks : List Nat) : (Bool × List Nat) × List (List Nat) :=
  let r := walkSuccessorsTrace
    (fun child blocks => walkChildForDecrefTrace F incref 15 child [cur_node] blocks)
    (succs F cur_node) decref_blocks false
  (r.1, [cur_node] :: r.2)

/-! ## A reference dominance relation

The dominator tree and the post-dominator tree are analyses of the IR
library, handed to the pass; the pruners take their queries as parameters.
The relations below are the textbook definitions on the CFG, used to run the
pass on concrete functions in which every block reaches an exit. -/

/-- One round of the closure: add the successors of the blocks seen so far,
except `avoid`. -/
def reachStep (F : Function) (avoid : Nat) (seen : List Nat) : List Nat :=
  (seen.flatMap (succs F)).foldl
    (fun acc c => if c == avoid || basicBlockInList c acc then acc else acc ++ [c]) seen

/-- Blocks reachable from `seen` without entering `avoid`, after `k` rounds. -/
def reachAvoiding (F : Function) (avoid : Nat) : Nat → List Nat → List Nat
  | 0, seen => seen
  | k + 1, seen => reachAvoiding F avoid k (reachStep F avoid seen)

/-- Block `a` dominates block `b`: `b` cannot be reached from the entry
block without entering `a`. -/
def dominatesBlock (F : Function) (a b : Nat) : Bool :=
  a == b ||
    !basicBlockInList b (reachAvoiding F a F.length (if a == 0 then [] else [0]))

/-- Block `a` post-dominates block `b`: no block without successors can be
reached from `b` without entering `a`. -/
def postDominatesBlock (F : Function) (a b : Nat) : Bool :=
  a == b ||
    !(reachAvoiding F a F.length [b]).any (fun x => (succs F x).isEmpty)

/-- The dominator-tree query on two instructions of different blocks. -/
def domTreeOf (F : Function) (incref decref : InstRef) : Bool :=
  dominatesBlock F incref.1 decref.1

/-- The post-dominator-tree query on two instructions of different blocks. -/
def postDomTreeOf (F : Function) (decref incref : InstRef) : Bool :=
  postDominatesBlock F decref.1 incref.1

/-! ## Properties used in the statements -/

/-- Distinct instructions of a block have distinct addresses. -/
def WellFormed (F : Function) : Prop :=
  ∀ bb ∈ F, bb.insts.Nodup

instance (F : Function) : Decidable (WellFormed F) := by
  unfold WellFormed
  infer_instance

/-- The post-normalization order of a block: every incref stands before
every decref. -/
def IncrefsBeforeDecrefs (insts : List Instruction) : Prop :=
  ∀ (i : Nat) (hi : i < insts.length) (j : Nat) (hj : j < insts.length),
    isIncrefOp (insts[i]) = true → isDecrefOp (insts[j]) = true → i < j

instance (insts : List Instruction) : Decidable (IncrefsBeforeDecrefs insts) := by
  unfold IncrefsBeforeDecrefs
  infer_instance

/-- A CFG path: each block is followed by one of its successors. -/
def IsPath (F : Function) : List Nat → Prop
  | [] => True
  | [_] => True
  | a :: b :: rest => b ∈ succs F a ∧ IsPath F (b :: rest)

/-- Deciding `IsPath` block by block. -/
def decidePath (F : Function) : (p : List Nat) → Decidable (IsPath F p)
  | [] => isTrue trivial
  | [_] => isTrue trivial
  | a :: b :: rest =>
    match decidePath F (b :: rest) with
    | isTrue h =>
      if hs : b ∈ succs F a then isTrue ⟨hs, h⟩ else isFalse (fun hp => hs hp.1)
    | isFalse h => isFalse (fun hp => h hp.2)

instance (F : Function) (p : List Nat) : Decidable (IsPath F p) :=
  decidePath F p

/-- A function exit: a block without successors. -/
def IsExit (F : Function) (b : Nat) : Prop :=
  succs F b = []

instance (F : Function) (b : Nat) : Decidable (IsExit F b) := by
  unfold IsExit
  infer_instance

/-- The part of a block that the passes must leave alone: its instructions
that are not refop calls, in order, and its terminator. -/
def nonRefopView (bb : BasicBlock) : List Instruction × Terminator :=
  (bb.insts.filter (fun ii => !isRefOp ii), bb.term)

/-- Block `bb'` is block `bb` with some refop calls erased. -/
def BlockShrinks (bb' bb : BasicBlock) : Prop :=
  bb'.term = bb.term ∧ bb'.insts.Sublist bb.insts ∧
    bb'.insts.filter (fun ii => !isRefOp ii) = bb.insts.filter (fun ii => !isRefOp ii)

/-- Function `F'` is function `F` with some refop calls erased. -/
def Shrinks (F' F : Function) : Prop :=
  List.Forall₂ BlockShrinks F' F

/-- Block `b` is reachable from block `a` along successor edges by a path
that does not enter `avoid` after its first block. -/
inductive ReachAvoid (F : Function) (avoid : Nat) : Nat → Nat → Prop
  | refl (a : Nat) : ReachAvoid F avoid a a
  | step {a b c : Nat} : ReachAvoid F avoid a b → c ∈ succs F b → c ≠ avoid →
      ReachAvoid F avoid a c

/-- What a walk of `hasDecrefBetweenGraph` that answers `false` has
established when it turns the visited stack `stack` into `stack'`: nothing
is dropped, and every block it pushed holds no decref and has all its
successors other than the tail on the stack. -/
def BetweenClosed (F : Function) (tail_node : Nat) (stack stack' : List Nat) : Prop :=
  (∀ x ∈ stack, x ∈ stack') ∧
    ∀ x ∈ stack', x ∉ stack →
      hasAnyDecrefInNode (instsOf F x) = false ∧
        ∀ c ∈ succs F x, c ≠ tail_node → c ∈ stack'

/-- What a successful forward walk of the fanout pruner has established for
the blocks `E` it pushed on the path stack, with head block `H`, tail blocks
`T` and the blocks `back` that were on the path stack above `H` when the
walk started: each of them is not `H`, has a successor, and each of its
successors is not `H` and is a tail block, one of `E`, or one of `back`. -/
def Covered (F : Function) (H : Nat) (T E back : List Nat) : Prop :=
  ∀ e ∈ E, e ≠ H ∧ succs F e ≠ [] ∧
    ∀ c ∈ succs F e, c ≠ H ∧ (c ∈ T ∨ c ∈ E ∨ c ∈ back)

/-- Block `x` reaches block `t` along successor edges by a path none of
whose blocks before `t` is `H`. -/
inductive BackReach (F : Function) (H : Nat) (t : Nat) : Nat → Prop
  | refl : BackReach F H t t
  | step {x p : Nat} : BackReach F H t x → x ∈ succs F p → p ≠ H → BackReach F H t p

/-! ## Concrete instructions and functions -/

/-- The call `NRT_incref(%p)` at address `id`. -/
def mkIncref (id p : Nat) : Instruction :=
  { id := id, isCall := true, calleeName := "NRT_incref", direct := true, arg0 := Value.val p }

/-- The call `NRT_decref(%p)` at address `id`. -/
def mkDecref (id p : Nat) : Instruction :=
  { id := id, isCall := true, calleeName := "NRT_decref", direct := true, arg0 := Value.val p }

/-- The call `NRT_decref(null)` at address `id`. -/
def mkDecrefNull (id : Nat) : Instruction :=
  { id := id, isCall := true, calleeName := "NRT_decref", direct := true,
    arg0 := Value.nullPtr }

/-- A call `use(%p)` at address `id`. -/
def mkUse (id p : Nat) : Instruction :=
  { id := id, isCall := true, calleeName := "use", direct := true, arg0 := Value.val p }

/-- A block from its instructions, the address of its terminator and the
successors. -/
def mkBlock (insts : List Instruction) (id : Nat) (succs : List Nat) : BasicBlock :=
  { insts := insts, term := { id := id, succs := succs } }

/-- All counters at zero. -/
def zeroStats : Stats :=
  { per_bb := 0, diamond := 0, fanout := 0, fanout_raise := 0 }

/-- One block `decref %p; incref %p; ret`. -/
def unorderedFn : Function :=
  [mkBlock [mkDecref 1 7, mkIncref 2 7] 3 []]

/-- Scenario 1: one block `incref %p; use %p; decref %p; ret`. -/
def singleBlockPairFn : Function :=
  [mkBlock [mkIncref 1 7, mkUse 2 7, mkDecref 3 7] 4 []]

/-- Scenario 2: one block `decref null; ret`. -/
def nullRefopFn : Function :=
  [mkBlock [mkDecrefNull 1] 2 []]

/-- One block `incref %p; ret`. -/
def loneIncrefFn : Function :=
  [mkBlock [mkIncref 1 7] 2 []]

/-- Scenario 4: the diamond `A -> B, A -> C, B -> D, C -> D` with
`incref %p` in `A`, `decref %q` in `B` and `decref %p` in `D`. -/
def diamondInterferenceFn : Function :=
  [mkBlock [mkIncref 1 7] 10 [1, 2], mkBlock [mkDecref 3 8] 11 [3], mkBlock [] 12 [3],
    mkBlock [mkDecref 2 7] 13 []]

/-- Scenario 3: the diamond `A -> B, A -> C, B -> D, C -> D` with
`incref %p` in `A` and `decref %p` in `D`. -/
def diamondFn : Function :=
  [mkBlock [mkIncref 1 7] 10 [1, 2], mkBlock [] 11 [3], mkBlock [] 12 [3],
    mkBlock [mkDecref 2 7] 13 []]

/-- Scenario 5: `H -> A, H -> B, A -> X, B -> X` with `incref %p` in `H`
and `decref %p` in `A` and in `B`. -/
def fanoutFn : Function :=
  [mkBlock [mkIncref 1 7] 10 [1, 2], mkBlock [mkDecref 2 7] 11 [3],
    mkBlock [mkDecref 3 7] 12 [3], mkBlock [] 13 []]

/-- Scenario 6: `E -> H, E -> A, H -> A` with `incref %p` in `H` and
`decref %p` in `A`. -/
def entryBypassFn : Function :=
  [mkBlock [] 10 [1, 2], mkBlock [mkIncref 1 7] 11 [2], mkBlock [mkDecref 2 7] 12 []]

/-- The CFG `H -> A, A -> A` with `incref %p` in `H` and no decref. -/
def selfLoopFn : Function :=
  [mkBlock [mkIncref 1 7] 10 [1], mkBlock [] 11 [1]]

/-- An indirect call through a value named `NRT_decref`, on the null
pointer constant. -/
def indirectDecrefNull : Instruction :=
  { id := 1, isCall := true, calleeName := "NRT_decref", direct := false,
    arg0 := Value.nullPtr }

/-- One block holding the indirect call `indirectDecrefNull`. -/
def indirectCallFn : Function :=
  [mkBlock [indirectDecrefNull] 2 []]

/-- The blocks `i, i + 1, ..., i + k - 1` of a chain: each is empty and
branches to the next block. -/
def chainBlocks : Nat → Nat → List BasicBlock
  | _, 0 => []
  | i, k + 1 => mkBlock [] (100 + i) [i + 1] :: chainBlocks (i + 1) k

/-- The chain `H -> c1 -> ... -> ck -> t` with `incref %p` in `H` and
`decref %p` in `t`. -/
def chainFn (k : Nat) : Function :=
  mkBlock [mkIncref 1 7] 100 [1] :: (chainBlocks 1 k ++ [mkBlock [mkDecref 2 7] 99 []])

/-- One block `incref %p; incref %p; decref %p; decref %p; decref %p; ret`,
all on the same pointer. -/
def tieBreakFn : Function :=
  [mkBlock [mkIncref 1 7, mkIncref 2 7, mkDecref 3 7, mkDecref 4 7, mkDecref 5 7] 6 []]

/-- Scenario 5 with a second `decref %p` in tail block `A`. -/
def fanoutTwoDecrefsFn : Function :=
  [mkBlock [mkIncref 1 7] 10 [1, 2], mkBlock [mkDecref 2 7, mkDecref 4 7] 11 [3],
    mkBlock [mkDecref 3 7] 12 [3], mkBlock [] 13 []]

/-- The CFG `H -> A, A -> X` with `incref %p` and `decref %q` in `H` and
`decref %p` in `A`. -/
def headGateFn : Function :=
  [mkBlock [mkIncref 1 7, mkDecref 2 8] 10 [1], mkBlock [mkDecref 3 7] 11 [2],
    mkBlock [] 12 []]

/-- The chain `A -> B -> C` with `incref %q; incref %p` in `A`, `decref %q`
in `B` and `decref %p` in `C`. -/
def chainTwoPairsFn : Function :=
  [mkBlock [mkIncref 1 8, mkIncref 2 7] 10 [1], mkBlock [mkDecref 3 8] 11 [2],
    mkBlock [mkDecref 4 7] 12 []]

/-! ## Classification lemmas -/

theorem isIncrefOp_eq (ii : Instruction) : isIncrefOp ii = (ii.isCall && IsIncRef ii) := by
  unfold isIncrefOp GetRefOpCall
  cases h1 : ii.isCall <;> cases h2 : IsIncRef ii <;> cases h3 : IsDecRef ii <;> simp [h2]

theorem isDecrefOp_eq (ii : Instruction) : isDecrefOp ii = (ii.isCall && IsDecRef ii) := by
  unfold isDecrefOp GetRefOpCall
  cases h1 : ii.isCall <;> cases h2 : IsIncRef ii <;> cases h3 : IsDecRef ii <;> simp [h3]

theorem isRefOp_eq (ii : Instruction) :
    isRefOp ii = (ii.isCall && (IsIncRef ii || IsDecRef ii)) := by
  unfold isRefOp GetRefOpCall
  cases h1 : ii.isCall <;> cases h2 : IsIncRef ii <;> cases h3 : IsDecRef ii <;> simp

theorem incref_not_decref (ii : Instruction) (h : IsIncRef ii = true) : IsDecRef ii = false := by
  unfold IsIncRef at h
  unfold IsDecRef
  have h' : ii.calleeName = "NRT_incref" := by simpa using h
  rw [h']
  decide

theorem isRelatedDecref_eq (incref ii : Instruction) :
    isRelatedDecref incref ii = (ii.isCall && IsDecRef ii && (incref.arg0 == ii.arg0)) := by
  unfold isRelatedDecref IsDecRef
  cases h1 : ii.isCall <;> cases h2 : (ii.calleeName == "NRT_decref") <;>
    cases h3 : (incref.arg0 == ii.arg0) <;> simp [bne, h2, h3]

theorem isIncrefOp_not_isDecrefOp (ii : Instruction) (h : isIncrefOp ii = true) :
    isDecrefOp ii = false := by
  rw [isIncrefOp_eq] at h
  rw [isDecrefOp_eq]
  have h2 : IsIncRef ii = true := by
    cases hc : ii.isCall <;> simp [hc] at h
    exact h
  simp [incref_not_decref ii h2]

theorem isRelatedDecref_isDecrefOp (incref ii : Instruction)
    (h : isRelatedDecref incref ii = true) : isDecrefOp ii = true := by
  rw [isRelatedDecref_eq] at h
  rw [isDecrefOp_eq]
  simp only [Bool.and_eq_true] at h
  simp [h.1.1, h.1.2]

theorem isDecrefOp_isRefOp (ii : Instruction) (h : isDecrefOp ii = true) :
    isRefOp ii = true := by
  rw [isDecrefOp_eq] at h
  rw [isRefOp_eq]
  simp only [Bool.and_eq_true] at h
  simp [h.1, h.2]

theorem isIncrefOp_isRefOp (ii : Instruction) (h : isIncrefOp ii = true) :
    isRefOp ii = true := by
  rw [isIncrefOp_eq] at h
  rw [isRefOp_eq]
  simp only [Bool.and_eq_true] at h
  simp [h.1, h.2]

theorem isRelatedDecref_of_arg_ne (incref d : Instruction) (h : incref.arg0 ≠ d.arg0) :
    isRelatedDecref incref d = false := by
  rw [isRelatedDecref_eq]
  simp [h]

theorem isRelatedDecref_arg (incref d : Instruction) (h : isRelatedDecref incref d = true) :
    incref.arg0 = d.arg0 := by
  rw [isRelatedDecref_eq] at h
  simp only [Bool.and_eq_true, beq_iff_eq] at h
  exact h.2

theorem basicBlockInList_iff (bb : Nat) (list : List Nat) :
    basicBlockInList bb list = true ↔ bb ∈ list := by
  unfold basicBlockInList
  rw [List.any_eq_true]
  constructor
  · rintro ⟨x, hx, e⟩
    have : bb = x := by simpa using e
    rw [this]; exact hx
  · intro h
    exact ⟨bb, h, by simp⟩

/-! ## Erasing from an instruction list -/

theorem mem_eraseInst (insts : List Instruction) (ci x : Instruction) :
    x ∈ eraseInst insts ci ↔ x ∈ insts ∧ x ≠ ci := by
  simp [eraseInst]

theorem eraseInst_append (a b : List Instruction) (ci : Instruction) :
    eraseInst (a ++ b) ci = eraseInst a ci ++ eraseInst b ci := by
  simp [eraseInst]

theorem eraseInst_sublist (insts : List Instruction) (ci : Instruction) :
    (eraseInst insts ci).Sublist insts := by
  simp [eraseInst]

theorem eraseInst_nodup (insts : List Instruction) (ci : Instruction) (h : insts.Nodup) :
    (eraseInst insts ci).Nodup :=
  h.sublist (eraseInst_sublist insts ci)

theorem eraseInst_length_le (insts : List Instruction) (ci : Instruction) :
    (eraseInst insts ci).length ≤ insts.length :=
  (eraseInst_sublist insts ci).length_le

theorem eraseInst_of_not_mem (insts : List Instruction) (ci : Instruction)
    (h : ci ∉ insts) : eraseInst insts ci = insts := by
  unfold eraseInst
  rw [List.filter_eq_self]
  intro a ha
  have : a ≠ ci := fun e => h (e ▸ ha)
  simpa using this

theorem eraseInst_length_of_mem (insts : List Instruction) (ci : Instruction)
    (hn : insts.Nodup) (h : ci ∈ insts) :
    (eraseInst insts ci).length + 1 = insts.length := by
  induction insts with
  | nil => simp at h
  | cons a l ih =>
    rw [List.nodup_cons] at hn
    by_cases hac : a = ci
    · subst hac
      have : eraseInst (a :: l) a = l := by
        have h1 : eraseInst (a :: l) a = eraseInst l a := by simp [eraseInst]
        rw [h1, eraseInst_of_not_mem l a hn.1]
      rw [this]; simp
    · have hl : ci ∈ l := by
        rcases List.mem_cons.1 h with h | h
        · exact absurd h.symm hac
        · exact h
      have : eraseInst (a :: l) ci = a :: eraseInst l ci := by
        simp [eraseInst, hac]
      rw [this]
      simp [ih hn.2 hl]

theorem eraseInst_filter_of_true (p : Instruction → Bool) (insts : List Instruction)
    (ci : Instruction) (h : p ci = false) :
    (eraseInst insts ci).filter p = insts.filter p := by
  unfold eraseInst
  rw [List.filter_filter]
  apply List.filter_congr
  intro x _
  by_cases hx : x = ci
  · subst hx; simp [h]
  · simp [hx]

/-! ## Erasing through a function-wide reference -/

theorem eraseFromParent_nil (r : InstRef) : eraseFromParent [] r = [] := by
  simp [eraseFromParent]

theorem eraseFromParent_cons_zero (bb : BasicBlock) (F : List BasicBlock) (ci : Instruction) :
    eraseFromParent (bb :: F) (0, ci) = { bb with insts := eraseInst bb.insts ci } :: F := by
  simp [eraseFromParent]

theorem eraseFromParent_cons_succ (bb : BasicBlock) (F : List BasicBlock) (n : Nat)
    (ci : Instruction) :
    eraseFromParent (bb :: F) (n + 1, ci) = bb :: eraseFromParent F (n, ci) := by
  unfold eraseFromParent
  simp only [List.getElem?_cons_succ]
  cases h : F[n]? with
  | none => rfl
  | some b => simp

theorem instsOf_nil (b : Nat) : instsOf [] b = [] := by
  simp [instsOf]

theorem instsOf_cons_zero (bb : BasicBlock) (F : List BasicBlock) :
    instsOf (bb :: F) 0 = bb.insts := by
  simp [instsOf]

theorem instsOf_cons_succ (bb : BasicBlock) (F : List BasicBlock) (n : Nat) :
    instsOf (bb :: F) (n + 1) = instsOf F n := by
  simp [instsOf]

theorem succs_cons_zero (bb : BasicBlock) (F : List BasicBlock) :
    succs (bb :: F) 0 = bb.term.succs := by
  simp [succs]

theorem succs_cons_succ (bb : BasicBlock) (F : List BasicBlock) (n : Nat) :
    succs (bb :: F) (n + 1) = succs F n := by
  simp [succs]

theorem instsOf_eraseFromParent (F : Function) (r : InstRef) (b : Nat) :
    instsOf (eraseFromParent F r) b
      = if b = r.1 then eraseInst (instsOf F b) r.2 else instsOf F b := by
  obtain ⟨n, ci⟩ := r
  induction F generalizing n b with
  | nil => simp [eraseFromParent_nil, instsOf_nil, eraseInst]
  | cons bb F ih =>
    cases n with
    | zero =>
      rw [eraseFromParent_cons_zero]
      cases b with
      | zero => simp [instsOf_cons_zero]
      | succ b => simp [instsOf_cons_succ]
    | succ n =>
      rw [eraseFromParent_cons_succ]
      cases b with
      | zero => simp [instsOf_cons_zero]
      | succ b =>
        simp only [instsOf_cons_succ]
        rw [ih]
        simp

theorem succs_eraseFromParent (F : Function) (r : InstRef) (b : Nat) :
    succs (eraseFromParent F r) b = succs F b := by
  obtain ⟨n, ci⟩ := r
  induction F generalizing n b with
  | nil => simp [eraseFromParent_nil]
  | cons bb F ih =>
    cases n with
    | zero =>
      rw [eraseFromParent_cons_zero]
      cases b with
      | zero => simp [succs_cons_zero]
      | succ b => simp [succs_cons_succ]
    | succ n =>
      rw [eraseFromParent_cons_succ]
      cases b with
      | zero => simp [succs_cons_zero]
      | succ b =>
        simp only [succs_cons_succ]
        exact ih b n

theorem length_eraseFromParent (F : Function) (r : InstRef) :
    (eraseFromParent F r).length = F.length := by
  unfold eraseFromParent
  cases h : F[r.1]? with
  | none => rfl
  | some b => simp

/-! ## Shrinking -/

theorem blockShrinks_refl (bb : BasicBlock) : BlockShrinks bb bb :=
  ⟨rfl, List.Sublist.refl _, rfl⟩

theorem blockShrinks_trans {a b c : BasicBlock} (h1 : BlockShrinks a b)
    (h2 : BlockShrinks b c) : BlockShrinks a c :=
  ⟨h1.1.trans h2.1, h1.2.1.trans h2.2.1, h1.2.2.trans h2.2.2⟩

theorem shrinks_refl (F : Function) : Shrinks F F := by
  induction F with
  | nil => exact List.Forall₂.nil
  | cons bb F ih => exact List.Forall₂.cons (blockShrinks_refl bb) ih

theorem shrinks_trans {A B C : Function} (h1 : Shrinks A B) (h2 : Shrinks B C) :
    Shrinks A C := by
  induction h1 generalizing C with
  | nil => cases h2; exact List.Forall₂.nil
  | cons hab _ ih =>
    cases h2 with
    | cons hbc hrest => exact List.Forall₂.cons (blockShrinks_trans hab hbc) (ih hrest)

theorem blockShrinks_of_insts (bb : BasicBlock) (insts : List Instruction)
    (h1 : insts.Sublist bb.insts)
    (h2 : insts.filter (fun ii => !isRefOp ii) = bb.insts.filter (fun ii => !isRefOp ii)) :
    BlockShrinks { bb with insts := insts } bb :=
  ⟨rfl, h1, h2⟩

theorem eraseInst_keeps_non_refops (insts : List Instruction) (ci : Instruction)
    (h : isRefOp ci = true) :
    (eraseInst insts ci).filter (fun ii => !isRefOp ii)
      = insts.filter (fun ii => !isRefOp ii) :=
  eraseInst_filter_of_true _ insts ci (by simp [h])

theorem eraseFromParent_shrinks (F : Function) (r : InstRef) (h : isRefOp r.2 = true) :
    Shrinks (eraseFromParent F r) F := by
  obtain ⟨n, ci⟩ := r
  induction F generalizing n with
  | nil => rw [eraseFromParent_nil]; exact List.Forall₂.nil
  | cons bb F ih =>
    cases n with
    | zero =>
      rw [eraseFromParent_cons_zero]
      exact List.Forall₂.cons
        (blockShrinks_of_insts bb _ (eraseInst_sublist _ _)
          (eraseInst_keeps_non_refops _ _ h))
        (shrinks_refl F)
    | succ n =>
      rw [eraseFromParent_cons_succ]
      exact List.Forall₂.cons (blockShrinks_refl bb) (ih n h)

theorem shrinks_length_eq {A B : Function} (h : Shrinks A B) : A.length = B.length :=
  List.Forall₂.length_eq h

theorem shrinks_view_eq {A B : Function} (h : Shrinks A B) :
    A.map nonRefopView = B.map nonRefopView := by
  induction h with
  | nil => rfl
  | cons hab _ ih =>
    simp only [List.map_cons, ih, nonRefopView, hab.1, hab.2.2]

theorem shrinks_wellFormed {A B : Function} (h : Shrinks A B) (hB : WellFormed B) :
    WellFormed A := by
  induction h with
  | nil => intro bb hbb; simp at hbb
  | cons hab _ ih =>
    intro bb hbb
    rcases List.mem_cons.1 hbb with e | e
    · subst e
      exact (hB _ (List.mem_cons_self _ _)).sublist hab.2.1
    · exact ih (fun b hb => hB b (List.mem_cons_of_mem _ hb)) bb e

theorem shrinks_numInsts_le {A B : Function} (h : Shrinks A B) : numInsts A ≤ numInsts B := by
  induction h with
  | nil => simp [numInsts]
  | cons hab _ ih =>
    simp only [numInsts, List.map_cons, List.sum_cons] at ih ⊢
    have := hab.2.1.length_le
    omega

theorem shrinks_succs_eq {A B : Function} (h : Shrinks A B) (b : Nat) :
    succs A b = succs B b := by
  induction h generalizing b with
  | nil => rfl
  | cons hab _ ih =>
    cases b with
    | zero => simp [succs_cons_zero, hab.1]
    | succ b => simp only [succs_cons_succ]; exact ih b

theorem shrinks_instsOf_sublist {A B : Function} (h : Shrinks A B) (b : Nat) :
    (instsOf A b).Sublist (instsOf B b) := by
  induction h generalizing b with
  | nil => simp [instsOf_nil]
  | cons hab _ ih =>
    cases b with
    | zero => simp only [instsOf_cons_zero]; exact hab.2.1
    | succ b => simp only [instsOf_cons_succ]; exact ih b

/-! ## The pruners only erase refop calls -/

theorem eraseNullLoop_insts (L : List Instruction) :
    ∀ (insts : List Instruction) (m : Bool) (n : Nat),
      (∀ x ∈ L, isRefOp x = true) →
      (eraseNullLoop L insts m n).1.Sublist insts ∧
      (eraseNullLoop L insts m n).1.filter (fun ii => !isRefOp ii)
        = insts.filter (fun ii => !isRefOp ii) := by
  induction L with
  | nil => intro insts m n _; exact ⟨List.Sublist.refl _, rfl⟩
  | cons ci L ih =>
    intro insts m n h
    simp only [eraseNullLoop]
    have h1 := ih (eraseInst insts ci) true (n + 1) (fun x hx => h x (List.mem_cons_of_mem _ hx))
    refine ⟨h1.1.trans (eraseInst_sublist _ _), ?_⟩
    rw [h1.2]
    exact eraseInst_keeps_non_refops _ _ (h ci (List.mem_cons_self _ _))

theorem takeRelatedSlot_related (incref : Instruction) (slots : List (Option Instruction)) :
    ∀ (d : Instruction) (slots' : List (Option Instruction)),
      takeRelatedSlot incref slots = some (d, slots') → isRelatedDecref incref d = true := by
  induction slots with
  | nil => intro d s h; simp [takeRelatedSlot] at h
  | cons a rest ih =>
    intro d s h
    cases a with
    | none =>
      simp only [takeRelatedSlot] at h
      cases hr : takeRelatedSlot incref rest with
      | none => simp [hr] at h
      | some p =>
        obtain ⟨d', r'⟩ := p
        simp only [hr, Option.some.injEq, Prod.mk.injEq] at h
        rw [← h.1]
        exact ih d' r' hr
    | some dec =>
      simp only [takeRelatedSlot] at h
      by_cases hrel : isRelatedDecref incref dec = true
      · simp only [hrel, if_true, Option.some.injEq, Prod.mk.injEq] at h
        rw [← h.1]; exact hrel
      · rw [if_neg hrel] at h
        cases hr : takeRelatedSlot incref rest with
        | none => simp [hr] at h
        | some p =>
          obtain ⟨d', r'⟩ := p
          simp only [hr, Option.some.injEq, Prod.mk.injEq] at h
          rw [← h.1]
          exact ih d' r' hr

theorem pairLoop_insts (incs : List Instruction) :
    ∀ (slots : List (Option Instruction)) (insts : List Instruction) (m : Bool) (n : Nat),
      (∀ x ∈ incs, isRefOp x = true) →
      (pairLoop incs slots insts m n).1.Sublist insts ∧
      (pairLoop incs slots insts m n).1.filter (fun ii => !isRefOp ii)
        = insts.filter (fun ii => !isRefOp ii) := by
  induction incs with
  | nil => intro slots insts m n _; exact ⟨List.Sublist.refl _, rfl⟩
  | cons inc incs ih =>
    intro slots insts m n h
    have hrest : ∀ x ∈ incs, isRefOp x = true := fun x hx => h x (List.mem_cons_of_mem _ hx)
    simp only [pairLoop]
    cases ht : takeRelatedSlot inc slots with
    | none => exact ih slots insts m n hrest
    | some p =>
      obtain ⟨d, slots'⟩ := p
      have hd : isRefOp d = true :=
        isDecrefOp_isRefOp d (isRelatedDecref_isDecrefOp inc d
          (takeRelatedSlot_related inc slots d slots' ht))
      have h1 := ih slots' (eraseInst (eraseInst insts inc) d) true (n + 2) hrest
      refine ⟨h1.1.trans ((eraseInst_sublist _ _).trans (eraseInst_sublist _ _)), ?_⟩
      rw [h1.2, eraseInst_keeps_non_refops _ _ hd,
        eraseInst_keeps_non_refops _ _ (h inc (List.mem_cons_self _ _))]

theorem pruneBlock_shrinks (bb : BasicBlock) (m : Bool) (n : Nat) :
    BlockShrinks (pruneBlock bb m n).1 bb := by
  have h1 := eraseNullLoop_insts (nullList bb.insts) bb.insts m n (by
    intro x hx
    have := (List.mem_filter.1 hx).2
    simp only [Bool.and_eq_true] at this
    exact this.1)
  have h2 := pairLoop_insts (increfList bb.insts).reverse ((decrefList bb.insts).map some)
    (eraseNullLoop (nullList bb.insts) bb.insts m n).1
    (eraseNullLoop (nullList bb.insts) bb.insts m n).2.1
    (eraseNullLoop (nullList bb.insts) bb.insts m n).2.2 (by
    intro x hx
    have := (List.mem_filter.1 (List.mem_reverse.1 hx)).2
    simp only [Bool.and_eq_true] at this
    exact this.1.1)
  exact ⟨rfl, h2.1.trans h1.1, h2.2.trans h1.2⟩

theorem pruneBlocks_shrinks (F : List BasicBlock) :
    ∀ (m : Bool) (n : Nat), Shrinks (pruneBlocks F m n).1 F := by
  induction F with
  | nil => intro m n; exact List.Forall₂.nil
  | cons bb F ih =>
    intro m n
    simp only [pruneBlocks]
    exact List.Forall₂.cons (pruneBlock_shrinks bb m n) (ih _ _)

theorem runPerBasicBlockPrune_shrinks (F : Function) (st : Stats) :
    Shrinks (runPerBasicBlockPrune F st).1 F :=
  pruneBlocks_shrinks F false st.per_bb

theorem mem_collectFrom (p : Instruction → Bool) (F : List BasicBlock) :
    ∀ (i : Nat) (r : InstRef),
      r ∈ collectFrom p i F ↔ ∃ b, r.1 = i + b ∧ r.2 ∈ instsOf F b ∧ p r.2 = true := by
  induction F with
  | nil => intro i r; simp [collectFrom, instsOf_nil]
  | cons bb F ih =>
    intro i r
    simp only [collectFrom, List.mem_append, List.mem_map, List.mem_filter]
    constructor
    · rintro (⟨ii, ⟨h1, h2⟩, h3⟩ | h)
      · refine ⟨0, ?_, ?_, ?_⟩
        · rw [← h3]; simp
        · rw [← h3]; simpa [instsOf_cons_zero] using h1
        · rw [← h3]; exact h2
      · obtain ⟨b, h1, h2, h3⟩ := (ih (i + 1) r).1 h
        exact ⟨b + 1, by omega, by simpa [instsOf_cons_succ] using h2, h3⟩
    · rintro ⟨b, h1, h2, h3⟩
      cases b with
      | zero =>
        left
        refine ⟨r.2, ⟨by simpa [instsOf_cons_zero] using h2, h3⟩, ?_⟩
        have : r.1 = i := by simpa using h1
        rw [← this]
      | succ b =>
        right
        exact (ih (i + 1) r).2 ⟨b, by omega, by simpa [instsOf_cons_succ] using h2, h3⟩

theorem mem_collectIncrefs (F : Function) (r : InstRef) :
    r ∈ collectIncrefs F ↔ r.2 ∈ instsOf F r.1 ∧ isIncrefOp r.2 = true := by
  unfold collectIncrefs
  rw [mem_collectFrom]
  constructor
  · rintro ⟨b, h1, h2, h3⟩
    have hb : r.1 = b := by omega
    rw [hb]
    refine ⟨h2, ?_⟩
    rw [isIncrefOp_eq]
    rw [isRefOp_eq] at h3
    simp only [Bool.and_eq_true] at h3
    simp [h3.1.1, h3.2]
  · rintro ⟨h1, h2⟩
    refine ⟨r.1, by omega, h1, ?_⟩
    rw [isIncrefOp_eq] at h2
    rw [isRefOp_eq]
    simp only [Bool.and_eq_true] at h2
    simp [h2.1, h2.2]

theorem mem_collectDecrefs (F : Function) (r : InstRef) :
    r ∈ collectDecrefs F ↔ r.2 ∈ instsOf F r.1 ∧ isDecrefOp r.2 = true := by
  unfold collectDecrefs
  rw [mem_collectFrom]
  constructor
  · rintro ⟨b, h1, h2, h3⟩
    have hb : r.1 = b := by omega
    rw [hb]
    refine ⟨h2, ?_⟩
    rw [isDecrefOp_eq]
    rw [isRefOp_eq] at h3
    simp only [Bool.and_eq_true] at h3
    simp [h3.1.1.1, h3.2]
  · rintro ⟨h1, h2⟩
    refine ⟨r.1, by omega, h1, ?_⟩
    rw [isDecrefOp_eq] at h2
    rw [isRefOp_eq]
    simp only [Bool.and_eq_true] at h2
    have hni : IsIncRef r.2 = false := by
      cases h : IsIncRef r.2
      · rfl
      · have := incref_not_decref r.2 h
        rw [h2.2] at this
        exact Bool.noConfusion this
    simp [h2.1, h2.2, hni]

theorem diamondTest_related (DT PDT : InstRef → InstRef → Bool) (F : Function)
    (incref decref : InstRef) (h : diamondTest DT PDT F incref decref = true) :
    isRelatedDecref incref.2 decref.2 = true := by
  unfold diamondTest at h
  split at h
  · exact Bool.noConfusion h
  · split at h
    · exact Bool.noConfusion h
    · rename_i h2
      simpa using h2

theorem diamondScan_test (DT PDT : InstRef → InstRef → Bool) (F : Function) (incref : InstRef)
    (slots : List (Option InstRef)) :
    ∀ (d : InstRef) (slots' : List (Option InstRef)),
      diamondScan DT PDT F incref slots = some (d, slots') →
        diamondTest DT PDT F incref d = true ∧ some d ∈ slots := by
  induction slots with
  | nil => intro d s h; simp [diamondScan] at h
  | cons a rest ih =>
    intro d s h
    cases a with
    | none =>
      simp only [diamondScan] at h
      cases hr : diamondScan DT PDT F incref rest with
      | none => simp [hr] at h
      | some p =>
        obtain ⟨d', r'⟩ := p
        simp only [hr, Option.some.injEq, Prod.mk.injEq] at h
        rw [← h.1]
        exact ⟨(ih d' r' hr).1, List.mem_cons_of_mem _ (ih d' r' hr).2⟩
    | some dec =>
      simp only [diamondScan] at h
      by_cases hrel : diamondTest DT PDT F incref dec = true
      · simp only [hrel, if_true, Option.some.injEq, Prod.mk.injEq] at h
        rw [← h.1]; exact ⟨hrel, List.mem_cons_self _ _⟩
      · rw [if_neg hrel] at h
        cases hr : diamondScan DT PDT F incref rest with
        | none => simp [hr] at h
        | some p =>
          obtain ⟨d', r'⟩ := p
          simp only [hr, Option.some.injEq, Prod.mk.injEq] at h
          rw [← h.1]
          exact ⟨(ih d' r' hr).1, List.mem_cons_of_mem _ (ih d' r' hr).2⟩

theorem diamondLoop_shrinks (DT PDT : InstRef → InstRef → Bool) (incs : List InstRef) :
    ∀ (slots : List (Option InstRef)) (F : Function) (m : Bool) (n : Nat),
      (∀ r ∈ incs, isRefOp r.2 = true) →
      Shrinks (diamondLoop DT PDT incs slots F m n).1 F := by
  induction incs with
  | nil => intro slots F m n _; exact shrinks_refl F
  | cons inc incs ih =>
    intro slots F m n h
    have hrest : ∀ r ∈ incs, isRefOp r.2 = true := fun x hx => h x (List.mem_cons_of_mem _ hx)
    simp only [diamondLoop]
    cases ht : diamondScan DT PDT F inc slots with
    | none => exact ih slots F m n hrest
    | some p =>
      obtain ⟨d, slots'⟩ := p
      have hd : isRefOp d.2 = true :=
        isDecrefOp_isRefOp d.2 (isRelatedDecref_isDecrefOp inc.2 d.2
          (diamondTest_related DT PDT F inc d (diamondScan_test DT PDT F inc slots d slots' ht).1))
      exact shrinks_trans (ih slots' _ true (n + 2) hrest)
        (shrinks_trans (eraseFromParent_shrinks _ d hd)
          (eraseFromParent_shrinks F inc (h inc (List.mem_cons_self _ _))))

theorem collectIncrefs_refop (F : Function) : ∀ r ∈ collectIncrefs F, isRefOp r.2 = true :=
  fun r hr => isIncrefOp_isRefOp r.2 ((mem_collectIncrefs F r).1 hr).2

theorem runDiamondPrune_shrinks (DT PDT : InstRef → InstRef → Bool) (F : Function)
    (st : Stats) : Shrinks (runDiamondPrune DT PDT F st).1 F :=
  diamondLoop_shrinks DT PDT (collectIncrefs F) _ F false st.diamond (collectIncrefs_refop F)

theorem eraseFirstRelated_shrinks (incref : Instruction) (F : Function) (each n : Nat) :
    Shrinks (eraseFirstRelated incref F each n).1 F := by
  unfold eraseFirstRelated
  cases h : (instsOf F each).find? (isRelatedDecref incref) with
  | none => exact shrinks_refl F
  | some d =>
    have hd : isRelatedDecref incref d = true := by
      have := List.find?_some h
      exact this
    exact eraseFromParent_shrinks F (each, d)
      (isDecrefOp_isRefOp d (isRelatedDecref_isDecrefOp incref d hd))

theorem eraseTails_shrinks (incref : Instruction) (T : List Nat) :
    ∀ (F : Function) (n : Nat), Shrinks (eraseTails incref T F n).1 F := by
  induction T with
  | nil => intro F n; exact shrinks_refl F
  | cons t T ih =>
    intro F n
    simp only [eraseTails]
    exact shrinks_trans (ih _ _) (eraseFirstRelated_shrinks incref F t n)

theorem fanoutStep_shrinks (incref : InstRef) (F : Function) (m : Bool) (n : Nat)
    (h : isRefOp incref.2 = true) : Shrinks (fanoutStep incref F m n).1 F := by
  unfold fanoutStep
  by_cases h1 : hasAnyDecrefInNode (instsOf F incref.1) = true
  · rw [if_pos h1]; exact shrinks_refl F
  · rw [if_neg h1]
    by_cases h2 : (findFanout F incref).1 = true
    · simp only [h2, if_true]
      exact shrinks_trans (eraseFromParent_shrinks _ incref h) (eraseTails_shrinks _ _ _ _)
    · simp only [h2]
      exact shrinks_refl F

theorem fanoutLoop_shrinks (incs : List InstRef) :
    ∀ (F : Function) (m : Bool) (n : Nat), (∀ r ∈ incs, isRefOp r.2 = true) →
      Shrinks (fanoutLoop incs F m n).1 F := by
  induction incs with
  | nil => intro F m n _; exact shrinks_refl F
  | cons inc incs ih =>
    intro F m n h
    simp only [fanoutLoop]
    exact shrinks_trans (ih _ _ _ (fun x hx => h x (List.mem_cons_of_mem _ hx)))
      (fanoutStep_shrinks inc F m n (h inc (List.mem_cons_self _ _)))

theorem runFanoutPrune_shrinks (F : Function) (st : Stats) :
    Shrinks (runFanoutPrune F st).1 F :=
  fanoutLoop_shrinks (collectIncrefs F) F false st.fanout (collectIncrefs_refop F)

theorem pruneIteration_shrinks (DT PDT : InstRef → InstRef → Bool) (F : Function)
    (st : Stats) : Shrinks (pruneIteration DT PDT F st).1 F :=
  shrinks_trans (runFanoutPrune_shrinks _ _)
    (shrinks_trans (runDiamondPrune_shrinks DT PDT _ _) (runPerBasicBlockPrune_shrinks F st))

theorem pruneLoop_shrinks (DT PDT : InstRef → InstRef → Bool) (fuel : Nat) :
    ∀ (F : Function) (st : Stats) (m : Bool), Shrinks (pruneLoop DT PDT fuel F st m).1 F := by
  induction fuel with
  | zero => intro F st m; exact shrinks_refl F
  | succ fuel ih =>
    intro F st m
    simp only [pruneLoop]
    split
    · exact shrinks_trans (ih _ _ _) (pruneIteration_shrinks DT PDT F st)
    · exact pruneIteration_shrinks DT PDT F st

theorem runOnFunction_shrinks (DT PDT : InstRef → InstRef → Bool) (F : Function)
    (st : Stats) : Shrinks (RefPrunePass.runOnFunction DT PDT F st).1 F :=
  pruneLoop_shrinks DT PDT _ F st false

/-! ## The loop over `null_list` -/

theorem eraseNullLoop_spec (L : List Instruction) :
    ∀ (insts : List Instruction) (m : Bool) (n : Nat),
      (eraseNullLoop L insts m n).2.2 = n + L.length ∧
      (eraseNullLoop L insts m n).2.1 = (m || !L.isEmpty) ∧
      ∀ x, x ∈ (eraseNullLoop L insts m n).1 ↔ x ∈ insts ∧ x ∉ L := by
  induction L with
  | nil => intro insts m n; simp [eraseNullLoop]
  | cons ci L ih =>
    intro insts m n
    simp only [eraseNullLoop]
    have h := ih (eraseInst insts ci) true (n + 1)
    refine ⟨by rw [h.1]; simp; omega, by rw [h.2.1]; simp, ?_⟩
    intro x
    rw [h.2.2 x, mem_eraseInst]
    simp only [List.mem_cons, not_or]
    tauto

/-! ## The slot search of the per-block pruner -/

theorem takeRelatedSlot_none (incref : Instruction) (slots : List (Option Instruction)) :
    takeRelatedSlot incref slots = none →
      ∀ e ∈ slots.reduceOption, isRelatedDecref incref e = false := by
  induction slots with
  | nil => intro _ e he; simp at he
  | cons a rest ih =>
    intro h e he
    cases a with
    | none =>
      rw [List.reduceOption_cons_of_none] at he
      simp only [takeRelatedSlot] at h
      cases hr : takeRelatedSlot incref rest with
      | none => exact ih hr e he
      | some p => simp [hr] at h
    | some dec =>
      rw [List.reduceOption_cons_of_some] at he
      simp only [takeRelatedSlot] at h
      by_cases hrel : isRelatedDecref incref dec = true
      · rw [if_pos hrel] at h; exact Option.noConfusion h
      · rw [if_neg hrel] at h
        cases hr : takeRelatedSlot incref rest with
        | none =>
          rcases List.mem_cons.1 he with e1 | e1
          · rw [e1]; simpa using hrel
          · exact ih hr e e1
        | some p => simp [hr] at h

theorem takeRelatedSlot_some (incref : Instruction) (slots : List (Option Instruction)) :
    ∀ (d : Instruction) (slots' : List (Option Instruction)),
      takeRelatedSlot incref slots = some (d, slots') →
        ∃ A B, slots.reduceOption = A ++ d :: B ∧ slots'.reduceOption = A ++ B ∧
          (∀ e ∈ A, isRelatedDecref incref e = false) ∧ isRelatedDecref incref d = true := by
  induction slots with
  | nil => intro d s h; simp [takeRelatedSlot] at h
  | cons a rest ih =>
    intro d s h
    cases a with
    | none =>
      simp only [takeRelatedSlot] at h
      cases hr : takeRelatedSlot incref rest with
      | none => simp [hr] at h
      | some p =>
        obtain ⟨d', r'⟩ := p
        simp only [hr, Option.some.injEq, Prod.mk.injEq] at h
        obtain ⟨A, B, h1, h2, h3, h4⟩ := ih d' r' hr
        refine ⟨A, B, ?_, ?_, h3, ?_⟩
        · rw [List.reduceOption_cons_of_none, h1, h.1]
        · rw [← h.2, List.reduceOption_cons_of_none, h2]
        · rw [← h.1]; exact h4
    | some dec =>
      simp only [takeRelatedSlot] at h
      by_cases hrel : isRelatedDecref incref dec = true
      · rw [if_pos hrel] at h
        simp only [Option.some.injEq, Prod.mk.injEq] at h
        refine ⟨[], rest.reduceOption, ?_, ?_, by simp, ?_⟩
        · rw [List.reduceOption_cons_of_some, h.1]; rfl
        · rw [← h.2, List.reduceOption_cons_of_none]; rfl
        · rw [← h.1]; exact hrel
      · rw [if_neg hrel] at h
        cases hr : takeRelatedSlot incref rest with
        | none => simp [hr] at h
        | some p =>
          obtain ⟨d', r'⟩ := p
          simp only [hr, Option.some.injEq, Prod.mk.injEq] at h
          obtain ⟨A, B, h1, h2, h3, h4⟩ := ih d' r' hr
          refine ⟨dec :: A, B, ?_, ?_, ?_, ?_⟩
          · rw [List.reduceOption_cons_of_some, h1, h.1]; rfl
          · rw [← h.2, List.reduceOption_cons_of_some, h2]; rfl
          · intro e he
            rcases List.mem_cons.1 he with e1 | e1
            · rw [e1]; simpa using hrel
            · exact h3 e e1
          · rw [← h.1]; exact h4

theorem find_append_cons_of_false {α : Type} (p : α → Bool) (A B : List α) (d : α)
    (h : p d = false) : (A ++ d :: B).find? p = (A ++ B).find? p := by
  induction A with
  | nil => simp [List.find?, h]
  | cons a A ih =>
    simp only [List.cons_append, List.find?_cons]
    rw [ih]

theorem find_append_cons_of_true {α : Type} (p : α → Bool) (A B : List α) (d : α)
    (hA : ∀ e ∈ A, p e = false) (h : p d = true) : (A ++ d :: B).find? p = some d := by
  induction A with
  | nil => simp [List.find?, h]
  | cons a A ih =>
    simp only [List.cons_append, List.find?_cons]
    rw [hA a (List.mem_cons_self _ _)]
    exact ih (fun e he => hA e (List.mem_cons_of_mem _ he))

theorem takeRelatedSlot_of_find (incref d : Instruction) (slots : List (Option Instruction))
    (h : slots.reduceOption.find? (isRelatedDecref incref) = some d) :
    ∃ slots', takeRelatedSlot incref slots = some (d, slots') := by
  cases ht : takeRelatedSlot incref slots with
  | none =>
    have hn := takeRelatedSlot_none incref slots ht
    have hmem := List.mem_of_find?_eq_some h
    have hp := List.find?_some h
    rw [hn d hmem] at hp
    exact Bool.noConfusion hp
  | some p =>
    obtain ⟨d', s'⟩ := p
    obtain ⟨A, B, h1, _, h3, h4⟩ := takeRelatedSlot_some incref slots d' s' ht
    rw [h1, find_append_cons_of_true _ A B d' h3 h4] at h
    simp only [Option.some.injEq] at h
    exact ⟨s', by rw [h]⟩

/-! ## The pairing loop: flag and counter -/

theorem pairLoop_counter_le (incs : List Instruction) :
    ∀ (slots : List (Option Instruction)) (insts : List Instruction) (m : Bool) (n : Nat),
      n ≤ (pairLoop incs slots insts m n).2.2 ∧
        (m = true → (pairLoop incs slots insts m n).2.1 = true) := by
  induction incs with
  | nil => intro slots insts m n; exact ⟨Nat.le_refl _, fun h => h⟩
  | cons inc incs ih =>
    intro slots insts m n
    simp only [pairLoop]
    cases ht : takeRelatedSlot inc slots with
    | none => exact ih slots insts m n
    | some p =>
      obtain ⟨d, slots'⟩ := p
      have := ih slots' (eraseInst (eraseInst insts inc) d) true (n + 2)
      dsimp only
      exact ⟨by have := this.1; omega, fun _ => this.2 rfl⟩

theorem mem_take_index {α : Type} (l : List α) (j : Nat) (x : α) (h : x ∈ l.take j) :
    ∃ (k : Nat) (hk : k < l.length), k < j ∧ l[k] = x := by
  obtain ⟨k, hk, e⟩ := List.mem_iff_getElem.1 h
  have hk' : k < j ∧ k < l.length := by
    rw [List.length_take] at hk
    omega
  refine ⟨k, hk'.2, hk'.1, ?_⟩
  rw [← e, List.getElem_take]

theorem mem_drop_index {α : Type} (l : List α) (i : Nat) (x : α) (h : x ∈ l.drop (i + 1)) :
    ∃ (k : Nat) (hk : k < l.length), i < k ∧ l[k] = x := by
  obtain ⟨k, hk, e⟩ := List.mem_iff_getElem.1 h
  have hk' : i + 1 + k < l.length := by
    rw [List.length_drop] at hk
    omega
  refine ⟨i + 1 + k, hk', by omega, ?_⟩
  rw [← e, List.getElem_drop]

theorem split_at_index {α : Type} (l : List α) (j : Nat) (hj : j < l.length) :
    l = l.take j ++ l[j] :: l.drop (j + 1) := by
  rw [← List.drop_eq_getElem_cons hj, List.take_append_drop]

theorem reduceOption_map_some {α : Type} (l : List α) :
    (l.map some).reduceOption = l := by
  induction l with
  | nil => rfl
  | cons a l ih => rw [List.map_cons, List.reduceOption_cons_of_some, ih]

theorem pruneBlock_mono (bb : BasicBlock) (m : Bool) (n : Nat) :
    n ≤ (pruneBlock bb m n).2.2 ∧ (m = true → (pruneBlock bb m n).2.1 = true) := by
  have hnull := eraseNullLoop_spec (nullList bb.insts) bb.insts m n
  have hcnt := pairLoop_counter_le (increfList bb.insts).reverse
    ((decrefList bb.insts).map some)
    (eraseNullLoop (nullList bb.insts) bb.insts m n).1
    (eraseNullLoop (nullList bb.insts) bb.insts m n).2.1
    (eraseNullLoop (nullList bb.insts) bb.insts m n).2.2
  constructor
  · have := hcnt.1
    rw [hnull.1] at this
    show n ≤ (pairLoop _ _ _ _ _).2.2
    omega
  · intro hm
    apply hcnt.2
    rw [hnull.2.1, hm]
    rfl

theorem pruneBlocks_mono (F : List BasicBlock) :
    ∀ (m : Bool) (n : Nat),
      n ≤ (pruneBlocks F m n).2.2 ∧ (m = true → (pruneBlocks F m n).2.1 = true) := by
  induction F with
  | nil => intro m n; exact ⟨Nat.le_refl _, fun h => h⟩
  | cons bb F ih =>
    intro m n
    simp only [pruneBlocks]
    have h1 := pruneBlock_mono bb m n
    have h2 := ih (pruneBlock bb m n).2.1 (pruneBlock bb m n).2.2
    exact ⟨Nat.le_trans h1.1 h2.1, fun hm => h2.2 (h1.2 hm)⟩

theorem pruneBlocks_at (F : List BasicBlock) :
    ∀ (m : Bool) (n b : Nat) (bb : BasicBlock), F[b]? = some bb →
      ∃ m0 n0, instsOf (pruneBlocks F m n).1 b = (pruneBlock bb m0 n0).1.insts ∧ n ≤ n0 ∧
        (pruneBlock bb m0 n0).2.2 ≤ (pruneBlocks F m n).2.2 ∧
        ((pruneBlock bb m0 n0).2.1 = true → (pruneBlocks F m n).2.1 = true) := by
  induction F with
  | nil => intro m n b bb h; simp at h
  | cons a F ih =>
    intro m n b bb h
    simp only [pruneBlocks]
    cases b with
    | zero =>
      have e : a = bb := by simpa using h
      subst e
      have h2 := pruneBlocks_mono F (pruneBlock a m n).2.1 (pruneBlock a m n).2.2
      exact ⟨m, n, by rw [instsOf_cons_zero], Nat.le_refl _, h2.1, h2.2⟩
    | succ b =>
      have h' : F[b]? = some bb := by simpa using h
      obtain ⟨m0, n0, e1, e2, e3, e4⟩ :=
        ih (pruneBlock a m n).2.1 (pruneBlock a m n).2.2 b bb h'
      refine ⟨m0, n0, by rw [instsOf_cons_succ]; exact e1, ?_, e3, e4⟩
      exact Nat.le_trans (pruneBlock_mono a m n).1 e2

theorem instsOf_eq_of_getElem (F : Function) (b : Nat) (bb : BasicBlock)
    (h : F[b]? = some bb) : instsOf F b = bb.insts := by
  simp [instsOf, h]

/-! ## The forward walk of the fanout pruner -/

theorem mem_setInsert (blocks : List Nat) (bb x : Nat) :
    x ∈ setInsert blocks bb ↔ x ∈ blocks ∨ x = bb := by
  unfold setInsert
  by_cases h : basicBlockInList bb blocks = true
  · rw [if_pos h]
    constructor
    · exact fun hx => Or.inl hx
    · rintro (hx | hx)
      · exact hx
      · rw [hx]; exact (basicBlockInList_iff _ _).1 h
  · rw [if_neg h]
    simp

theorem covered_mono (F : Function) (H : Nat) (T T' E back : List Nat)
    (hT : ∀ x ∈ T, x ∈ T') (h : Covered F H T E back) : Covered F H T' E back := by
  intro e he
  obtain ⟨h1, h2, h3⟩ := h e he
  refine ⟨h1, h2, fun c hc => ⟨(h3 c hc).1, ?_⟩⟩
  rcases (h3 c hc).2 with h4 | h4 | h4
  · exact Or.inl (hT c h4)
  · exact Or.inr (Or.inl h4)
  · exact Or.inr (Or.inr h4)

theorem covered_append (F : Function) (H : Nat) (T E1 E2 back : List Nat)
    (h1 : Covered F H T E1 back) (h2 : Covered F H T E2 back) :
    Covered F H T (E1 ++ E2) back := by
  intro e he
  rcases List.mem_append.1 he with h | h
  · obtain ⟨a, b, c⟩ := h1 e h
    refine ⟨a, b, fun x hx => ⟨(c x hx).1, ?_⟩⟩
    rcases (c x hx).2 with h4 | h4 | h4
    · exact Or.inl h4
    · exact Or.inr (Or.inl (List.mem_append_left _ h4))
    · exact Or.inr (Or.inr h4)
  · obtain ⟨a, b, c⟩ := h2 e h
    refine ⟨a, b, fun x hx => ⟨(c x hx).1, ?_⟩⟩
    rcases (c x hx).2 with h4 | h4 | h4
    · exact Or.inl h4
    · exact Or.inr (Or.inl (List.mem_append_right _ h4))
    · exact Or.inr (Or.inr h4)

theorem covered_nil (F : Function) (H : Nat) (T back : List Nat) : Covered F H T [] back :=
  fun e he => absurd he (List.not_mem_nil e)

/-- What one successful call of `walkChildForDecref` on `cur` establishes. -/
theorem walkSuccessors_sound (F : Function) (incref : Instruction) (H : Nat) (back : List Nat)
    (walk : Nat → List Nat → Bool × List Nat)
    (hwalk : ∀ c T0, (walk c T0).1 = true →
      ∃ E, Covered F H (walk c T0).2 E back ∧ c ≠ H ∧
        (c ∈ (walk c T0).2 ∨ c ∈ E ∨ c ∈ back) ∧ (∀ x ∈ T0, x ∈ (walk c T0).2) ∧
        (∀ t ∈ (walk c T0).2, t ∉ T0 → hasDecrefInNode incref (instsOf F t) = true))
    (children : List Nat) :
    ∀ (T0 : List Nat) (found : Bool), (walkSuccessors walk children T0 found).1 = true →
      ∃ E, Covered F H (walkSuccessors walk children T0 found).2 E back ∧
        (∀ c ∈ children, c ≠ H ∧
          (c ∈ (walkSuccessors walk children T0 found).2 ∨ c ∈ E ∨ c ∈ back)) ∧
        (∀ x ∈ T0, x ∈ (walkSuccessors walk children T0 found).2) ∧
        (∀ t ∈ (walkSuccessors walk children T0 found).2, t ∉ T0 →
          hasDecrefInNode incref (instsOf F t) = true) ∧
        (children = [] → found = true) := by
  induction children with
  | nil =>
    intro T0 found h
    refine ⟨[], covered_nil F H _ back, fun c hc => absurd hc (List.not_mem_nil c),
      fun x hx => hx, fun t ht hn => absurd ht hn, fun _ => h⟩
  | cons child rest ih =>
    intro T0 found h
    cases hw : (walk child T0).1
    · have e : (walkSuccessors walk (child :: rest) T0 found).1 = false := by
        simp [walkSuccessors, hw]
      rw [e] at h
      exact Bool.noConfusion h
    · have e : walkSuccessors walk (child :: rest) T0 found
          = walkSuccessors walk rest (walk child T0).2 true := by
        simp [walkSuccessors, hw]
      rw [e] at h ⊢
      obtain ⟨E1, c1, c2, c3, c4, c5⟩ := hwalk child T0 hw
      obtain ⟨E2, d1, d2, d3, d4, _⟩ := ih (walk child T0).2 true h
      refine ⟨E1 ++ E2, covered_append F H _ E1 E2 back (covered_mono F H _ _ E1 back d3 c1) d1,
        ?_, fun x hx => d3 x (c4 x hx), ?_, fun hnil => absurd hnil (List.cons_ne_nil _ _)⟩
      · intro c hc
        rcases List.mem_cons.1 hc with e1 | e1
        · rw [e1]
          refine ⟨c2, ?_⟩
          rcases c3 with h4 | h4 | h4
          · exact Or.inl (d3 child h4)
          · exact Or.inr (Or.inl (List.mem_append_left _ h4))
          · exact Or.inr (Or.inr h4)
        · refine ⟨(d2 c e1).1, ?_⟩
          rcases (d2 c e1).2 with h4 | h4 | h4
          · exact Or.inl h4
          · exact Or.inr (Or.inl (List.mem_append_right _ h4))
          · exact Or.inr (Or.inr h4)
      · intro t ht hn
        by_cases h1 : t ∈ (walk child T0).2
        · exact c5 t h1 hn
        · exact d4 t ht h1

theorem walkChildForDecref_succ (F : Function) (incref : Instruction) (fuel cur_node : Nat)
    (path_stack decref_blocks : List Nat) :
    walkChildForDecref F incref (fuel + 1) cur_node path_stack decref_blocks
      = if path_stack.length ≥ 15 then (false, decref_blocks)
        else if basicBlockInList cur_node path_stack then
          if path_stack.head? == some cur_node then (false, decref_blocks)
          else (true, decref_blocks)
        else if hasDecrefInNode incref (instsOf F cur_node) then
          (true, setInsert decref_blocks cur_node)
        else
          walkSuccessors
            (fun child blocks =>
              walkChildForDecref F incref fuel child (path_stack ++ [cur_node]) blocks)
            (succs F cur_node) decref_blocks false := by
  rfl

theorem walkChildForDecref_sound (F : Function) (incref : Instruction) (H : Nat) (fuel : Nat) :
    ∀ (cur : Nat) (back : List Nat) (T0 : List Nat),
      (walkChildForDecref F incref fuel cur (H :: back) T0).1 = true →
      ∃ E, Covered F H (walkChildForDecref F incref fuel cur (H :: back) T0).2 E back ∧
        cur ≠ H ∧
        (cur ∈ (walkChildForDecref F incref fuel cur (H :: back) T0).2 ∨ cur ∈ E ∨ cur ∈ back) ∧
        (∀ x ∈ T0, x ∈ (walkChildForDecref F incref fuel cur (H :: back) T0).2) ∧
        (∀ t ∈ (walkChildForDecref F incref fuel cur (H :: back) T0).2, t ∉ T0 →
          hasDecrefInNode incref (instsOf F t) = true) := by
  induction fuel with
  | zero => intro cur back T0 h; simp [walkChildForDecref] at h
  | succ fuel ih =>
    intro cur back T0 h
    by_cases hlen : (H :: back).length ≥ 15
    · have e : walkChildForDecref F incref (fuel + 1) cur (H :: back) T0 = (false, T0) := by
        rw [walkChildForDecref_succ, if_pos hlen]
      rw [e] at h
      exact Bool.noConfusion h
    · by_cases hin : basicBlockInList cur (H :: back) = true
      · have hmem := (basicBlockInList_iff _ _).1 hin
        by_cases hhead : cur = H
        · have e : walkChildForDecref F incref (fuel + 1) cur (H :: back) T0 = (false, T0) := by
            have hh : ((H :: back).head? == some cur) = true := by simp [hhead]
            rw [walkChildForDecref_succ, if_neg hlen, if_pos hin, if_pos hh]
          rw [e] at h
          exact Bool.noConfusion h
        · have e : walkChildForDecref F incref (fuel + 1) cur (H :: back) T0 = (true, T0) := by
            have hh : ¬ ((H :: back).head? == some cur) = true := by
              simp only [List.head?_cons, beq_iff_eq, Option.some.injEq]
              exact fun e => hhead e.symm
            rw [walkChildForDecref_succ, if_neg hlen, if_pos hin, if_neg hh]
          rw [e]
          refine ⟨[], covered_nil F H _ back, hhead, ?_, fun x hx => hx,
            fun t ht hn => absurd ht hn⟩
          rcases List.mem_cons.1 hmem with h1 | h1
          · exact absurd h1 hhead
          · exact Or.inr (Or.inr h1)
      · have hnotin : cur ∉ (H :: back) := fun hm => hin ((basicBlockInList_iff _ _).2 hm)
        have hneH : cur ≠ H := fun e => hnotin (by rw [e]; exact List.mem_cons_self _ _)
        by_cases hdec : hasDecrefInNode incref (instsOf F cur) = true
        · have e : walkChildForDecref F incref (fuel + 1) cur (H :: back) T0
              = (true, setInsert T0 cur) := by
            rw [walkChildForDecref_succ, if_neg hlen, if_neg hin, if_pos hdec]
          rw [e]
          refine ⟨[], covered_nil F H _ back, hneH, Or.inl ((mem_setInsert _ _ _).2 (Or.inr rfl)),
            fun x hx => (mem_setInsert _ _ _).2 (Or.inl hx), ?_⟩
          intro t ht hn
          rcases (mem_setInsert _ _ _).1 ht with h1 | h1
          · exact absurd h1 hn
          · rw [h1]; exact hdec
        · have e : walkChildForDecref F incref (fuel + 1) cur (H :: back) T0
              = walkSuccessors
                  (fun child blocks =>
                    walkChildForDecref F incref fuel child (H :: (back ++ [cur])) blocks)
                  (succs F cur) T0 false := by
            rw [walkChildForDecref_succ, if_neg hlen, if_neg hin, if_neg hdec]
            rfl
          rw [e] at h ⊢
          obtain ⟨E, c1, c2, c3, c4, c5⟩ := walkSuccessors_sound F incref H (back ++ [cur])
            (fun child blocks =>
              walkChildForDecref F incref fuel child (H :: (back ++ [cur])) blocks)
            (fun c T1 hc => ih c (back ++ [cur]) T1 hc) (succs F cur) T0 false h
          have hne : succs F cur ≠ [] := fun hnil => Bool.noConfusion (c5 hnil)
          refine ⟨cur :: E, ?_, hneH, Or.inr (Or.inl (List.mem_cons_self _ _)), c3, c4⟩
          intro x hx
          rcases List.mem_cons.1 hx with h1 | h1
          · rw [h1]
            refine ⟨hneH, hne, fun c hc => ⟨(c2 c hc).1, ?_⟩⟩
            rcases (c2 c hc).2 with h4 | h4 | h4
            · exact Or.inl h4
            · exact Or.inr (Or.inl (List.mem_cons_of_mem _ h4))
            · rcases List.mem_append.1 h4 with h5 | h5
              · exact Or.inr (Or.inr h5)
              · have : c = cur := by simpa using h5
                rw [this]
                exact Or.inr (Or.inl (List.mem_cons_self _ _))
          · obtain ⟨a, b, d⟩ := c1 x h1
            refine ⟨a, b, fun c hc => ⟨(d c hc).1, ?_⟩⟩
            rcases (d c hc).2 with h4 | h4 | h4
            · exact Or.inl h4
            · exact Or.inr (Or.inl (List.mem_cons_of_mem _ h4))
            · rcases List.mem_append.1 h4 with h5 | h5
              · exact Or.inr (Or.inr h5)
              · have : c = cur := by simpa using h5
                rw [this]
                exact Or.inr (Or.inl (List.mem_cons_self _ _))

theorem findFanoutDecrefCandidates_sound (F : Function) (incref : Instruction) (H : Nat)
    (h : (findFanoutDecrefCandidates F incref H []).1 = true) :
    succs F H ≠ [] ∧
      ∃ E, Covered F H (findFanoutDecrefCandidates F incref H []).2 E [] ∧
        (∀ c ∈ succs F H, c ≠ H ∧
          (c ∈ (findFanoutDecrefCandidates F incref H []).2 ∨ c ∈ E)) ∧
        (∀ t ∈ (findFanoutDecrefCandidates F incref H []).2,
          hasDecrefInNode incref (instsOf F t) = true) := by
  unfold findFanoutDecrefCandidates at h ⊢
  obtain ⟨E, c1, c2, _, c4, c5⟩ := walkSuccessors_sound F incref H []
    (fun child blocks => walkChildForDecref F incref 15 child [H] blocks)
    (fun c T1 hc => walkChildForDecref_sound F incref H 15 c [] T1 hc) (succs F H) [] false h
  refine ⟨fun hnil => Bool.noConfusion (c5 hnil), E, c1, ?_, fun t ht => c4 t ht (List.not_mem_nil t)⟩
  intro c hc
  refine ⟨(c2 c hc).1, ?_⟩
  rcases (c2 c hc).2 with h4 | h4 | h4
  · exact Or.inl h4
  · exact Or.inr h4
  · exact absurd h4 (List.not_mem_nil c)

/-! ## The reverse walk of the fanout pruner -/

theorem mem_preds (F : Function) (x p : Nat) : p ∈ preds F x ↔ x ∈ succs F p := by
  unfold preds
  rw [List.mem_filter, List.any_eq_true]
  constructor
  · rintro ⟨_, c, hc, e⟩
    have : c = x := by simpa using e
    rw [← this]; exact hc
  · intro h
    refine ⟨?_, x, h, by simp⟩
    rw [List.mem_range]
    by_contra hlt
    have hnone : F[p]? = none := List.getElem?_eq_none (Nat.le_of_not_lt hlt)
    simp [succs, hnone] at h

theorem pushPreds_cons (H : Nat) (T : List Nat) (pred : Nat) (rest ws : List Nat) :
    pushPreds H T (pred :: rest) ws
      = if basicBlockInList pred T then none
        else if pred != H then pushPreds H T rest (pred :: ws)
        else pushPreds H T rest ws := by
  rfl

theorem reverseWalk_cons (F : Function) (H : Nat) (T : List Nat) (fuel cur : Nat)
    (ws vis : List Nat) :
    reverseWalk F H T (fuel + 1) (cur :: ws) vis
      = if basicBlockInList cur vis then reverseWalk F H T fuel ws vis
        else if cur == 0 then false
        else
          match pushPreds H T (preds F cur) ws with
          | none => false
          | some ws' => reverseWalk F H T fuel ws' (vis ++ [cur]) := by
  rfl

theorem pushPreds_spec (H : Nat) (T : List Nat) (ps : List Nat) :
    ∀ (ws ws' : List Nat), pushPreds H T ps ws = some ws' →
      (∀ p ∈ ps, p ∉ T) ∧ (∀ x ∈ ws, x ∈ ws') ∧ (∀ p ∈ ps, p ≠ H → p ∈ ws') := by
  induction ps with
  | nil =>
    intro ws ws' h
    simp only [pushPreds, Option.some.injEq] at h
    subst h
    exact ⟨fun p hp => absurd hp (List.not_mem_nil p), fun x hx => hx,
      fun p hp => absurd hp (List.not_mem_nil p)⟩
  | cons pred rest ih =>
    intro ws ws' h
    by_cases hT : basicBlockInList pred T = true
    · rw [pushPreds_cons, if_pos hT] at h
      exact Option.noConfusion h
    · have hT' : pred ∉ T := fun hm => hT ((basicBlockInList_iff _ _).2 hm)
      by_cases hH : pred = H
      · have e : pushPreds H T (pred :: rest) ws = pushPreds H T rest ws := by
          have hb : ¬ (pred != H) = true := by simp [hH]
          rw [pushPreds_cons, if_neg hT, if_neg hb]
        rw [e] at h
        obtain ⟨a, b, c⟩ := ih ws ws' h
        refine ⟨?_, b, ?_⟩
        · intro p hp
          rcases List.mem_cons.1 hp with e1 | e1
          · rw [e1]; exact hT'
          · exact a p e1
        · intro p hp hne
          rcases List.mem_cons.1 hp with e1 | e1
          · exact absurd (e1.trans hH) hne
          · exact c p e1 hne
      · have e : pushPreds H T (pred :: rest) ws = pushPreds H T rest (pred :: ws) := by
          have hb : (pred != H) = true := by simp [hH]
          rw [pushPreds_cons, if_neg hT, if_pos hb]
        rw [e] at h
        obtain ⟨a, b, c⟩ := ih (pred :: ws) ws' h
        refine ⟨?_, fun x hx => b x (List.mem_cons_of_mem _ hx), ?_⟩
        · intro p hp
          rcases List.mem_cons.1 hp with e1 | e1
          · rw [e1]; exact hT'
          · exact a p e1
        · intro p hp hne
          rcases List.mem_cons.1 hp with e1 | e1
          · rw [e1]; exact b pred (List.mem_cons_self _ _)
          · exact c p e1 hne

theorem reverseWalk_sound (F : Function) (H : Nat) (T : List Nat) (fuel : Nat) :
    ∀ (ws vis : List Nat), reverseWalk F H T fuel ws vis = true →
      ∃ vis' : List Nat, (∀ x ∈ vis, x ∈ vis') ∧ (∀ x ∈ ws, x ∈ vis') ∧
        ∀ x ∈ vis', x ∉ vis →
          x ≠ 0 ∧ ∀ p ∈ preds F x, p ∉ T ∧ (p ≠ H → p ∈ vis') := by
  induction fuel with
  | zero => intro ws vis h; simp [reverseWalk] at h
  | succ fuel ih =>
    intro ws vis h
    cases ws with
    | nil =>
      exact ⟨vis, fun x hx => hx, fun x hx => absurd hx (List.not_mem_nil x),
        fun x hx hn => absurd hx hn⟩
    | cons cur ws =>
      by_cases hin : basicBlockInList cur vis = true
      · have e : reverseWalk F H T (fuel + 1) (cur :: ws) vis = reverseWalk F H T fuel ws vis := by
          rw [reverseWalk_cons, if_pos hin]
        rw [e] at h
        obtain ⟨vis', a, b, c⟩ := ih ws vis h
        refine ⟨vis', a, ?_, c⟩
        intro x hx
        rcases List.mem_cons.1 hx with e1 | e1
        · rw [e1]; exact a cur ((basicBlockInList_iff _ _).1 hin)
        · exact b x e1
      · by_cases h0 : cur = 0
        · have hb : (cur == 0) = true := by simp [h0]
          rw [reverseWalk_cons, if_neg hin, if_pos hb] at h
          exact Bool.noConfusion h
        · have hb : ¬ (cur == 0) = true := by simp [h0]
          cases hp : pushPreds H T (preds F cur) ws with
          | none =>
            rw [reverseWalk_cons, if_neg hin, if_neg hb, hp] at h
            exact Bool.noConfusion h
          | some ws' =>
            have e : reverseWalk F H T (fuel + 1) (cur :: ws) vis
                = reverseWalk F H T fuel ws' (vis ++ [cur]) := by
              rw [reverseWalk_cons, if_neg hin, if_neg hb, hp]
            rw [e] at h
            obtain ⟨vis', a, b, c⟩ := ih ws' (vis ++ [cur]) h
            obtain ⟨p1, p2, p3⟩ := pushPreds_spec H T (preds F cur) ws ws' hp
            have hcur : cur ∈ vis' := a cur (by simp)
            refine ⟨vis', fun x hx => a x (List.mem_append_left _ hx), ?_, ?_⟩
            · intro x hx
              rcases List.mem_cons.1 hx with e1 | e1
              · rw [e1]; exact hcur
              · exact b x (p2 x e1)
            · intro x hx hn
              by_cases hxc : x = cur
              · rw [hxc]
                exact ⟨h0, fun p hp' => ⟨p1 p hp', fun hne => b p (p3 p hp' hne)⟩⟩
              · exact c x hx (by
                  intro hm
                  rcases List.mem_append.1 hm with h1 | h1
                  · exact hn h1
                  · exact hxc (by simpa using h1))

theorem verifyLoop_all (F : Function) (H : Nat) (T : List Nat) (todo : List Nat) :
    verifyLoop F H T todo = true →
      ∀ t ∈ todo, reverseWalk F H T (F.length * F.length + 2) [t] [] = true := by
  induction todo with
  | nil => intro _ t ht; exact absurd ht (List.not_mem_nil t)
  | cons bb todo ih =>
    intro h t ht
    cases hw : reverseWalk F H T (F.length * F.length + 2) [bb] []
    · simp [verifyLoop, hw] at h
    · have : verifyLoop F H T todo = true := by
        simpa [verifyLoop, hw] using h
      rcases List.mem_cons.1 ht with e1 | e1
      · rw [e1]; exact hw
      · exact ih this t e1

theorem verifyFanoutNonOverlapping_sound (F : Function) (H : Nat) (T : List Nat)
    (h : verifyFanoutNonOverlapping F H T = true) (t : Nat) (ht : t ∈ T) (x : Nat)
    (hx : BackReach F H t x) : x ≠ 0 ∧ ∀ p, x ∈ succs F p → p ∉ T := by
  have hw := verifyLoop_all F H T T.reverse h t (List.mem_reverse.2 ht)
  obtain ⟨vis', _, b, c⟩ := reverseWalk_sound F H T _ [t] [] hw
  have hmem : x ∈ vis' := by
    induction hx with
    | refl => exact b t (List.mem_cons_self _ _)
    | step _ hs hne ih =>
      exact ((c _ ih (List.not_mem_nil _)).2 _ ((mem_preds F _ _).2 hs)).2 hne
  obtain ⟨c1, c2⟩ := c x hmem (List.not_mem_nil _)
  exact ⟨c1, fun p hp => (c2 p ((mem_preds F x p).2 hp)).1⟩

theorem findFanout_true (F : Function) (incref : InstRef) (T : List Nat)
    (h : findFanout F incref = (true, T)) :
    (findFanoutDecrefCandidates F incref.2 incref.1 []).1 = true ∧
      (findFanoutDecrefCandidates F incref.2 incref.1 []).2 = T ∧
      verifyFanoutNonOverlapping F incref.1 T = true := by
  unfold findFanout at h
  by_cases h1 : (findFanoutDecrefCandidates F incref.2 incref.1 []).1 = true
  · by_cases h2 : verifyFanoutNonOverlapping F incref.1
        (findFanoutDecrefCandidates F incref.2 incref.1 []).2 = true
    · simp only [h1, h2, if_true, Prod.mk.injEq, true_and] at h
      exact ⟨h1, h, by rw [← h]; exact h2⟩
    · simp [h1, h2] at h
  · simp [h1] at h

/-! ## Paths through a verified fanout -/

theorem isPath_cons_cons (F : Function) (a b : Nat) (p : List Nat) :
    IsPath F (a :: b :: p) ↔ b ∈ succs F a ∧ IsPath F (b :: p) :=
  Iff.rfl

theorem isPath_tail (F : Function) (a : Nat) (p : List Nat) (h : IsPath F (a :: p)) :
    IsPath F p := by
  cases p with
  | nil => trivial
  | cons b p => exact h.2

theorem backReach_of_path (F : Function) (H t : Nat) (p : List Nat) :
    ∀ (x : Nat), IsPath F (x :: p) → H ∉ (x :: p) → (x :: p).getLast? = some t →
      BackReach F H t x := by
  induction p with
  | nil =>
    intro x _ _ hl
    have : x = t := by simpa using hl
    rw [this]
    exact BackReach.refl
  | cons y p ih =>
    intro x hp hH hl
    have h1 := (isPath_cons_cons F x y p).1 hp
    have hl' : (y :: p).getLast? = some t := by
      rw [List.getLast?_cons_cons] at hl
      exact hl
    have hH' : H ∉ (y :: p) := fun hm => hH (List.mem_cons_of_mem _ hm)
    have hx : x ≠ H := fun e => hH (by rw [e]; exact List.mem_cons_self _ _)
    exact BackReach.step (ih y h1.2 hH' hl') h1.1 hx

/-- With tails counted: a path of blocks other than `H` that meets a tail
starts in a block that reaches a tail without passing through `H`. -/
theorem backReach_of_tail_on_path (F : Function) (H : Nat) (T : List Nat) (q : List Nat) :
    ∀ (x : Nat), IsPath F (x :: q) → (∀ y ∈ (x :: q), y ≠ H) →
      1 ≤ ((x :: q).filter (fun b => basicBlockInList b T)).length →
      ∃ t ∈ T, BackReach F H t x := by
  induction q with
  | nil =>
    intro x _ _ hc
    by_cases hx : basicBlockInList x T = true
    · exact ⟨x, (basicBlockInList_iff _ _).1 hx, BackReach.refl⟩
    · simp [List.filter, hx] at hc
  | cons y q ih =>
    intro x hp hne hc
    by_cases hx : basicBlockInList x T = true
    · exact ⟨x, (basicBlockInList_iff _ _).1 hx, BackReach.refl⟩
    · have h1 := (isPath_cons_cons F x y q).1 hp
      have hc' : 1 ≤ ((y :: q).filter (fun b => basicBlockInList b T)).length := by
        rw [List.filter_cons, if_neg hx] at hc
        exact hc
      obtain ⟨t, ht, hb⟩ := ih y h1.2 (fun z hz => hne z (List.mem_cons_of_mem _ hz)) hc'
      exact ⟨t, ht, BackReach.step hb h1.1 (hne x (List.mem_cons_self _ _))⟩

theorem at_most_one_tail (F : Function) (H : Nat) (T : List Nat)
    (hv : verifyFanoutNonOverlapping F H T = true) (q : List Nat) :
    IsPath F q → (∀ y ∈ q, y ≠ H) →
      (q.filter (fun b => basicBlockInList b T)).length ≤ 1 := by
  induction q with
  | nil => intro _ _; simp
  | cons x q ih =>
    intro hp hne
    have hp' : IsPath F q := isPath_tail F x q hp
    have hne' : ∀ y ∈ q, y ≠ H := fun z hz => hne z (List.mem_cons_of_mem _ hz)
    by_cases hx : basicBlockInList x T = true
    · rw [List.filter_cons, if_pos hx, List.length_cons]
      have : (q.filter (fun b => basicBlockInList b T)).length = 0 := by
        by_contra hpos
        cases q with
        | nil => simp at hpos
        | cons y q' =>
          have h1 := (isPath_cons_cons F x y q').1 hp
          obtain ⟨t, ht, hb⟩ := backReach_of_tail_on_path F H T q' y h1.2 hne' (by omega)
          exact (verifyFanoutNonOverlapping_sound F H T hv t ht y hb).2 x h1.1
            ((basicBlockInList_iff _ _).1 hx)
      omega
    · rw [List.filter_cons, if_neg hx]
      exact ih hp' hne'

theorem at_least_one_tail (F : Function) (H : Nat) (T E : List Nat)
    (hcov : Covered F H T E []) (p : List Nat) :
    ∀ (a : Nat), (succs F a ≠ [] ∧ ∀ c ∈ succs F a, c ≠ H ∧ (c ∈ T ∨ c ∈ E)) →
      IsPath F (a :: p) →
      (∀ e, (a :: p).getLast? = some e → IsExit F e) →
      1 ≤ ((p.takeWhile (fun b => b != H)).filter (fun b => basicBlockInList b T)).length := by
  induction p with
  | nil =>
    intro a ha _ hexit
    exact absurd (hexit a (by simp)) ha.1
  | cons c p ih =>
    intro a ha hp hexit
    have h1 := (isPath_cons_cons F a c p).1 hp
    obtain ⟨hcH, hc⟩ := ha.2 c h1.1
    have hb : (c != H) = true := by simpa using hcH
    rw [List.takeWhile_cons, if_pos hb]
    by_cases hcT : basicBlockInList c T = true
    · rw [List.filter_cons, if_pos hcT, List.length_cons]
      omega
    · rw [List.filter_cons, if_neg hcT]
      have hcE : c ∈ E := by
        rcases hc with h2 | h2
        · exact absurd ((basicBlockInList_iff _ _).2 h2) hcT
        · exact h2
      obtain ⟨_, e2, e3⟩ := hcov c hcE
      apply ih c ⟨e2, fun d hd => ⟨(e3 d hd).1, ?_⟩⟩ h1.2
      · intro e he
        apply hexit e
        rw [List.getLast?_cons_cons]
        exact he
      · rcases (e3 d hd).2 with h4 | h4 | h4
        · exact Or.inl h4
        · exact Or.inr h4
        · exact absurd h4 (List.not_mem_nil d)

theorem isPath_takeWhile (F : Function) (f : Nat → Bool) (p : List Nat) :
    IsPath F p → IsPath F (p.takeWhile f) := by
  induction p with
  | nil => intro _; trivial
  | cons a p ih =>
    intro h
    rw [List.takeWhile_cons]
    by_cases ha : f a = true
    · rw [if_pos ha]
      cases p with
      | nil => trivial
      | cons b p =>
        rw [List.takeWhile_cons]
        by_cases hb : f b = true
        · rw [if_pos hb]
          have h2 := ih h.2
          rw [List.takeWhile_cons, if_pos hb] at h2
          exact ⟨h.1, h2⟩
        · rw [if_neg hb]
          trivial
    · rw [if_neg ha]
      trivial

theorem fanoutStep_of_findFanout (F : Function) (incref : InstRef) (T : List Nat) (m : Bool)
    (n : Nat) (hgate : hasAnyDecrefInNode (instsOf F incref.1) = false)
    (h : findFanout F incref = (true, T)) :
    fanoutStep incref F m n
      = (eraseFromParent (eraseTails incref.2 T F n).1 incref, true,
          (eraseTails incref.2 T F n).2 + 1) := by
  unfold fanoutStep
  rw [hgate, h]
  rfl

/-! ## Counting what the per-block pruner erases -/

theorem eraseNullLoop_count (L : List Instruction) :
    ∀ (insts : List Instruction) (m : Bool) (n : Nat),
      insts.Nodup → L.Nodup → (∀ x ∈ L, x ∈ insts) →
      (eraseNullLoop L insts m n).1.Nodup ∧
      (eraseNullLoop L insts m n).2.2 + (eraseNullLoop L insts m n).1.length
        = n + insts.length ∧
      (eraseNullLoop L insts m n = (insts, m, n) ∨
        ((eraseNullLoop L insts m n).2.1 = true ∧
          (eraseNullLoop L insts m n).1.length < insts.length)) := by
  induction L with
  | nil => intro insts m n h _ _; exact ⟨h, rfl, Or.inl rfl⟩
  | cons ci L ih =>
    intro insts m n hn hL hsub
    simp only [eraseNullLoop]
    rw [List.nodup_cons] at hL
    have hci : ci ∈ insts := hsub ci (List.mem_cons_self _ _)
    have hlen := eraseInst_length_of_mem insts ci hn hci
    have h := ih (eraseInst insts ci) true (n + 1) (eraseInst_nodup insts ci hn) hL.2 (by
      intro x hx
      rw [mem_eraseInst]
      exact ⟨hsub x (List.mem_cons_of_mem _ hx), fun e => hL.1 (e ▸ hx)⟩)
    refine ⟨h.1, by omega, Or.inr ⟨?_, ?_⟩⟩
    · rw [(eraseNullLoop_spec L (eraseInst insts ci) true (n + 1)).2.1]
      rfl
    · have := h.2.1
      have h3 := (eraseNullLoop_spec L (eraseInst insts ci) true (n + 1)).1
      omega

theorem pairLoop_count (incs : List Instruction) :
    ∀ (slots : List (Option Instruction)) (insts : List Instruction) (m : Bool) (n : Nat),
      insts.Nodup → (incs ++ slots.reduceOption).Nodup →
      (∀ x ∈ incs ++ slots.reduceOption, x ∈ insts) →
      (pairLoop incs slots insts m n).2.2 + (pairLoop incs slots insts m n).1.length
        = n + insts.length ∧
      (pairLoop incs slots insts m n = (insts, m, n) ∨
        ((pairLoop incs slots insts m n).2.1 = true ∧
          (pairLoop incs slots insts m n).1.length < insts.length)) := by
  induction incs with
  | nil => intro slots insts m n _ _ _; exact ⟨rfl, Or.inl rfl⟩
  | cons inc incs ih =>
    intro slots insts m n hn hnd hsub
    simp only [pairLoop]
    have hnd' : (incs ++ slots.reduceOption).Nodup := by
      rw [List.cons_append, List.nodup_cons] at hnd
      exact hnd.2
    have hinc_notin : inc ∉ incs ++ slots.reduceOption := by
      rw [List.cons_append, List.nodup_cons] at hnd
      exact hnd.1
    cases ht : takeRelatedSlot inc slots with
    | none =>
      exact ih slots insts m n hn hnd'
        (fun x hx => hsub x (by rw [List.cons_append]; exact List.mem_cons_of_mem _ hx))
    | some p =>
      obtain ⟨d, s'⟩ := p
      dsimp only
      obtain ⟨A, B, h1, h2, _, _⟩ := takeRelatedSlot_some inc slots d s' ht
      have hdlive : d ∈ slots.reduceOption := by rw [h1]; simp
      have hd_ne : d ≠ inc := by
        intro e
        apply hinc_notin
        rw [← e]
        exact List.mem_append_right _ hdlive
      have hinc_in : inc ∈ insts := hsub inc (by simp)
      have hd_in : d ∈ eraseInst insts inc := by
        rw [mem_eraseInst]
        exact ⟨hsub d (List.mem_append_right _ hdlive), hd_ne⟩
      have hl1 := eraseInst_length_of_mem insts inc hn hinc_in
      have hn1 := eraseInst_nodup insts inc hn
      have hl2 := eraseInst_length_of_mem (eraseInst insts inc) d hn1 hd_in
      have hn2 := eraseInst_nodup (eraseInst insts inc) d hn1
      have hsubl : (A ++ B).Sublist (A ++ d :: B) :=
        List.Sublist.append (List.Sublist.refl A) (List.sublist_cons_self d B)
      have hnd2 : (incs ++ s'.reduceOption).Nodup := by
        rw [h2]
        rw [h1] at hnd'
        exact hnd'.sublist (List.Sublist.append (List.Sublist.refl incs) hsubl)
      have hd_notin : d ∉ A ++ B := by
        have hlive : (A ++ d :: B).Nodup := by
          rw [h1] at hnd'
          exact (List.nodup_append.1 hnd').2.1
        intro hm
        have := List.nodup_middle.1 hlive
        exact (List.nodup_cons.1 this).1 hm
      have hsub2 : ∀ x ∈ incs ++ s'.reduceOption,
          x ∈ eraseInst (eraseInst insts inc) d := by
        intro x hx
        have hx0 : x ∈ incs ++ slots.reduceOption := by
          rw [h2] at hx
          rw [h1]
          rcases List.mem_append.1 hx with h | h
          · exact List.mem_append_left _ h
          · exact List.mem_append_right _ (hsubl.subset h)
        rw [mem_eraseInst, mem_eraseInst]
        refine ⟨⟨hsub x (by rw [List.cons_append]; exact List.mem_cons_of_mem _ hx0), ?_⟩, ?_⟩
        · intro e
          exact hinc_notin (e ▸ hx0)
        · intro e
          rw [h2] at hx
          rcases List.mem_append.1 hx with h | h
          · have hdis := (List.nodup_append.1 hnd').2.2
            exact hdis (e ▸ h) hdlive
          · exact hd_notin (e ▸ h)
      have h := ih s' (eraseInst (eraseInst insts inc) d) true (n + 2) hn2 hnd2 hsub2
      refine ⟨by have := h.1; omega, Or.inr ⟨(pairLoop_counter_le incs s' _ true (n + 2)).2 rfl, ?_⟩⟩
      have hge := (pairLoop_counter_le incs s' (eraseInst (eraseInst insts inc) d) true (n + 2)).1
      have := h.1
      omega

theorem bucket_lists_nodup (insts : List Instruction) (h : insts.Nodup) :
    ((increfList insts).reverse ++ ((decrefList insts).map some).reduceOption).Nodup := by
  rw [reduceOption_map_some]
  apply List.Nodup.append
  · exact List.nodup_reverse.2 (h.sublist (List.filter_sublist insts))
  · exact h.sublist (List.filter_sublist insts)
  · intro x hx hy
    have h1 := (List.mem_filter.1 (List.mem_reverse.1 hx)).2
    have h2 := (List.mem_filter.1 hy).2
    simp only [Bool.and_eq_true, Bool.not_eq_true'] at h1 h2
    rw [h1.2] at h2
    exact Bool.noConfusion h2.1.2

theorem pruneBlock_count (bb : BasicBlock) (m : Bool) (n : Nat) (hn : bb.insts.Nodup) :
    (pruneBlock bb m n).2.2 + (pruneBlock bb m n).1.insts.length = n + bb.insts.length ∧
      (pruneBlock bb m n = (bb, m, n) ∨
        ((pruneBlock bb m n).2.1 = true ∧
          (pruneBlock bb m n).1.insts.length < bb.insts.length)) := by
  have hnull := eraseNullLoop_count (nullList bb.insts) bb.insts m n hn
    (hn.sublist (List.filter_sublist bb.insts)) (fun x hx => (List.mem_filter.1 hx).1)
  have hspec := eraseNullLoop_spec (nullList bb.insts) bb.insts m n
  have hpair := pairLoop_count (increfList bb.insts).reverse ((decrefList bb.insts).map some)
    (eraseNullLoop (nullList bb.insts) bb.insts m n).1
    (eraseNullLoop (nullList bb.insts) bb.insts m n).2.1
    (eraseNullLoop (nullList bb.insts) bb.insts m n).2.2 hnull.1 (bucket_lists_nodup bb.insts hn)
    (by
      intro x hx
      rw [reduceOption_map_some] at hx
      rw [hspec.2.2 x]
      rcases List.mem_append.1 hx with h | h
      · have h1 := List.mem_filter.1 (List.mem_reverse.1 h)
        refine ⟨h1.1, fun hnl => ?_⟩
        have h2 := (List.mem_filter.1 hnl).2
        have h3 := h1.2
        simp only [Bool.and_eq_true, Bool.not_eq_true'] at h2 h3
        rw [h2.2] at h3
        exact Bool.noConfusion h3.1.2
      · have h1 := List.mem_filter.1 h
        refine ⟨h1.1, fun hnl => ?_⟩
        have h2 := (List.mem_filter.1 hnl).2
        have h3 := h1.2
        simp only [Bool.and_eq_true, Bool.not_eq_true'] at h2 h3
        rw [h2.2] at h3
        exact Bool.noConfusion h3.1.1.2)
  have e : pruneBlock bb m n
      = ({ bb with insts := (pairLoop (increfList bb.insts).reverse
            ((decrefList bb.insts).map some)
            (eraseNullLoop (nullList bb.insts) bb.insts m n).1
            (eraseNullLoop (nullList bb.insts) bb.insts m n).2.1
            (eraseNullLoop (nullList bb.insts) bb.insts m n).2.2).1 },
          (pairLoop (increfList bb.insts).reverse ((decrefList bb.insts).map some)
            (eraseNullLoop (nullList bb.insts) bb.insts m n).1
            (eraseNullLoop (nullList bb.insts) bb.insts m n).2.1
            (eraseNullLoop (nullList bb.insts) bb.insts m n).2.2).2.1,
          (pairLoop (increfList bb.insts).reverse ((decrefList bb.insts).map some)
            (eraseNullLoop (nullList bb.insts) bb.insts m n).1
            (eraseNullLoop (nullList bb.insts) bb.insts m n).2.1
            (eraseNullLoop (nullList bb.insts) bb.insts m n).2.2).2.2) := rfl
  rw [e]
  dsimp only
  refine ⟨by have := hnull.2.1; have := hpair.1; omega, ?_⟩
  rcases hpair.2 with hp | hp
  · rw [hp]
    dsimp only
    rcases hnull.2.2 with hq | hq
    · left
      rw [hq]
    · right
      exact hq
  · right
    refine ⟨hp.1, ?_⟩
    have h1 := hp.2
    have h2 := hnull.2.1
    have h3 := (eraseNullLoop_spec (nullList bb.insts) bb.insts m n).1
    omega

theorem numInsts_cons (bb : BasicBlock) (F : List BasicBlock) :
    numInsts (bb :: F) = bb.insts.length + numInsts F := by
  simp [numInsts]

theorem wellFormed_cons (bb : BasicBlock) (F : List BasicBlock) :
    WellFormed (bb :: F) ↔ bb.insts.Nodup ∧ WellFormed F := by
  unfold WellFormed
  simp

theorem pruneBlocks_count (F : List BasicBlock) :
    ∀ (m : Bool) (n : Nat), WellFormed F →
      (pruneBlocks F m n).2.2 + numInsts (pruneBlocks F m n).1 = n + numInsts F ∧
        (pruneBlocks F m n = (F, m, n) ∨
          ((pruneBlocks F m n).2.1 = true ∧ numInsts (pruneBlocks F m n).1 < numInsts F)) := by
  induction F with
  | nil => intro m n _; exact ⟨rfl, Or.inl rfl⟩
  | cons bb F ih =>
    intro m n hwf
    rw [wellFormed_cons] at hwf
    have h1 := pruneBlock_count bb m n hwf.1
    have h2 := ih (pruneBlock bb m n).2.1 (pruneBlock bb m n).2.2 hwf.2
    have e : pruneBlocks (bb :: F) m n
        = ((pruneBlock bb m n).1 :: (pruneBlocks F (pruneBlock bb m n).2.1
              (pruneBlock bb m n).2.2).1,
            (pruneBlocks F (pruneBlock bb m n).2.1 (pruneBlock bb m n).2.2).2.1,
            (pruneBlocks F (pruneBlock bb m n).2.1 (pruneBlock bb m n).2.2).2.2) := rfl
    rw [e]
    dsimp only
    rw [numInsts_cons, numInsts_cons]
    refine ⟨by have := h1.1; have := h2.1; omega, ?_⟩
    rcases h2.2 with hp | hp
    · rw [hp]
      dsimp only
      rcases h1.2 with hq | hq
      · left
        rw [hq]
      · right
        refine ⟨hq.1, ?_⟩
        have := hq.2
        omega
    · right
      refine ⟨hp.1, ?_⟩
      have h3 := hp.2
      have h4 := h1.1
      have h5 := (pruneBlock_mono bb m n).1
      omega

/-! ## Counting what a function-wide erase removes -/

theorem wellFormed_iff (F : Function) : WellFormed F ↔ ∀ b, (instsOf F b).Nodup := by
  constructor
  · intro h b
    unfold instsOf
    cases hb : F[b]? with
    | none => exact List.nodup_nil
    | some bb => exact h bb (List.getElem?_mem hb)
  · intro h bb hbb
    obtain ⟨b, hb⟩ := List.mem_iff_getElem?.1 hbb
    have := h b
    rw [instsOf_eq_of_getElem F b bb hb] at this
    exact this

theorem eraseFromParent_wellFormed (F : Function) (r : InstRef) (h : WellFormed F) :
    WellFormed (eraseFromParent F r) := by
  rw [wellFormed_iff] at h ⊢
  intro b
  rw [instsOf_eraseFromParent]
  by_cases hb : b = r.1
  · rw [if_pos hb]; exact eraseInst_nodup _ _ (h b)
  · rw [if_neg hb]; exact h b

theorem numInsts_eraseFromParent (F : Function) (r : InstRef) (hwf : WellFormed F)
    (hr : r.2 ∈ instsOf F r.1) : numInsts (eraseFromParent F r) + 1 = numInsts F := by
  obtain ⟨n, ci⟩ := r
  induction F generalizing n with
  | nil => simp [instsOf_nil] at hr
  | cons bb F ih =>
    rw [wellFormed_cons] at hwf
    cases n with
    | zero =>
      rw [eraseFromParent_cons_zero, numInsts_cons, numInsts_cons]
      have hr' : ci ∈ bb.insts := by simpa [instsOf_cons_zero] using hr
      have := eraseInst_length_of_mem bb.insts ci hwf.1 hr'
      dsimp only
      omega
    | succ n =>
      rw [eraseFromParent_cons_succ, numInsts_cons, numInsts_cons]
      have hr' : ci ∈ instsOf F n := by simpa [instsOf_cons_succ] using hr
      have := ih hwf.2 n hr'
      omega

theorem present_eraseFromParent (F : Function) (r x : InstRef) (hne : x ≠ r)
    (hx : x.2 ∈ instsOf F x.1) : x.2 ∈ instsOf (eraseFromParent F r) x.1 := by
  rw [instsOf_eraseFromParent]
  by_cases hb : x.1 = r.1
  · rw [if_pos hb, mem_eraseInst]
    refine ⟨hx, fun e => hne ?_⟩
    exact Prod.ext hb e
  · rw [if_neg hb]; exact hx

theorem present_of_eraseFromParent (F : Function) (r x : InstRef)
    (hx : x.2 ∈ instsOf (eraseFromParent F r) x.1) : x.2 ∈ instsOf F x.1 := by
  rw [instsOf_eraseFromParent] at hx
  by_cases hb : x.1 = r.1
  · rw [if_pos hb, mem_eraseInst] at hx; exact hx.1
  · rw [if_neg hb] at hx; exact hx

theorem collectFrom_nodup (p : Instruction → Bool) (F : List BasicBlock) :
    ∀ (i : Nat), WellFormed F → (collectFrom p i F).Nodup := by
  induction F with
  | nil => intro i _; exact List.nodup_nil
  | cons bb F ih =>
    intro i hwf
    rw [wellFormed_cons] at hwf
    simp only [collectFrom]
    apply List.Nodup.append
    · apply List.Nodup.map
      · intro a b hab
        exact (Prod.mk.inj hab).2
      · exact hwf.1.sublist (List.filter_sublist bb.insts)
    · exact ih (i + 1) hwf.2
    · intro x hx hy
      obtain ⟨ii, _, e⟩ := List.mem_map.1 hx
      obtain ⟨b, h1, _, _⟩ := (mem_collectFrom p F (i + 1) x).1 hy
      rw [← e] at h1
      simp at h1
      omega

theorem collected_nodup (F : Function) (hwf : WellFormed F) :
    (collectIncrefs F ++ ((collectDecrefs F).map some).reduceOption).Nodup := by
  rw [reduceOption_map_some]
  apply List.Nodup.append
  · exact collectFrom_nodup _ F 0 hwf
  · exact collectFrom_nodup _ F 0 hwf
  · intro x hx hy
    have h1 := ((mem_collectIncrefs F x).1 hx).2
    have h2 := ((mem_collectDecrefs F x).1 hy).2
    rw [isIncrefOp_not_isDecrefOp _ h1] at h2
    exact Bool.noConfusion h2

/-! ## Counting what the diamond pruner erases -/

theorem diamondScan_some (DT PDT : InstRef → InstRef → Bool) (F : Function) (incref : InstRef)
    (slots : List (Option InstRef)) :
    ∀ (d : InstRef) (slots' : List (Option InstRef)),
      diamondScan DT PDT F incref slots = some (d, slots') →
        ∃ A B, slots.reduceOption = A ++ d :: B ∧ slots'.reduceOption = A ++ B := by
  induction slots with
  | nil => intro d s h; simp [diamondScan] at h
  | cons a rest ih =>
    intro d s h
    cases a with
    | none =>
      simp only [diamondScan] at h
      cases hr : diamondScan DT PDT F incref rest with
      | none => simp [hr] at h
      | some p =>
        obtain ⟨d', r'⟩ := p
        simp only [hr, Option.some.injEq, Prod.mk.injEq] at h
        obtain ⟨A, B, h1, h2⟩ := ih d' r' hr
        refine ⟨A, B, ?_, ?_⟩
        · rw [List.reduceOption_cons_of_none, h1, h.1]
        · rw [← h.2, List.reduceOption_cons_of_none, h2]
    | some dec =>
      simp only [diamondScan] at h
      by_cases hrel : diamondTest DT PDT F incref dec = true
      · rw [if_pos hrel] at h
        simp only [Option.some.injEq, Prod.mk.injEq] at h
        refine ⟨[], rest.reduceOption, ?_, ?_⟩
        · rw [List.reduceOption_cons_of_some, h.1]; rfl
        · rw [← h.2, List.reduceOption_cons_of_none]; rfl
      · rw [if_neg hrel] at h
        cases hr : diamondScan DT PDT F incref rest with
        | none => simp [hr] at h
        | some p =>
          obtain ⟨d', r'⟩ := p
          simp only [hr, Option.some.injEq, Prod.mk.injEq] at h
          obtain ⟨A, B, h1, h2⟩ := ih d' r' hr
          refine ⟨dec :: A, B, ?_, ?_⟩
          · rw [List.reduceOption_cons_of_some, h1, h.1]; rfl
          · rw [← h.2, List.reduceOption_cons_of_some, h2]; rfl

theorem diamondLoop_count (DT PDT : InstRef → InstRef → Bool) (incs : List InstRef) :
    ∀ (slots : List (Option InstRef)) (F : Function) (m : Bool) (n : Nat),
      WellFormed F → (incs ++ slots.reduceOption).Nodup →
      (∀ x ∈ incs ++ slots.reduceOption, x.2 ∈ instsOf F x.1) →
      (diamondLoop DT PDT incs slots F m n).2.2 + numInsts (diamondLoop DT PDT incs slots F m n).1
        = n + numInsts F ∧
      (diamondLoop DT PDT incs slots F m n = (F, m, n) ∨
        ((diamondLoop DT PDT incs slots F m n).2.1 = true ∧
          numInsts (diamondLoop DT PDT incs slots F m n).1 < numInsts F)) := by
  induction incs with
  | nil => intro slots F m n _ _ _; exact ⟨rfl, Or.inl rfl⟩
  | cons inc incs ih =>
    intro slots F m n hwf hnd hsub
    simp only [diamondLoop]
    have hnd' : (incs ++ slots.reduceOption).Nodup := by
      rw [List.cons_append, List.nodup_cons] at hnd
      exact hnd.2
    have hinc_notin : inc ∉ incs ++ slots.reduceOption := by
      rw [List.cons_append, List.nodup_cons] at hnd
      exact hnd.1
    cases ht : diamondScan DT PDT F inc slots with
    | none =>
      exact ih slots F m n hwf hnd'
        (fun x hx => hsub x (by rw [List.cons_append]; exact List.mem_cons_of_mem _ hx))
    | some p =>
      obtain ⟨d, s'⟩ := p
      dsimp only
      obtain ⟨A, B, h1, h2⟩ := diamondScan_some DT PDT F inc slots d s' ht
      have hdlive : d ∈ slots.reduceOption := by rw [h1]; simp
      have hd_ne : d ≠ inc := by
        intro e
        apply hinc_notin
        rw [← e]
        exact List.mem_append_right _ hdlive
      have hinc_in : inc.2 ∈ instsOf F inc.1 := hsub inc (by simp)
      have hd_in : d.2 ∈ instsOf (eraseFromParent F inc) d.1 :=
        present_eraseFromParent F inc d hd_ne (hsub d (List.mem_append_right _ hdlive))
      have hw1 := eraseFromParent_wellFormed F inc hwf
      have hw2 := eraseFromParent_wellFormed (eraseFromParent F inc) d hw1
      have hl1 := numInsts_eraseFromParent F inc hwf hinc_in
      have hl2 := numInsts_eraseFromParent (eraseFromParent F inc) d hw1 hd_in
      have hsubl : (A ++ B).Sublist (A ++ d :: B) :=
        List.Sublist.append (List.Sublist.refl A) (List.sublist_cons_self d B)
      have hnd2 : (incs ++ s'.reduceOption).Nodup := by
        rw [h2]
        rw [h1] at hnd'
        exact hnd'.sublist (List.Sublist.append (List.Sublist.refl incs) hsubl)
      have hd_notin : d ∉ A ++ B := by
        have hlive : (A ++ d :: B).Nodup := by
          rw [h1] at hnd'
          exact (List.nodup_append.1 hnd').2.1
        intro hm
        have := List.nodup_middle.1 hlive
        exact (List.nodup_cons.1 this).1 hm
      have hsub2 : ∀ x ∈ incs ++ s'.reduceOption,
          x.2 ∈ instsOf (eraseFromParent (eraseFromParent F inc) d) x.1 := by
        intro x hx
        have hx0 : x ∈ incs ++ slots.reduceOption := by
          rw [h2] at hx
          rw [h1]
          rcases List.mem_append.1 hx with h | h
          · exact List.mem_append_left _ h
          · exact List.mem_append_right _ (hsubl.subset h)
        apply present_eraseFromParent
        · intro e
          rw [h2] at hx
          rcases List.mem_append.1 hx with h | h
          · have hdis := (List.nodup_append.1 hnd').2.2
            exact hdis (e ▸ h) hdlive
          · exact hd_notin (e ▸ h)
        · apply present_eraseFromParent
          · intro e
            exact hinc_notin (e ▸ hx0)
          · exact hsub x (by rw [List.cons_append]; exact List.mem_cons_of_mem _ hx0)
      have h := ih s' (eraseFromParent (eraseFromParent F inc) d) true (n + 2) hw2 hnd2 hsub2
      refine ⟨by have := h.1; omega, Or.inr ?_⟩
      rcases h.2 with hq | hq
      · rw [hq]
        dsimp only
        exact ⟨rfl, by omega⟩
      · exact ⟨hq.1, by have := hq.2; omega⟩

theorem runDiamondPrune_count (DT PDT : InstRef → InstRef → Bool) (F : Function) (st : Stats)
    (hwf : WellFormed F) :
    (runDiamondPrune DT PDT F st).2.2.diamond + numInsts (runDiamondPrune DT PDT F st).1
        = st.diamond + numInsts F ∧
      (runDiamondPrune DT PDT F st).2.2.per_bb = st.per_bb ∧
      (runDiamondPrune DT PDT F st).2.2.fanout = st.fanout ∧
      (runDiamondPrune DT PDT F st).2.2.fanout_raise = st.fanout_raise ∧
      (runDiamondPrune DT PDT F st = (F, false, st) ∨
        ((runDiamondPrune DT PDT F st).2.1 = true ∧
          numInsts (runDiamondPrune DT PDT F st).1 < numInsts F)) := by
  have h := diamondLoop_count DT PDT (collectIncrefs F) ((collectDecrefs F).map some) F false
    st.diamond hwf (collected_nodup F hwf) (by
      intro x hx
      rw [reduceOption_map_some] at hx
      rcases List.mem_append.1 hx with h | h
      · exact ((mem_collectIncrefs F x).1 h).1
      · exact ((mem_collectDecrefs F x).1 h).1)
  refine ⟨h.1, rfl, rfl, rfl, ?_⟩
  rcases h.2 with hq | hq
  · left
    unfold runDiamondPrune
    rw [hq]
  · right
    exact hq

theorem runPerBasicBlockPrune_count (F : Function) (st : Stats) (hwf : WellFormed F) :
    (runPerBasicBlockPrune F st).2.2.per_bb + numInsts (runPerBasicBlockPrune F st).1
        = st.per_bb + numInsts F ∧
      (runPerBasicBlockPrune F st).2.2.diamond = st.diamond ∧
      (runPerBasicBlockPrune F st).2.2.fanout = st.fanout ∧
      (runPerBasicBlockPrune F st).2.2.fanout_raise = st.fanout_raise ∧
      (runPerBasicBlockPrune F st = (F, false, st) ∨
        ((runPerBasicBlockPrune F st).2.1 = true ∧
          numInsts (runPerBasicBlockPrune F st).1 < numInsts F)) := by
  have h := pruneBlocks_count F false st.per_bb hwf
  refine ⟨h.1, rfl, rfl, rfl, ?_⟩
  rcases h.2 with hq | hq
  · left
    unfold runPerBasicBlockPrune
    rw [hq]
  · right
    exact hq

/-! ## Counting what the fanout pruner erases -/

theorem eraseFirstRelated_count (incref : Instruction) (F : Function) (each n : Nat)
    (hwf : WellFormed F) :
    (eraseFirstRelated incref F each n).2 + numInsts (eraseFirstRelated incref F each n).1
        = n + numInsts F ∧
      WellFormed (eraseFirstRelated incref F each n).1 ∧
      (∀ x : InstRef, isDecrefOp x.2 = false → x.2 ∈ instsOf F x.1 →
        x.2 ∈ instsOf (eraseFirstRelated incref F each n).1 x.1) := by
  unfold eraseFirstRelated
  cases h : (instsOf F each).find? (isRelatedDecref incref) with
  | none => exact ⟨rfl, hwf, fun _ _ hx => hx⟩
  | some d =>
    dsimp only
    have hmem : d ∈ instsOf F each := List.mem_of_find?_eq_some h
    have hrel : isRelatedDecref incref d = true := List.find?_some h
    have hl := numInsts_eraseFromParent F (each, d) hwf hmem
    refine ⟨by omega, eraseFromParent_wellFormed F _ hwf, ?_⟩
    intro x hx hp
    apply present_eraseFromParent F (each, d) x _ hp
    intro e
    rw [e, isRelatedDecref_isDecrefOp incref d hrel] at hx
    exact Bool.noConfusion hx

theorem eraseTails_count (incref : Instruction) (T : List Nat) :
    ∀ (F : Function) (n : Nat), WellFormed F →
      (eraseTails incref T F n).2 + numInsts (eraseTails incref T F n).1 = n + numInsts F ∧
        WellFormed (eraseTails incref T F n).1 ∧
        (∀ x : InstRef, isDecrefOp x.2 = false → x.2 ∈ instsOf F x.1 →
          x.2 ∈ instsOf (eraseTails incref T F n).1 x.1) := by
  induction T with
  | nil => intro F n hwf; exact ⟨rfl, hwf, fun _ _ hx => hx⟩
  | cons t T ih =>
    intro F n hwf
    simp only [eraseTails]
    have h1 := eraseFirstRelated_count incref F t n hwf
    have h2 := ih (eraseFirstRelated incref F t n).1 (eraseFirstRelated incref F t n).2 h1.2.1
    exact ⟨by have := h1.1; have := h2.1; omega, h2.2.1,
      fun x hx hp => h2.2.2 x hx (h1.2.2 x hx hp)⟩

theorem fanoutStep_eq (incref : InstRef) (F : Function) (m : Bool) (n : Nat) :
    fanoutStep incref F m n
      = if hasAnyDecrefInNode (instsOf F incref.1) then (F, m, n)
        else if (findFanout F incref).1 then
          (eraseFromParent (eraseTails incref.2 (findFanout F incref).2 F n).1 incref, true,
            (eraseTails incref.2 (findFanout F incref).2 F n).2 + 1)
        else (F, m, n) := by
  rfl

theorem fanoutStep_count (incref : InstRef) (F : Function) (m : Bool) (n : Nat)
    (hwf : WellFormed F) (hp : incref.2 ∈ instsOf F incref.1)
    (hinc : isIncrefOp incref.2 = true) :
    (fanoutStep incref F m n).2.2 + numInsts (fanoutStep incref F m n).1 = n + numInsts F ∧
      WellFormed (fanoutStep incref F m n).1 ∧
      (∀ x : InstRef, x ≠ incref → isDecrefOp x.2 = false → x.2 ∈ instsOf F x.1 →
        x.2 ∈ instsOf (fanoutStep incref F m n).1 x.1) ∧
      (fanoutStep incref F m n = (F, m, n) ∨
        ((fanoutStep incref F m n).2.1 = true ∧
          numInsts (fanoutStep incref F m n).1 < numInsts F)) := by
  rw [fanoutStep_eq]
  by_cases h1 : hasAnyDecrefInNode (instsOf F incref.1) = true
  · rw [if_pos h1]
    exact ⟨rfl, hwf, fun _ _ _ hx => hx, Or.inl rfl⟩
  · rw [if_neg h1]
    by_cases h2 : (findFanout F incref).1 = true
    · rw [if_pos h2]
      dsimp only
      have ht := eraseTails_count incref.2 (findFanout F incref).2 F n hwf
      have hpres := ht.2.2 incref (isIncrefOp_not_isDecrefOp _ hinc) hp
      have hl := numInsts_eraseFromParent _ incref ht.2.1 hpres
      have hle := shrinks_numInsts_le (eraseTails_shrinks incref.2 (findFanout F incref).2 F n)
      refine ⟨by have := ht.1; omega, eraseFromParent_wellFormed _ _ ht.2.1, ?_,
        Or.inr ⟨rfl, by have := ht.1; omega⟩⟩
      intro x hne hx hpx
      exact present_eraseFromParent _ incref x hne (ht.2.2 x hx hpx)
    · rw [if_neg h2]
      exact ⟨rfl, hwf, fun _ _ _ hx => hx, Or.inl rfl⟩

theorem fanoutLoop_count (incs : List InstRef) :
    ∀ (F : Function) (m : Bool) (n : Nat), WellFormed F → incs.Nodup →
      (∀ x ∈ incs, x.2 ∈ instsOf F x.1 ∧ isIncrefOp x.2 = true) →
      (fanoutLoop incs F m n).2.2 + numInsts (fanoutLoop incs F m n).1 = n + numInsts F ∧
        (fanoutLoop incs F m n = (F, m, n) ∨
          ((fanoutLoop incs F m n).2.1 = true ∧
            numInsts (fanoutLoop incs F m n).1 < numInsts F)) := by
  induction incs with
  | nil => intro F m n _ _ _; exact ⟨rfl, Or.inl rfl⟩
  | cons inc incs ih =>
    intro F m n hwf hnd hall
    rw [List.nodup_cons] at hnd
    have hinc := hall inc (List.mem_cons_self _ _)
    have h1 := fanoutStep_count inc F m n hwf hinc.1 hinc.2
    have h2 := ih (fanoutStep inc F m n).1 (fanoutStep inc F m n).2.1 (fanoutStep inc F m n).2.2
      h1.2.1 hnd.2 (by
        intro x hx
        have hx' := hall x (List.mem_cons_of_mem _ hx)
        refine ⟨h1.2.2.1 x (fun e => hnd.1 (e ▸ hx)) (isIncrefOp_not_isDecrefOp _ hx'.2) hx'.1,
          hx'.2⟩)
    have e : fanoutLoop (inc :: incs) F m n
        = fanoutLoop incs (fanoutStep inc F m n).1 (fanoutStep inc F m n).2.1
            (fanoutStep inc F m n).2.2 := rfl
    rw [e]
    refine ⟨by have := h1.1; have := h2.1; omega, ?_⟩
    rcases h2.2 with hq | hq
    · rw [hq]
      dsimp only
      rcases h1.2.2.2 with hr | hr
      · left
        rw [hr]
      · right
        exact hr
    · right
      refine ⟨hq.1, ?_⟩
      have h3 := hq.2
      rcases h1.2.2.2 with hr | hr
      · have e2 : numInsts (fanoutStep inc F m n).1 = numInsts F := by rw [hr]
        omega
      · have := hr.2
        omega

theorem runFanoutPrune_count (F : Function) (st : Stats) (hwf : WellFormed F) :
    (runFanoutPrune F st).2.2.fanout + numInsts (runFanoutPrune F st).1
        = st.fanout + numInsts F ∧
      (runFanoutPrune F st).2.2.per_bb = st.per_bb ∧
      (runFanoutPrune F st).2.2.diamond = st.diamond ∧
      (runFanoutPrune F st).2.2.fanout_raise = st.fanout_raise ∧
      (runFanoutPrune F st = (F, false, st) ∨
        ((runFanoutPrune F st).2.1 = true ∧
          numInsts (runFanoutPrune F st).1 < numInsts F)) := by
  have h := fanoutLoop_count (collectIncrefs F) F false st.fanout hwf
    (collectFrom_nodup _ F 0 hwf) (fun x hx => (mem_collectIncrefs F x).1 hx)
  refine ⟨h.1, rfl, rfl, rfl, ?_⟩
  rcases h.2 with hq | hq
  · left
    unfold runFanoutPrune
    rw [hq]
  · right
    exact hq

theorem runPerBasicBlockPrune_wellFormed (F : Function) (st : Stats) (hwf : WellFormed F) :
    WellFormed (runPerBasicBlockPrune F st).1 :=
  shrinks_wellFormed (runPerBasicBlockPrune_shrinks F st) hwf

theorem runDiamondPrune_wellFormed (DT PDT : InstRef → InstRef → Bool) (F : Function)
    (st : Stats) (hwf : WellFormed F) : WellFormed (runDiamondPrune DT PDT F st).1 :=
  shrinks_wellFormed (runDiamondPrune_shrinks DT PDT F st) hwf

theorem runFanoutPrune_wellFormed (F : Function) (st : Stats) (hwf : WellFormed F) :
    WellFormed (runFanoutPrune F st).1 :=
  shrinks_wellFormed (runFanoutPrune_shrinks F st) hwf

/-! ## The driver -/

theorem pruneIteration_count (DT PDT : InstRef → InstRef → Bool) (F : Function) (st : Stats)
    (hwf : WellFormed F) :
    WellFormed (pruneIteration DT PDT F st).1 ∧
      (pruneIteration DT PDT F st).2.2.per_bb + (pruneIteration DT PDT F st).2.2.diamond
          + (pruneIteration DT PDT F st).2.2.fanout + numInsts (pruneIteration DT PDT F st).1
        = st.per_bb + st.diamond + st.fanout + numInsts F ∧
      st.per_bb ≤ (pruneIteration DT PDT F st).2.2.per_bb ∧
      st.diamond ≤ (pruneIteration DT PDT F st).2.2.diamond ∧
      st.fanout ≤ (pruneIteration DT PDT F st).2.2.fanout ∧
      (pruneIteration DT PDT F st).2.2.fanout_raise = st.fanout_raise ∧
      (pruneIteration DT PDT F st = (F, false, st) ∨
        ((pruneIteration DT PDT F st).2.1 = true ∧
          numInsts (pruneIteration DT PDT F st).1 < numInsts F)) := by
  have a := runPerBasicBlockPrune_count F st hwf
  have aw := runPerBasicBlockPrune_wellFormed F st hwf
  have al := shrinks_numInsts_le (runPerBasicBlockPrune_shrinks F st)
  have b := runDiamondPrune_count DT PDT (runPerBasicBlockPrune F st).1
    (runPerBasicBlockPrune F st).2.2 aw
  have bw := runDiamondPrune_wellFormed DT PDT (runPerBasicBlockPrune F st).1
    (runPerBasicBlockPrune F st).2.2 aw
  have bl := shrinks_numInsts_le (runDiamondPrune_shrinks DT PDT (runPerBasicBlockPrune F st).1
    (runPerBasicBlockPrune F st).2.2)
  have c := runFanoutPrune_count
    (runDiamondPrune DT PDT (runPerBasicBlockPrune F st).1 (runPerBasicBlockPrune F st).2.2).1
    (runDiamondPrune DT PDT (runPerBasicBlockPrune F st).1 (runPerBasicBlockPrune F st).2.2).2.2
    bw
  have cw := runFanoutPrune_wellFormed
    (runDiamondPrune DT PDT (runPerBasicBlockPrune F st).1 (runPerBasicBlockPrune F st).2.2).1
    (runDiamondPrune DT PDT (runPerBasicBlockPrune F st).1 (runPerBasicBlockPrune F st).2.2).2.2
    bw
  have cl := shrinks_numInsts_le (runFanoutPrune_shrinks
    (runDiamondPrune DT PDT (runPerBasicBlockPrune F st).1 (runPerBasicBlockPrune F st).2.2).1
    (runDiamondPrune DT PDT (runPerBasicBlockPrune F st).1 (runPerBasicBlockPrune F st).2.2).2.2)
  have e : pruneIteration DT PDT F st
      = ((runFanoutPrune
            (runDiamondPrune DT PDT (runPerBasicBlockPrune F st).1
              (runPerBasicBlockPrune F st).2.2).1
            (runDiamondPrune DT PDT (runPerBasicBlockPrune F st).1
              (runPerBasicBlockPrune F st).2.2).2.2).1,
          (runPerBasicBlockPrune F st).2.1
            || (runDiamondPrune DT PDT (runPerBasicBlockPrune F st).1
              (runPerBasicBlockPrune F st).2.2).2.1
            || (runFanoutPrune
              (runDiamondPrune DT PDT (runPerBasicBlockPrune F st).1
                (runPerBasicBlockPrune F st).2.2).1
              (runDiamondPrune DT PDT (runPerBasicBlockPrune F st).1
                (runPerBasicBlockPrune F st).2.2).2.2).2.1,
          (runFanoutPrune
            (runDiamondPrune DT PDT (runPerBasicBlockPrune F st).1
              (runPerBasicBlockPrune F st).2.2).1
            (runDiamondPrune DT PDT (runPerBasicBlockPrune F st).1
              (runPerBasicBlockPrune F st).2.2).2.2).2.2) := rfl
  obtain ⟨a1, a2, a3, a4, a5⟩ := a
  obtain ⟨b1, b2, b3, b4, b5⟩ := b
  obtain ⟨c1, c2, c3, c4, c5⟩ := c
  rw [e]
  dsimp only
  refine ⟨cw, by omega, by omega, by omega, by omega, by rw [c4, b4, a4], ?_⟩
  rcases a5 with ha | ha
  · rcases b5 with hb | hb
    · rcases c5 with hc | hc
      · left
        rw [ha] at hb
        dsimp only at hb
        rw [ha, hb] at hc
        dsimp only at hc
        rw [ha]
        dsimp only
        rw [hb]
        dsimp only
        rw [hc]
        rfl
      · right
        refine ⟨by rw [hc.1]; simp, by have := hc.2; omega⟩
    · right
      refine ⟨by rw [hb.1]; simp, by have := hb.2; omega⟩
  · right
    refine ⟨by rw [ha.1]; simp, by have := ha.2; omega⟩

theorem pruneLoop_succ (DT PDT : InstRef → InstRef → Bool) (fuel : Nat) (F : Function)
    (st : Stats) (m : Bool) :
    pruneLoop DT PDT (fuel + 1) F st m
      = if (pruneIteration DT PDT F st).2.1 then
          pruneLoop DT PDT fuel (pruneIteration DT PDT F st).1 (pruneIteration DT PDT F st).2.2
            (m || (pruneIteration DT PDT F st).2.1)
        else ((pruneIteration DT PDT F st).1, m || (pruneIteration DT PDT F st).2.1,
          (pruneIteration DT PDT F st).2.2) := by
  rfl

theorem pruneLoop_count (DT PDT : InstRef → InstRef → Bool) (fuel : Nat) :
    ∀ (F : Function) (st : Stats) (m : Bool), WellFormed F →
      WellFormed (pruneLoop DT PDT fuel F st m).1 ∧
        (pruneLoop DT PDT fuel F st m).2.2.per_bb + (pruneLoop DT PDT fuel F st m).2.2.diamond
            + (pruneLoop DT PDT fuel F st m).2.2.fanout
            + numInsts (pruneLoop DT PDT fuel F st m).1
          = st.per_bb + st.diamond + st.fanout + numInsts F ∧
        st.per_bb ≤ (pruneLoop DT PDT fuel F st m).2.2.per_bb ∧
        st.diamond ≤ (pruneLoop DT PDT fuel F st m).2.2.diamond ∧
        st.fanout ≤ (pruneLoop DT PDT fuel F st m).2.2.fanout ∧
        (pruneLoop DT PDT fuel F st m).2.2.fanout_raise = st.fanout_raise := by
  induction fuel with
  | zero => intro F st m hwf; exact ⟨hwf, rfl, Nat.le_refl _, Nat.le_refl _, Nat.le_refl _, rfl⟩
  | succ fuel ih =>
    intro F st m hwf
    obtain ⟨i1, i2, i3, i4, i5, i6, _⟩ := pruneIteration_count DT PDT F st hwf
    rw [pruneLoop_succ]
    by_cases hm : (pruneIteration DT PDT F st).2.1 = true
    · rw [if_pos hm]
      obtain ⟨j1, j2, j3, j4, j5, j6⟩ := ih (pruneIteration DT PDT F st).1
        (pruneIteration DT PDT F st).2.2 (m || (pruneIteration DT PDT F st).2.1) i1
      exact ⟨j1, by omega, by omega, by omega, by omega, by rw [j6, i6]⟩
    · rw [if_neg hm]
      exact ⟨i1, i2, i3, i4, i5, i6⟩

theorem pruneLoop_converges (DT PDT : InstRef → InstRef → Bool) (fuel : Nat) :
    ∀ (F : Function) (st : Stats) (m : Bool), WellFormed F → numInsts F < fuel →
      pruneIteration DT PDT (pruneLoop DT PDT fuel F st m).1 (pruneLoop DT PDT fuel F st m).2.2
        = ((pruneLoop DT PDT fuel F st m).1, false, (pruneLoop DT PDT fuel F st m).2.2) := by
  induction fuel with
  | zero => intro F st m _ h; exact absurd h (Nat.not_lt_zero _)
  | succ fuel ih =>
    intro F st m hwf hlt
    obtain ⟨i1, _, _, _, _, _, i7⟩ := pruneIteration_count DT PDT F st hwf
    rw [pruneLoop_succ]
    rcases i7 with h | h
    · have hm : ¬ (pruneIteration DT PDT F st).2.1 = true := by rw [h]; simp
      rw [if_neg hm]
      dsimp only
      rw [h]
      dsimp only
      exact h
    · rw [if_pos h.1]
      exact ih _ _ _ i1 (by have := h.2; omega)

/-! ## The tail set and its erasure -/

theorem setInsert_nodup (blocks : List Nat) (bb : Nat) (h : blocks.Nodup) :
    (setInsert blocks bb).Nodup := by
  unfold setInsert
  by_cases hin : basicBlockInList bb blocks = true
  · rw [if_pos hin]; exact h
  · rw [if_neg hin]
    have hnm : bb ∉ blocks := fun hm => hin ((basicBlockInList_iff _ _).2 hm)
    exact List.Nodup.append h (List.nodup_singleton bb) (by
      intro x hx hy
      have : x = bb := by simpa using hy
      exact hnm (this ▸ hx))

theorem walkSuccessors_nodup (walk : Nat → List Nat → Bool × List Nat)
    (hwalk : ∀ c T0, T0.Nodup → (walk c T0).2.Nodup) (children : List Nat) :
    ∀ (T0 : List Nat) (found : Bool), T0.Nodup →
      (walkSuccessors walk children T0 found).2.Nodup := by
  induction children with
  | nil => intro T0 found h; exact h
  | cons child rest ih =>
    intro T0 found h
    simp only [walkSuccessors]
    cases hw : (walk child T0).1
    · simp only [Bool.not_false, if_true]
      exact hwalk child T0 h
    · simp only [Bool.not_true, Bool.false_eq_true, if_false]
      exact ih _ true (hwalk child T0 h)

theorem walkChildForDecref_nodup (F : Function) (incref : Instruction) (fuel : Nat) :
    ∀ (cur : Nat) (ps T0 : List Nat), T0.Nodup →
      (walkChildForDecref F incref fuel cur ps T0).2.Nodup := by
  induction fuel with
  | zero => intro cur ps T0 h; exact h
  | succ fuel ih =>
    intro cur ps T0 h
    rw [walkChildForDecref_succ]
    by_cases h1 : ps.length ≥ 15
    · rw [if_pos h1]; exact h
    · rw [if_neg h1]
      by_cases h2 : basicBlockInList cur ps = true
      · rw [if_pos h2]
        by_cases h3 : (ps.head? == some cur) = true
        · rw [if_pos h3]; exact h
        · rw [if_neg h3]; exact h
      · rw [if_neg h2]
        by_cases h4 : hasDecrefInNode incref (instsOf F cur) = true
        · rw [if_pos h4]; exact setInsert_nodup T0 cur h
        · rw [if_neg h4]
          exact walkSuccessors_nodup _ (fun c T1 hT1 => ih c (ps ++ [cur]) T1 hT1) _ T0 false h

theorem findFanoutDecrefCandidates_nodup (F : Function) (incref : Instruction) (H : Nat) :
    (findFanoutDecrefCandidates F incref H []).2.Nodup :=
  walkSuccessors_nodup _ (fun c T1 hT1 => walkChildForDecref_nodup F incref 15 c [H] T1 hT1)
    _ [] false List.nodup_nil

theorem eraseTails_exact (incref : Instruction) (T : List Nat) :
    ∀ (F : Function) (n : Nat), T.Nodup →
      (∀ t ∈ T, hasDecrefInNode incref (instsOf F t) = true) →
      (eraseTails incref T F n).2 = n + T.length := by
  induction T with
  | nil => intro F n _ _; rfl
  | cons t T ih =>
    intro F n hnd hall
    rw [List.nodup_cons] at hnd
    simp only [eraseTails]
    have ht := hall t (List.mem_cons_self _ _)
    unfold hasDecrefInNode at ht
    obtain ⟨d, hd, hrel⟩ := List.any_eq_true.1 ht
    have hfind : ∃ d', (instsOf F t).find? (isRelatedDecref incref) = some d' := by
      cases hf : (instsOf F t).find? (isRelatedDecref incref) with
      | none =>
        rw [List.find?_eq_none] at hf
        exact absurd hrel (hf d hd)
      | some d' => exact ⟨d', rfl⟩
    obtain ⟨d', hd'⟩ := hfind
    have e : eraseFirstRelated incref F t n = (eraseFromParent F (t, d'), n + 1) := by
      unfold eraseFirstRelated
      rw [hd']
    rw [e]
    dsimp only
    rw [ih (eraseFromParent F (t, d')) (n + 1) hnd.2 (by
      intro t' ht'
      rw [instsOf_eraseFromParent]
      have hne : t' ≠ t := fun e2 => hnd.1 (e2 ▸ ht')
      rw [if_neg hne]
      exact hall t' (List.mem_cons_of_mem _ ht'))]
    rw [List.length_cons]
    omega

/-! ## The bounds on the walks are never the reason for an answer -/

theorem nodup_length_le (s : List Nat) (n : Nat) (hn : s.Nodup) (h : ∀ x ∈ s, x < n) :
    s.length ≤ n := by
  have hsub : s ⊆ List.range n := fun x hx => List.mem_range.2 (h x hx)
  have := (List.subperm_of_subset hn hsub).length_le
  simpa using this

theorem hasDecrefBetweenGraph_succ (F : Function) (tail_node fuel head_node : Nat)
    (stack : List Nat) :
    hasDecrefBetweenGraph F tail_node (fuel + 1) head_node stack
      = if basicBlockInList head_node stack then (false, stack)
        else if hasAnyDecrefInNode (instsOf F head_node) then (true, stack)
        else
          betweenLoop (hasDecrefBetweenGraph F tail_node fuel) tail_node
            (succs F head_node) (stack ++ [head_node]) := by
  rfl

theorem betweenLoop_cons (walk : Nat → List Nat → Bool × List Nat) (tail_node child : Nat)
    (rest stack : List Nat) :
    betweenLoop walk tail_node (child :: rest) stack
      = if child == tail_node then betweenLoop walk tail_node rest stack
        else if (walk child stack).1 then (true, (walk child stack).2)
        else betweenLoop walk tail_node rest (walk child stack).2 := by
  rfl

/-- Stacks that extend `stack` without repeating a block. -/
theorem betweenLoop_extends (walk : Nat → List Nat → Bool × List Nat) (tail_node : Nat)
    (hwalk : ∀ c s, s.Nodup → (walk c s).2.Nodup ∧ ∃ ext, (walk c s).2 = s ++ ext)
    (children : List Nat) :
    ∀ (stack : List Nat), stack.Nodup →
      (betweenLoop walk tail_node children stack).2.Nodup ∧
        ∃ ext, (betweenLoop walk tail_node children stack).2 = stack ++ ext := by
  induction children with
  | nil => intro stack h; exact ⟨h, [], by simp [betweenLoop]⟩
  | cons child rest ih =>
    intro stack h
    rw [betweenLoop_cons]
    by_cases h1 : (child == tail_node) = true
    · rw [if_pos h1]; exact ih stack h
    · rw [if_neg h1]
      obtain ⟨w1, ext1, w2⟩ := hwalk child stack h
      by_cases h2 : (walk child stack).1 = true
      · rw [if_pos h2]; exact ⟨w1, ext1, w2⟩
      · rw [if_neg h2]
        obtain ⟨r1, ext2, r2⟩ := ih (walk child stack).2 w1
        refine ⟨r1, ext1 ++ ext2, ?_⟩
        rw [r2, w2, List.append_assoc]

theorem hasDecrefBetweenGraph_extends (F : Function) (tail_node fuel : Nat) :
    ∀ (head_node : Nat) (stack : List Nat), stack.Nodup →
      (hasDecrefBetweenGraph F tail_node fuel head_node stack).2.Nodup ∧
        ∃ ext, (hasDecrefBetweenGraph F tail_node fuel head_node stack).2 = stack ++ ext := by
  induction fuel with
  | zero => intro head_node stack h; exact ⟨h, [], by simp [hasDecrefBetweenGraph]⟩
  | succ fuel ih =>
    intro head_node stack h
    rw [hasDecrefBetweenGraph_succ]
    by_cases h1 : basicBlockInList head_node stack = true
    · rw [if_pos h1]; exact ⟨h, [], by simp⟩
    · rw [if_neg h1]
      by_cases h2 : hasAnyDecrefInNode (instsOf F head_node) = true
      · rw [if_pos h2]; exact ⟨h, [], by simp⟩
      · rw [if_neg h2]
        have hnm : head_node ∉ stack := fun hm => h1 ((basicBlockInList_iff _ _).2 hm)
        have hnd : (stack ++ [head_node]).Nodup :=
          List.Nodup.append h (List.nodup_singleton _) (by
            intro x hx hy
            have : x = head_node := by simpa using hy
            exact hnm (this ▸ hx))
        obtain ⟨r1, ext, r2⟩ := betweenLoop_extends _ tail_node ih (succs F head_node)
          (stack ++ [head_node]) hnd
        refine ⟨r1, [head_node] ++ ext, ?_⟩
        rw [r2, List.append_assoc]

theorem inRange_append (n : Nat) (s ext : List Nat) :
    (s.filter (fun x => decide (x < n))).length
      ≤ ((s ++ ext).filter (fun x => decide (x < n))).length := by
  rw [List.filter_append, List.length_append]
  omega

theorem betweenLoop_fuel (F : Function) (tail_node : Nat)
    (walk1 walk2 : Nat → List Nat → Bool × List Nat) (bound : Nat)
    (hext : ∀ c s, s.Nodup → (walk2 c s).2.Nodup ∧ ∃ ext, (walk2 c s).2 = s ++ ext)
    (hsame : ∀ c s, s.Nodup →
      bound ≤ (s.filter (fun x => decide (x < F.length))).length → walk1 c s = walk2 c s)
    (children : List Nat) :
    ∀ (stack : List Nat), stack.Nodup →
      bound ≤ (stack.filter (fun x => decide (x < F.length))).length →
      betweenLoop walk1 tail_node children stack = betweenLoop walk2 tail_node children stack := by
  induction children with
  | nil => intro stack _ _; rfl
  | cons child rest ih =>
    intro stack h hb
    rw [betweenLoop_cons, betweenLoop_cons, hsame child stack h hb]
    by_cases h1 : (child == tail_node) = true
    · rw [if_pos h1, if_pos h1]; exact ih stack h hb
    · rw [if_neg h1, if_neg h1]
      by_cases h2 : (walk2 child stack).1 = true
      · rw [if_pos h2, if_pos h2]
      · rw [if_neg h2, if_neg h2]
        obtain ⟨w1, ext, w2⟩ := hext child stack h
        apply ih _ w1
        rw [w2]
        exact Nat.le_trans hb (inRange_append F.length stack ext)

/-- With a recursion bound of `F.length + 1` on an empty stack, more fuel
does not change the answer of `hasDecrefBetweenGraph`. -/
theorem hasDecrefBetweenGraph_fuel (F : Function) (tail_node fuel : Nat) :
    ∀ (k head_node : Nat) (stack : List Nat), stack.Nodup →
      F.length + 1 ≤ fuel + (stack.filter (fun x => decide (x < F.length))).length →
      hasDecrefBetweenGraph F tail_node (fuel + k) head_node stack
        = hasDecrefBetweenGraph F tail_node fuel head_node stack := by
  induction fuel with
  | zero =>
    intro k head_node stack h hb
    exfalso
    have hle := nodup_length_le (stack.filter (fun x => decide (x < F.length))) F.length
      (h.sublist (List.filter_sublist stack)) (by
        intro x hx
        have := (List.mem_filter.1 hx).2
        simpa using this)
    omega
  | succ fuel ih =>
    intro k head_node stack h hb
    have e : fuel + 1 + k = (fuel + k) + 1 := by omega
    rw [e, hasDecrefBetweenGraph_succ, hasDecrefBetweenGraph_succ]
    by_cases h1 : basicBlockInList head_node stack = true
    · rw [if_pos h1, if_pos h1]
    · rw [if_neg h1, if_neg h1]
      by_cases h2 : hasAnyDecrefInNode (instsOf F head_node) = true
      · rw [if_pos h2, if_pos h2]
      · rw [if_neg h2, if_neg h2]
        have hnm : head_node ∉ stack := fun hm => h1 ((basicBlockInList_iff _ _).2 hm)
        have hnd : (stack ++ [head_node]).Nodup :=
          List.Nodup.append h (List.nodup_singleton _) (by
            intro x hx hy
            have : x = head_node := by simpa using hy
            exact hnm (this ▸ hx))
        by_cases hr : head_node < F.length
        · apply betweenLoop_fuel F tail_node _ _
            (F.length + 1 - fuel)
            (hasDecrefBetweenGraph_extends F tail_node fuel)
            (fun c s hs hbs => ih k c s hs (by omega)) (succs F head_node) _ hnd
          rw [List.filter_append, List.length_append]
          have : ([head_node].filter (fun x => decide (x < F.length))).length = 1 := by
            simp [hr]
          omega
        · have hnone : F[head_node]? = none := List.getElem?_eq_none (Nat.le_of_not_lt hr)
          have hs : succs F head_node = [] := by simp [succs, hnone]
          rw [hs]
          rfl

theorem tail_in_range (F : Function) (incref : Instruction) (t : Nat)
    (h : hasDecrefInNode incref (instsOf F t) = true) : t < F.length := by
  by_contra hlt
  have hnone : F[t]? = none := List.getElem?_eq_none (Nat.le_of_not_lt hlt)
  simp [instsOf, hnone, hasDecrefInNode] at h

/-- With `numInsts F + 1` iterations the loop of `runOnFunction` leaves
through its own test: more fuel does not change the result. -/
theorem pruneLoop_fuel (DT PDT : InstRef → InstRef → Bool) (fuel : Nat) :
    ∀ (k : Nat) (F : Function) (st : Stats) (m : Bool), WellFormed F → numInsts F < fuel →
      pruneLoop DT PDT (fuel + k) F st m = pruneLoop DT PDT fuel F st m := by
  induction fuel with
  | zero => intro k F st m _ h; exact absurd h (Nat.not_lt_zero _)
  | succ fuel ih =>
    intro k F st m hwf hlt
    have e : fuel + 1 + k = (fuel + k) + 1 := by omega
    rw [e, pruneLoop_succ, pruneLoop_succ]
    obtain ⟨i1, _, _, _, _, _, i7⟩ := pruneIteration_count DT PDT F st hwf
    by_cases hm : (pruneIteration DT PDT F st).2.1 = true
    · rw [if_pos hm, if_pos hm]
      rcases i7 with h | h
      · rw [h] at hm
        exact Bool.noConfusion hm
      · exact ih k _ _ _ i1 (by have := h.2; omega)
    · rw [if_neg hm, if_neg hm]

/-- Claim C1: when the body of the incref loop of `runFanoutPrune` erases an
incref `I` of head block `H` with the tail blocks `T` (the gate on `H`
passes and `findFanout` answers true with `decref_blocks = T`), every CFG
path that starts at `H` and ends in a block without successors holds, among
its blocks after `H` and before its first return to `H`, exactly one block
of `T`. -/
theorem fanout_paths_meet_one_tail (F : Function) (incref : InstRef) (T : List Nat)
    (m : Bool) (n : Nat) (hgate : hasAnyDecrefInNode (instsOf F incref.1) = false)
    (h : findFanout F incref = (true, T)) :
    fanoutStep incref F m n
        = (eraseFromParent (eraseTails incref.2 T F n).1 incref, true,
            (eraseTails incref.2 T F n).2 + 1) ∧
      ∀ (p : List Nat) (e : Nat), IsPath F (incref.1 :: p) →
        (incref.1 :: p).getLast? = some e → IsExit F e →
        ((p.takeWhile (fun b => b != incref.1)).filter
          (fun b => basicBlockInList b T)).length = 1 := by
  refine ⟨fanoutStep_of_findFanout F incref T m n hgate h, ?_⟩
  intro p e hp hl hexit
  obtain ⟨h1, h2, h3⟩ := findFanout_true F incref T h
  obtain ⟨hne, E, hcov, hsucc, _⟩ := findFanoutDecrefCandidates_sound F incref.2 incref.1 h1
  rw [h2] at hcov hsucc
  have hge := at_least_one_tail F incref.1 T E hcov p incref.1 ⟨hne, hsucc⟩ hp
    (fun e' he' => by
      rw [hl] at he'
      have : e = e' := by simpa using he'
      rw [← this]; exact hexit)
  have hle := at_most_one_tail F incref.1 T h3 (p.takeWhile (fun b => b != incref.1))
    (isPath_takeWhile F _ p (isPath_tail F incref.1 p hp))
    (fun y hy => by
      have := List.mem_takeWhile_imp hy
      simpa using this)
  omega

/-- Claim C1 on scenario 5: the path `H, A, X` meets exactly one tail. -/
theorem fanout_paths_meet_one_tail_witness :
    findFanout fanoutFn (0, mkIncref 1 7) = (true, [1, 2]) ∧
      IsPath fanoutFn [0, 1, 3] ∧ IsExit fanoutFn 3 ∧
      ((([1, 3] : List Nat).takeWhile (fun b => b != 0)).filter
        (fun b => basicBlockInList b [1, 2])).length = 1 :=
  ⟨by decide, by decide, by decide,
   (fanout_paths_meet_one_tail fanoutFn (0, mkIncref 1 7) [1, 2] false 0 (by decide)
      (by decide)).2 [1, 3] 3 (by decide) (by decide) (by decide)⟩

/-- Claim C2: when `findFanout` answers true for an incref of head block `H`
with `decref_blocks = T` (the only case in which `runFanoutPrune` erases),
no block of `T` is the end of a CFG path that starts at the entry block and
does not pass through `H`.  On scenario 6 (`E -> H, E -> A, H -> A`) the
fanout pruner and the whole prune pass erase nothing. -/
theorem fanout_tails_behind_head (F : Function) (incref : InstRef) (T : List Nat)
    (h : findFanout F incref = (true, T)) :
    (∀ t ∈ T, ¬ ∃ p : List Nat,
        IsPath F p ∧ p.head? = some 0 ∧ p.getLast? = some t ∧ incref.1 ∉ p) ∧
      runFanoutPrune entryBypassFn zeroStats = (entryBypassFn, false, zeroStats) ∧
      RefPrunePass.runOnFunction (domTreeOf entryBypassFn) (postDomTreeOf entryBypassFn)
        entryBypassFn zeroStats = (entryBypassFn, false, zeroStats) := by
  refine ⟨?_, by decide, by decide⟩
  intro t ht
  rintro ⟨p, hp, h0, hl, hH⟩
  obtain ⟨_, _, h3⟩ := findFanout_true F incref T h
  cases p with
  | nil => simp at h0
  | cons x p =>
    have hx : x = 0 := by simpa using h0
    subst hx
    have hb := backReach_of_path F incref.1 t p 0 hp hH hl
    exact (verifyFanoutNonOverlapping_sound F incref.1 T h3 t ht 0 hb).1 rfl

/-- Claim C2 on scenario 5: tail `A` is not reached from the entry block
`H` by a path avoiding `H`. -/
theorem fanout_tails_behind_head_witness :
    ¬ ∃ p : List Nat,
      IsPath fanoutFn p ∧ p.head? = some 0 ∧ p.getLast? = some 1 ∧ 0 ∉ p :=
  (fanout_tails_behind_head fanoutFn (0, mkIncref 1 7) [1, 2] (by decide)).1 1 (by decide)

/-! ## The interference walk of the diamond pruner -/

theorem betweenClosed_refl (F : Function) (tail_node : Nat) (stack : List Nat) :
    BetweenClosed F tail_node stack stack :=
  ⟨fun _ h => h, fun _ h1 h2 => absurd h1 h2⟩

theorem betweenClosed_trans (F : Function) (tail_node : Nat) (s1 s2 s3 : List Nat)
    (h12 : BetweenClosed F tail_node s1 s2) (h23 : BetweenClosed F tail_node s2 s3) :
    BetweenClosed F tail_node s1 s3 := by
  refine ⟨fun x hx => h23.1 x (h12.1 x hx), ?_⟩
  intro x hx3 hx1
  by_cases hx2 : x ∈ s2
  · obtain ⟨a, b⟩ := h12.2 x hx2 hx1
    exact ⟨a, fun c hc hct => h23.1 c (b c hc hct)⟩
  · exact h23.2 x hx3 hx2

theorem betweenLoop_sound (F : Function) (tail_node : Nat)
    (walk : Nat → List Nat → Bool × List Nat)
    (hwalk : ∀ c s, (walk c s).1 = false →
      BetweenClosed F tail_node s (walk c s).2 ∧ c ∈ (walk c s).2)
    (children : List Nat) :
    ∀ (stack : List Nat), (betweenLoop walk tail_node children stack).1 = false →
      BetweenClosed F tail_node stack (betweenLoop walk tail_node children stack).2 ∧
        ∀ c ∈ children, c ≠ tail_node →
          c ∈ (betweenLoop walk tail_node children stack).2 := by
  induction children with
  | nil =>
    intro stack _
    exact ⟨betweenClosed_refl F tail_node stack, fun c hc => absurd hc (List.not_mem_nil c)⟩
  | cons child rest ih =>
    intro stack h
    by_cases hct : child = tail_node
    · have e : betweenLoop walk tail_node (child :: rest) stack
          = betweenLoop walk tail_node rest stack := by
        simp [betweenLoop, hct]
      rw [e] at h ⊢
      obtain ⟨a, b⟩ := ih stack h
      refine ⟨a, ?_⟩
      intro c hc hne
      rcases List.mem_cons.1 hc with e1 | e1
      · exact absurd (e1.trans hct) hne
      · exact b c e1 hne
    · have hbeq : (child == tail_node) = false := by simpa using hct
      cases hw : (walk child stack).1
      · have e : betweenLoop walk tail_node (child :: rest) stack
            = betweenLoop walk tail_node rest (walk child stack).2 := by
          simp [betweenLoop, hbeq, hw]
        rw [e] at h ⊢
        obtain ⟨a, b⟩ := ih _ h
        obtain ⟨w1, w2⟩ := hwalk child stack hw
        refine ⟨betweenClosed_trans F tail_node _ _ _ w1 a, ?_⟩
        intro c hc hne
        rcases List.mem_cons.1 hc with e1 | e1
        · rw [e1]; exact a.1 child w2
        · exact b c e1 hne
      · have e : (betweenLoop walk tail_node (child :: rest) stack).1 = true := by
          simp [betweenLoop, hbeq, hw]
        rw [e] at h
        exact Bool.noConfusion h

theorem hasDecrefBetweenGraph_sound (F : Function) (tail_node : Nat) (fuel : Nat) :
    ∀ (head_node : Nat) (stack : List Nat),
      (hasDecrefBetweenGraph F tail_node fuel head_node stack).1 = false →
        BetweenClosed F tail_node stack
            (hasDecrefBetweenGraph F tail_node fuel head_node stack).2 ∧
          head_node ∈ (hasDecrefBetweenGraph F tail_node fuel head_node stack).2 := by
  induction fuel with
  | zero => intro head_node stack h; simp [hasDecrefBetweenGraph] at h
  | succ fuel ih =>
    intro head_node stack h
    by_cases hin : basicBlockInList head_node stack = true
    · have e : hasDecrefBetweenGraph F tail_node (fuel + 1) head_node stack = (false, stack) := by
        simp [hasDecrefBetweenGraph, hin]
      rw [e]
      exact ⟨betweenClosed_refl F tail_node stack, (basicBlockInList_iff _ _).1 hin⟩
    · by_cases hdec : hasAnyDecrefInNode (instsOf F head_node) = true
      · have e : hasDecrefBetweenGraph F tail_node (fuel + 1) head_node stack = (true, stack) := by
          simp [hasDecrefBetweenGraph, hin, hdec]
        rw [e] at h
        exact Bool.noConfusion h
      · have e : hasDecrefBetweenGraph F tail_node (fuel + 1) head_node stack
            = betweenLoop (hasDecrefBetweenGraph F tail_node fuel) tail_node
                (succs F head_node) (stack ++ [head_node]) := by
          simp [hasDecrefBetweenGraph, hin, hdec]
        rw [e] at h ⊢
        obtain ⟨a, b⟩ := betweenLoop_sound F tail_node _ ih (succs F head_node)
          (stack ++ [head_node]) h
        have hhead : head_node ∈ (betweenLoop (hasDecrefBetweenGraph F tail_node fuel)
            tail_node (succs F head_node) (stack ++ [head_node])).2 :=
          a.1 head_node (by simp)
        refine ⟨⟨fun x hx => a.1 x (List.mem_append_left _ hx), ?_⟩, hhead⟩
        intro x hx hxs
        by_cases hxh : x = head_node
        · subst hxh
          exact ⟨by simpa using hdec, b⟩
        · exact a.2 x hx (by
            intro hmem
            rcases List.mem_append.1 hmem with h1 | h1
            · exact hxs h1
            · exact hxh (by simpa using h1))

theorem reachAvoid_in_closed (F : Function) (tail_node head_node : Nat) (S : List Nat)
    (hS : BetweenClosed F tail_node [] S) (hhead : head_node ∈ S) (x : Nat)
    (hx : ReachAvoid F tail_node head_node x) : x ∈ S := by
  induction hx with
  | refl => exact hhead
  | step _ hc hne ih => exact (hS.2 _ ih (List.not_mem_nil _)).2 _ hc hne

theorem no_decref_between (F : Function) (tail_node head_node fuel : Nat)
    (h : (hasDecrefBetweenGraph F tail_node fuel head_node []).1 = false) (x : Nat)
    (hx : ReachAvoid F tail_node head_node x) :
    hasAnyDecrefInNode (instsOf F x) = false := by
  obtain ⟨a, b⟩ := hasDecrefBetweenGraph_sound F tail_node fuel head_node [] h
  have hxS := reachAvoid_in_closed F tail_node head_node _ a b x hx
  exact (a.2 x hxS (List.not_mem_nil _)).1

theorem diamondTest_spec (DT PDT : InstRef → InstRef → Bool) (F : Function)
    (incref decref : InstRef) (h : diamondTest DT PDT F incref decref = true) :
    incref.1 ≠ decref.1 ∧ isRelatedDecref incref.2 decref.2 = true ∧
      DT incref decref = true ∧ PDT decref incref = true ∧
      (hasDecrefBetweenGraph F decref.1 (F.length + 1) incref.1 []).1 = false := by
  unfold diamondTest at h
  by_cases h1 : (incref.1 == decref.1) = true
  · rw [if_pos h1] at h; exact Bool.noConfusion h
  · rw [if_neg h1] at h
    by_cases h2 : (!isRelatedDecref incref.2 decref.2) = true
    · rw [if_pos h2] at h; exact Bool.noConfusion h
    · rw [if_neg h2] at h
      by_cases h3 : (DT incref decref && PDT decref incref) = true
      · rw [if_pos h3] at h
        by_cases h4 : (hasDecrefBetweenGraph F decref.1 (F.length + 1) incref.1 []).1 = true
        · rw [if_pos h4] at h; exact Bool.noConfusion h
        · simp only [Bool.and_eq_true] at h3
          exact ⟨by simpa using h1, by simpa using h2, h3.1, h3.2, by simpa using h4⟩
      · rw [if_neg h3] at h; exact Bool.noConfusion h

/-! ## Pairing inside one block -/

theorem pairLoop_phase1 (I D : Instruction) (L1 : List Instruction) :
    ∀ (rest : List Instruction) (slots : List (Option Instruction))
      (insts : List Instruction) (m : Bool) (n : Nat),
      (∀ x ∈ L1, x.arg0 ≠ I.arg0) →
      slots.reduceOption.find? (isRelatedDecref I) = some D →
      ∃ slots' insts' m' n', pairLoop (L1 ++ rest) slots insts m n
          = pairLoop rest slots' insts' m' n' ∧
        slots'.reduceOption.find? (isRelatedDecref I) = some D ∧ n ≤ n' := by
  induction L1 with
  | nil => intro rest slots insts m n _ h; exact ⟨slots, insts, m, n, rfl, h, Nat.le_refl _⟩
  | cons x L1 ih =>
    intro rest slots insts m n hL h
    have hL' : ∀ y ∈ L1, y.arg0 ≠ I.arg0 := fun y hy => hL y (List.mem_cons_of_mem _ hy)
    simp only [List.cons_append, pairLoop]
    cases ht : takeRelatedSlot x slots with
    | none => exact ih rest slots insts m n hL' h
    | some p =>
      obtain ⟨d, s'⟩ := p
      obtain ⟨A, B, h1, h2, _, h4⟩ := takeRelatedSlot_some x slots d s' ht
      have hId : isRelatedDecref I d = false := by
        apply isRelatedDecref_of_arg_ne
        intro e
        exact hL x (List.mem_cons_self _ _) ((isRelatedDecref_arg x d h4).trans e.symm)
      have hfind : s'.reduceOption.find? (isRelatedDecref I) = some D := by
        rw [h2, ← find_append_cons_of_false _ A B d hId, ← h1]
        exact h
      obtain ⟨s2, i2, m2, n2, e1, e2, e3⟩ :=
        ih rest s' (eraseInst (eraseInst insts x) d) true (n + 2) hL' hfind
      exact ⟨s2, i2, m2, n2, e1, e2, by omega⟩

theorem pairLoop_removes_pair (I D : Instruction) (L1 L2 : List Instruction)
    (slots : List (Option Instruction)) (insts : List Instruction) (m : Bool) (n : Nat)
    (hL1 : ∀ x ∈ L1, x.arg0 ≠ I.arg0)
    (hL2r : ∀ x ∈ L2, isRefOp x = true)
    (h : slots.reduceOption.find? (isRelatedDecref I) = some D) :
    I ∉ (pairLoop (L1 ++ I :: L2) slots insts m n).1 ∧
      D ∉ (pairLoop (L1 ++ I :: L2) slots insts m n).1 ∧
      (pairLoop (L1 ++ I :: L2) slots insts m n).2.1 = true ∧
      n + 2 ≤ (pairLoop (L1 ++ I :: L2) slots insts m n).2.2 := by
  obtain ⟨s1, i1, m1, n1, e1, e2, e3⟩ := pairLoop_phase1 I D L1 (I :: L2) slots insts m n hL1 h
  obtain ⟨s2, ht⟩ := takeRelatedSlot_of_find I D s1 e2
  rw [e1]
  simp only [pairLoop, ht]
  have hsub := (pairLoop_insts L2 s2 (eraseInst (eraseInst i1 I) D) true (n1 + 2) hL2r).1
  have hcnt := pairLoop_counter_le L2 s2 (eraseInst (eraseInst i1 I) D) true (n1 + 2)
  refine ⟨?_, ?_, hcnt.2 rfl, by have := hcnt.1; omega⟩
  · intro hmem
    have h1 := (mem_eraseInst _ _ _).1 (hsub.subset hmem)
    exact ((mem_eraseInst _ _ _).1 h1.1).2 rfl
  · intro hmem
    exact ((mem_eraseInst _ _ _).1 (hsub.subset hmem)).2 rfl

theorem pruneBlock_pair (bb : BasicBlock) (m : Bool) (n : Nat) (i j : Nat)
    (hi : i < bb.insts.length) (hj : j < bb.insts.length)
    (hord : IncrefsBeforeDecrefs bb.insts)
    (hI : isIncrefOp (bb.insts[i]) = true) (hD : isDecrefOp (bb.insts[j]) = true)
    (hp : (bb.insts[i]).arg0 = (bb.insts[j]).arg0)
    (hbetween : ∀ (k : Nat) (hk : k < bb.insts.length), i < k → k < j →
      isRefOp (bb.insts[k]) = true → (bb.insts[k]).arg0 ≠ (bb.insts[i]).arg0) :
    bb.insts[i] ∉ (pruneBlock bb m n).1.insts ∧ bb.insts[j] ∉ (pruneBlock bb m n).1.insts ∧
      (pruneBlock bb m n).2.1 = true ∧ n + 2 ≤ (pruneBlock bb m n).2.2 := by
  have hij : i < j := hord i hi j hj hI hD
  have hIr : isRefOp (bb.insts[i]) = true := isIncrefOp_isRefOp _ hI
  have hDr : isRefOp (bb.insts[j]) = true := isDecrefOp_isRefOp _ hD
  have hIinc : IsIncRef (bb.insts[i]) = true := by
    rw [isIncrefOp_eq] at hI
    simp only [Bool.and_eq_true] at hI
    exact hI.2
  have hDdec : IsDecRef (bb.insts[j]) = true := by
    rw [isDecrefOp_eq] at hD
    simp only [Bool.and_eq_true] at hD
    exact hD.2
  have hDcall : (bb.insts[j]).isCall = true := by
    rw [isDecrefOp_eq] at hD
    simp only [Bool.and_eq_true] at hD
    exact hD.1
  have hDninc : IsIncRef (bb.insts[j]) = false := by
    cases h : IsIncRef (bb.insts[j])
    · rfl
    · have := incref_not_decref _ h
      rw [hDdec] at this
      exact Bool.noConfusion this
  have hnull := eraseNullLoop_spec (nullList bb.insts) bb.insts m n
  have hincs : ∀ x ∈ (increfList bb.insts).reverse, isRefOp x = true := by
    intro x hx
    have := (List.mem_filter.1 (List.mem_reverse.1 hx)).2
    simp only [Bool.and_eq_true] at this
    exact this.1.1
  have hIm : bb.insts[i] ∈ bb.insts := List.getElem_mem hi
  have hDm : bb.insts[j] ∈ bb.insts := List.getElem_mem hj
  cases hnn : isNonNullFirstArg (bb.insts[i])
  · -- both refops are on NULL: the loop over `null_list` erases them
    have hnnD : isNonNullFirstArg (bb.insts[j]) = false := by
      unfold isNonNullFirstArg at hnn ⊢
      rw [← hp]; exact hnn
    have hIn : bb.insts[i] ∈ nullList bb.insts :=
      List.mem_filter.2 ⟨hIm, by simp [hIr, hnn]⟩
    have hDn : bb.insts[j] ∈ nullList bb.insts :=
      List.mem_filter.2 ⟨hDm, by simp [hDr, hnnD]⟩
    have hsub := (pairLoop_insts (increfList bb.insts).reverse
      ((decrefList bb.insts).map some)
      (eraseNullLoop (nullList bb.insts) bb.insts m n).1
      (eraseNullLoop (nullList bb.insts) bb.insts m n).2.1
      (eraseNullLoop (nullList bb.insts) bb.insts m n).2.2 hincs).1
    have hcnt := pairLoop_counter_le (increfList bb.insts).reverse
      ((decrefList bb.insts).map some)
      (eraseNullLoop (nullList bb.insts) bb.insts m n).1
      (eraseNullLoop (nullList bb.insts) bb.insts m n).2.1
      (eraseNullLoop (nullList bb.insts) bb.insts m n).2.2
    have hlen : 2 ≤ (nullList bb.insts).length := by
      have hsplit := split_at_index bb.insts j hj
      have hIt : bb.insts[i] ∈ (bb.insts.take j).filter
          (fun ii => isRefOp ii && !isNonNullFirstArg ii) := by
        apply List.mem_filter.2
        refine ⟨?_, by simp [hIr, hnn]⟩
        apply List.mem_iff_getElem.2
        refine ⟨i, by rw [List.length_take]; omega, ?_⟩
        rw [List.getElem_take]
      have h1 : 1 ≤ ((bb.insts.take j).filter
          (fun ii => isRefOp ii && !isNonNullFirstArg ii)).length :=
        List.length_pos_of_mem hIt
      unfold nullList
      conv => rhs; rw [hsplit]
      rw [List.filter_append, List.filter_cons, List.length_append]
      simp only [hDr, hnnD, Bool.not_false, Bool.and_self, if_true, List.length_cons]
      omega
    refine ⟨?_, ?_, ?_, ?_⟩
    · intro hmem
      exact ((hnull.2.2 _).1 (hsub.subset hmem)).2 hIn
    · intro hmem
      exact ((hnull.2.2 _).1 (hsub.subset hmem)).2 hDn
    · apply hcnt.2
      rw [hnull.2.1]
      have : (nullList bb.insts).isEmpty = false := by
        cases hl : nullList bb.insts with
        | nil => rw [hl] at hIn; simp at hIn
        | cons a l => rfl
      simp [this]
    · have := hcnt.1
      rw [hnull.1] at this
      show n + 2 ≤ (pairLoop _ _ _ _ _).2.2
      omega
  · -- both refops are on a non-null pointer: the pairing loop matches them
    have hnnD : isNonNullFirstArg (bb.insts[j]) = true := by
      unfold isNonNullFirstArg at hnn ⊢
      rw [← hp]; exact hnn
    have hrelD : isRelatedDecref (bb.insts[i]) (bb.insts[j]) = true := by
      rw [isRelatedDecref_eq]
      simp [hDcall, hDdec, hp]
    -- the decref list: nothing related to the incref stands before the decref
    have hdl : (decrefList bb.insts).find? (isRelatedDecref (bb.insts[i]))
        = some (bb.insts[j]) := by
      have hsplit := split_at_index bb.insts j hj
      have e : decrefList bb.insts = decrefList (bb.insts.take j)
          ++ bb.insts[j] :: decrefList (bb.insts.drop (j + 1)) := by
        unfold decrefList
        conv => lhs; rw [hsplit]
        rw [List.filter_append, List.filter_cons]
        simp [hDr, hnnD, hDninc, hDdec]
      rw [e]
      apply find_append_cons_of_true _ _ _ _ _ hrelD
      intro x hx
      have hx' := List.mem_filter.1 hx
      obtain ⟨k, hk, hkj, ek⟩ := mem_take_index bb.insts j x hx'.1
      have hxp := hx'.2
      simp only [Bool.and_eq_true, Bool.not_eq_true'] at hxp
      have hxr : isRefOp x = true := hxp.1.1.1
      have hxd : isDecrefOp x = true := by
        rw [isDecrefOp_eq]
        rw [isRefOp_eq] at hxr
        simp only [Bool.and_eq_true] at hxr
        simp [hxr.1, hxp.2]
      have hik : i < k := hord i hi k hk hI (by rw [ek]; exact hxd)
      apply isRelatedDecref_of_arg_ne
      intro e2
      exact hbetween k hk hik hkj (by rw [ek]; exact hxr) (by rw [ek]; exact e2.symm)
    -- the incref list: every incref popped before ours is on another pointer
    have hil : (increfList bb.insts).reverse
        = (increfList (bb.insts.drop (i + 1))).reverse
          ++ bb.insts[i] :: (increfList (bb.insts.take i)).reverse := by
      have hsplit := split_at_index bb.insts i hi
      have e : increfList bb.insts = increfList (bb.insts.take i)
          ++ bb.insts[i] :: increfList (bb.insts.drop (i + 1)) := by
        unfold increfList
        conv => lhs; rw [hsplit]
        rw [List.filter_append, List.filter_cons]
        simp [hIr, hnn, hIinc]
      rw [e]
      simp
    have hL1 : ∀ x ∈ (increfList (bb.insts.drop (i + 1))).reverse,
        x.arg0 ≠ (bb.insts[i]).arg0 := by
      intro x hx
      have hx' := List.mem_filter.1 (List.mem_reverse.1 hx)
      obtain ⟨k, hk, hik, ek⟩ := mem_drop_index bb.insts i x hx'.1
      have hxp := hx'.2
      simp only [Bool.and_eq_true] at hxp
      have hxr : isRefOp x = true := hxp.1.1
      have hxi : isIncrefOp x = true := by
        rw [isIncrefOp_eq]
        rw [isRefOp_eq] at hxr
        simp only [Bool.and_eq_true] at hxr
        simp [hxr.1, hxp.2]
      have hkj : k < j := hord k hk j hj (by rw [ek]; exact hxi) hD
      have := hbetween k hk hik hkj (by rw [ek]; exact hxr)
      rw [ek] at this
      exact this
    have hL1r : ∀ x ∈ (increfList (bb.insts.drop (i + 1))).reverse, isRefOp x = true := by
      intro x hx
      have := (List.mem_filter.1 (List.mem_reverse.1 hx)).2
      simp only [Bool.and_eq_true] at this
      exact this.1.1
    have hL2r : ∀ x ∈ (increfList (bb.insts.take i)).reverse, isRefOp x = true := by
      intro x hx
      have := (List.mem_filter.1 (List.mem_reverse.1 hx)).2
      simp only [Bool.and_eq_true] at this
      exact this.1.1
    have hfind : ((decrefList bb.insts).map some).reduceOption.find?
        (isRelatedDecref (bb.insts[i])) = some (bb.insts[j]) := by
      rw [reduceOption_map_some]; exact hdl
    have key := pairLoop_removes_pair (bb.insts[i]) (bb.insts[j])
      (increfList (bb.insts.drop (i + 1))).reverse (increfList (bb.insts.take i)).reverse
      ((decrefList bb.insts).map some)
      (eraseNullLoop (nullList bb.insts) bb.insts m n).1
      (eraseNullLoop (nullList bb.insts) bb.insts m n).2.1
      (eraseNullLoop (nullList bb.insts) bb.insts m n).2.2 hL1 hL2r hfind
    rw [← hil] at key
    refine ⟨key.1, key.2.1, key.2.2.1, ?_⟩
    have := key.2.2.2
    rw [hnull.1] at this
    show n + 2 ≤ (pairLoop _ _ _ _ _).2.2
    omega

/-- Claim C4: in a block whose increfs all stand before its decrefs, an
incref and a decref with the same operand 0 and no other refop on that
operand between them are both gone after one run of
`runPerBasicBlockPrune`; the run reports a mutation, leaves the other
instructions and the terminators of every block as they were, and adds at
least the two of this pair to `stats_per_bb`.  On
`incref %p; use %p; decref %p; ret` the result is `use %p; ret` and the
counter grows by exactly two. -/
theorem per_block_pair_removed (F : Function) (st : Stats) (b i j : Nat)
    (hi : i < (instsOf F b).length) (hj : j < (instsOf F b).length)
    (hord : IncrefsBeforeDecrefs (instsOf F b))
    (hI : isIncrefOp ((instsOf F b)[i]) = true) (hD : isDecrefOp ((instsOf F b)[j]) = true)
    (hp : ((instsOf F b)[i]).arg0 = ((instsOf F b)[j]).arg0)
    (hbetween : ∀ (k : Nat) (hk : k < (instsOf F b).length), i < k → k < j →
      isRefOp ((instsOf F b)[k]) = true → ((instsOf F b)[k]).arg0 ≠ ((instsOf F b)[i]).arg0) :
    (instsOf F b)[i] ∉ instsOf (runPerBasicBlockPrune F st).1 b ∧
      (instsOf F b)[j] ∉ instsOf (runPerBasicBlockPrune F st).1 b ∧
      (runPerBasicBlockPrune F st).1.map nonRefopView = F.map nonRefopView ∧
      (runPerBasicBlockPrune F st).2.1 = true ∧
      st.per_bb + 2 ≤ (runPerBasicBlockPrune F st).2.2.per_bb ∧
      runPerBasicBlockPrune singleBlockPairFn zeroStats
        = ([mkBlock [mkUse 2 7] 4 []], true, { zeroStats with per_bb := 2 }) := by
  cases hF : F[b]? with
  | none =>
    have : instsOf F b = [] := by simp [instsOf, hF]
    rw [this] at hi
    exact absurd hi (Nat.not_lt_zero _)
  | some bb =>
    have e : instsOf F b = bb.insts := instsOf_eq_of_getElem F b bb hF
    obtain ⟨m0, n0, e1, e2, e3, e4⟩ := pruneBlocks_at F false st.per_bb b bb hF
    have hi' : i < bb.insts.length := by rw [← e]; exact hi
    have hj' : j < bb.insts.length := by rw [← e]; exact hj
    have key := pruneBlock_pair bb m0 n0 i j hi' hj' (by rw [← e]; exact hord)
      (by simpa only [e] using hI) (by simpa only [e] using hD)
      (by simpa only [e] using hp)
      (by
        intro k hk h1 h2 h3
        have := hbetween k (by rw [e]; exact hk) h1 h2 (by simpa only [e] using h3)
        simpa only [e] using this)
    refine ⟨?_, ?_, shrinks_view_eq (runPerBasicBlockPrune_shrinks F st), ?_, ?_, by decide⟩
    · show _ ∉ instsOf (pruneBlocks F false st.per_bb).1 b
      rw [e1]
      simpa only [e] using key.1
    · show _ ∉ instsOf (pruneBlocks F false st.per_bb).1 b
      rw [e1]
      simpa only [e] using key.2.1
    · exact e4 key.2.2.1
    · show st.per_bb + 2 ≤ (pruneBlocks F false st.per_bb).2.2
      have := key.2.2.2
      omega

/-- Claim C4 on `incref %p; use %p; decref %p; ret`: the incref at index 0
is gone after one run of the per-block pruner. -/
theorem per_block_pair_removed_witness :
    mkIncref 1 7 ∉ instsOf (runPerBasicBlockPrune singleBlockPairFn zeroStats).1 0 :=
  (per_block_pair_removed singleBlockPairFn zeroStats 0 0 2 (by decide) (by decide)
    (by decide) (by decide) (by decide) (by decide) (by decide)).1

/-! ## Refops on NULL -/

theorem pruneBlock_no_null (bb : BasicBlock) (m : Bool) (n : Nat) (x : Instruction)
    (hx : x ∈ (pruneBlock bb m n).1.insts) (hr : isRefOp x = true) :
    isNonNullFirstArg x = true := by
  have h2 := (pairLoop_insts (increfList bb.insts).reverse ((decrefList bb.insts).map some)
    (eraseNullLoop (nullList bb.insts) bb.insts m n).1
    (eraseNullLoop (nullList bb.insts) bb.insts m n).2.1
    (eraseNullLoop (nullList bb.insts) bb.insts m n).2.2 (by
    intro x hx
    have := (List.mem_filter.1 (List.mem_reverse.1 hx)).2
    simp only [Bool.and_eq_true] at this
    exact this.1.1)).1
  have hx1 : x ∈ (eraseNullLoop (nullList bb.insts) bb.insts m n).1 := h2.subset hx
  have hx2 := ((eraseNullLoop_spec (nullList bb.insts) bb.insts m n).2.2 x).1 hx1
  cases hnn : isNonNullFirstArg x
  · exfalso
    apply hx2.2
    unfold nullList
    exact List.mem_filter.2 ⟨hx2.1, by simp [hr, hnn]⟩
  · rfl

theorem instsOf_pruneBlocks (F : List BasicBlock) :
    ∀ (m : Bool) (n b : Nat) (x : Instruction), x ∈ instsOf (pruneBlocks F m n).1 b →
      ∃ bb m0 n0, x ∈ (pruneBlock bb m0 n0).1.insts := by
  induction F with
  | nil => intro m n b x hx; simp [pruneBlocks, instsOf_nil] at hx
  | cons bb F ih =>
    intro m n b x hx
    simp only [pruneBlocks] at hx
    cases b with
    | zero =>
      rw [instsOf_cons_zero] at hx
      exact ⟨bb, m, n, hx⟩
    | succ b =>
      rw [instsOf_cons_succ] at hx
      exact ih _ _ b x hx

/-- No refop call of the function has the null pointer constant as operand 0. -/
theorem runPerBasicBlockPrune_no_null (F : Function) (st : Stats) (b : Nat) (x : Instruction)
    (hx : x ∈ instsOf (runPerBasicBlockPrune F st).1 b) (hr : isRefOp x = true) :
    isNonNullFirstArg x = true := by
  obtain ⟨bb, m0, n0, h⟩ := instsOf_pruneBlocks F false st.per_bb b x hx
  exact pruneBlock_no_null bb m0 n0 x h hr

theorem pruneIteration_no_null (DT PDT : InstRef → InstRef → Bool) (F : Function) (st : Stats)
    (b : Nat) (x : Instruction) (hx : x ∈ instsOf (pruneIteration DT PDT F st).1 b)
    (hr : isRefOp x = true) : isNonNullFirstArg x = true := by
  have hs : Shrinks (pruneIteration DT PDT F st).1 (runPerBasicBlockPrune F st).1 :=
    shrinks_trans (runFanoutPrune_shrinks _ _) (runDiamondPrune_shrinks DT PDT _ _)
  exact runPerBasicBlockPrune_no_null F st b x ((shrinks_instsOf_sublist hs b).subset hx) hr

theorem pruneLoop_no_null (DT PDT : InstRef → InstRef → Bool) (fuel : Nat) (F : Function)
    (st : Stats) (m : Bool) (b : Nat) (x : Instruction)
    (hx : x ∈ instsOf (pruneLoop DT PDT (fuel + 1) F st m).1 b) (hr : isRefOp x = true) :
    isNonNullFirstArg x = true := by
  simp only [pruneLoop] at hx
  split at hx
  · have hs := pruneLoop_shrinks DT PDT fuel (pruneIteration DT PDT F st).1
      (pruneIteration DT PDT F st).2.2 (m || (pruneIteration DT PDT F st).2.1)
    exact pruneIteration_no_null DT PDT F st b x ((shrinks_instsOf_sublist hs b).subset hx) hr
  · exact pruneIteration_no_null DT PDT F st b x hx hr

/-- Claim C5: after `RefPrunePass::runOnFunction` no block holds a refop call
whose operand 0 is the null pointer constant; in every block the loop over
`null_list` of the per-block pruner leaves no such call and adds exactly one
to `stats_per_bb` for each of them; and on `decref null; ret` the pass
deletes the call and the per-block counter grows by one. -/
theorem null_refops_eliminated (DT PDT : InstRef → InstRef → Bool) (F : Function)
    (st : Stats) :
    (∀ (b : Nat) (x : Instruction),
        x ∈ instsOf (RefPrunePass.runOnFunction DT PDT F st).1 b → isRefOp x = true →
          isNonNullFirstArg x = true) ∧
      (∀ (bb : BasicBlock) (m : Bool) (n : Nat),
        (eraseNullLoop (nullList bb.insts) bb.insts m n).2.2 = n + (nullList bb.insts).length ∧
          ∀ x ∈ (eraseNullLoop (nullList bb.insts) bb.insts m n).1, isRefOp x = true →
            isNonNullFirstArg x = true) ∧
      RefPrunePass.runOnFunction DT PDT nullRefopFn zeroStats
        = ([mkBlock [] 2 []], true, { zeroStats with per_bb := 1 }) := by
  refine ⟨?_, ?_, ?_⟩
  · intro b x hx hr
    exact pruneLoop_no_null DT PDT (numInsts F) F st false b x hx hr
  · intro bb m n
    have h := eraseNullLoop_spec (nullList bb.insts) bb.insts m n
    refine ⟨h.1, ?_⟩
    intro x hx hr
    have hx2 := (h.2.2 x).1 hx
    cases hnn : isNonNullFirstArg x
    · exfalso
      apply hx2.2
      unfold nullList
      exact List.mem_filter.2 ⟨hx2.1, by simp [hr, hnn]⟩
    · rfl
  · rfl

/-- Claim C5 on `incref %p; ret`: the refop call that is left after the pass
has a non-null operand 0. -/
theorem null_refops_eliminated_witness :
    mkIncref 1 7 ∈ instsOf (RefPrunePass.runOnFunction (domTreeOf loneIncrefFn)
        (postDomTreeOf loneIncrefFn) loneIncrefFn zeroStats).1 0 ∧
      isRefOp (mkIncref 1 7) = true ∧ isNonNullFirstArg (mkIncref 1 7) = true :=
  ⟨by decide, by decide,
   (null_refops_eliminated (domTreeOf loneIncrefFn) (postDomTreeOf loneIncrefFn)
      loneIncrefFn zeroStats).1 0 (mkIncref 1 7) (by decide) (by decide)⟩

/-! ## Normalization -/

theorem moveLoop_split (rest : List Instruction) :
    ∀ (A B : List Instruction) (m : Bool),
      (∀ x ∈ B, isDecrefOp x = true) →
      (∀ x ∈ A, isDecrefOp x = true → x ∈ rest) →
      (∀ x ∈ rest, isDecrefOp x = true) →
      ∃ A' B', (moveLoop rest (A ++ B) m).1 = A' ++ B' ∧
        (∀ x ∈ B', isDecrefOp x = true) ∧ (∀ x ∈ A', isDecrefOp x = false) := by
  induction rest with
  | nil =>
    intro A B m hB hA _
    refine ⟨A, B, rfl, hB, ?_⟩
    intro x hx
    cases h : isDecrefOp x
    · rfl
    · exact absurd (hA x hx h) (List.not_mem_nil x)
  | cons d rest ih =>
    intro A B m hB hA hrest
    have hd : isDecrefOp d = true := hrest d (List.mem_cons_self d rest)
    have key : moveLoop (d :: rest) (A ++ B) m
        = moveLoop rest (eraseInst A d ++ (eraseInst B d ++ [d])) true := by
      simp [moveLoop, moveBeforeTerminator, eraseInst_append]
    rw [key]
    apply ih
    · intro x hx
      rcases List.mem_append.1 hx with h | h
      · exact hB x ((mem_eraseInst B d x).1 h).1
      · have : x = d := by simpa using h
        rw [this]; exact hd
    · intro x hx hdx
      have hx' := (mem_eraseInst A d x).1 hx
      rcases List.mem_cons.1 (hA x hx'.1 hdx) with h | h
      · exact absurd h hx'.2
      · exact h
    · intro x hx
      exact hrest x (List.mem_cons_of_mem d hx)

theorem normalizeBlock_ordered (bb : BasicBlock) (m : Bool) (i j : Nat)
    (hi : i < (normalizeBlock bb m).1.insts.length)
    (hj : j < (normalizeBlock bb m).1.insts.length)
    (hinc : isIncrefOp ((normalizeBlock bb m).1.insts[i]) = true)
    (hdec : isDecrefOp ((normalizeBlock bb m).1.insts[j]) = true) : i < j := by
  by_cases hhas : bb.insts.any isIncrefOp = true
  · have hmove := moveLoop_split (bb.insts.filter isDecrefOp) bb.insts [] m
      (by simp) (by intro x hx hd; exact List.mem_filter.2 ⟨hx, hd⟩)
      (by intro x hx; exact (List.mem_filter.1 hx).2)
    obtain ⟨A, B, hAB, hB, hA⟩ := hmove
    have hins : (normalizeBlock bb m).1.insts = A ++ B := by
      simp only [normalizeBlock, hhas, if_true, List.append_nil] at hAB ⊢
      exact hAB
    rw [hins] at hi hj
    simp only [hins] at hinc hdec
    by_contra hlt
    have hji : j ≤ i := Nat.le_of_not_lt hlt
    by_cases hjA : j < A.length
    · rw [List.getElem_append_left hjA] at hdec
      have := hA _ (List.getElem_mem hjA)
      rw [this] at hdec
      exact Bool.noConfusion hdec
    · have hiA : A.length ≤ i := le_trans (Nat.le_of_not_lt hjA) hji
      rw [List.getElem_append_right hiA] at hinc
      have hb : i - A.length < B.length := by
        rw [List.length_append] at hi; omega
      have h1 : isDecrefOp (B[i - A.length]) = true := hB _ (List.getElem_mem hb)
      have h2 := isIncrefOp_not_isDecrefOp _ hinc
      rw [h1] at h2
      exact Bool.noConfusion h2
  · have hins : (normalizeBlock bb m).1.insts = bb.insts := by
      simp [normalizeBlock, hhas]
    simp only [hins] at hinc
    rw [hins] at hi
    exfalso
    apply hhas
    exact List.any_eq_true.2 ⟨_, List.getElem_mem hi, hinc⟩

theorem mem_normalizeBlocks (F : List BasicBlock) :
    ∀ (m : Bool) (bb : BasicBlock), bb ∈ (normalizeBlocks F m).1 →
      ∃ bb0 m0, bb0 ∈ F ∧ bb = (normalizeBlock bb0 m0).1 := by
  induction F with
  | nil => intro m bb h; simp [normalizeBlocks] at h
  | cons b rest ih =>
    intro m bb h
    simp only [normalizeBlocks, List.mem_cons] at h
    rcases h with h | h
    · exact ⟨b, m, List.mem_cons_self _ _, h⟩
    · obtain ⟨bb0, m0, h1, h2⟩ := ih _ bb h
      exact ⟨bb0, m0, List.mem_cons_of_mem _ h1, h2⟩

/-- Claim C6: after `RefNormalizePass::runOnFunction`, in every basic block
every incref stands at a strictly smaller index than every decref. -/
theorem normalize_increfs_before_decrefs (F : Function) (bb : BasicBlock)
    (hbb : bb ∈ (RefNormalizePass.runOnFunction F).1) (i j : Nat)
    (hi : i < bb.insts.length) (hj : j < bb.insts.length)
    (hinc : isIncrefOp (bb.insts[i]) = true) (hdec : isDecrefOp (bb.insts[j]) = true) :
    i < j := by
  obtain ⟨bb0, m0, _, h2⟩ := mem_normalizeBlocks F false bb hbb
  subst h2
  exact normalizeBlock_ordered bb0 m0 i j hi hj hinc hdec

/-- Claim C6 at `decref %p; incref %p; ret`: the block becomes
`incref %p; decref %p; ret`. -/
theorem normalize_increfs_before_decrefs_witness :
    (RefNormalizePass.runOnFunction unorderedFn).1
        = [mkBlock [mkIncref 2 7, mkDecref 1 7] 3 []] ∧ (0 : Nat) < 1 :=
  ⟨by decide,
   normalize_increfs_before_decrefs unorderedFn (mkBlock [mkIncref 2 7, mkDecref 1 7] 3 [])
     (by decide) 0 1 (by decide) (by decide) (by decide) (by decide)⟩

/-! ## The passes leave every other instruction in place -/

theorem moveLoop_keeps (rest : List Instruction) :
    ∀ (insts : List Instruction) (m : Bool), (∀ x ∈ rest, isRefOp x = true) →
      (moveLoop rest insts m).1.filter (fun ii => !isRefOp ii)
          = insts.filter (fun ii => !isRefOp ii) ∧
        ∀ x ∈ (moveLoop rest insts m).1, x ∈ insts ∨ x ∈ rest := by
  induction rest with
  | nil => intro insts m _; exact ⟨rfl, fun x hx => Or.inl hx⟩
  | cons d rest ih =>
    intro insts m h
    have hd : isRefOp d = true := h d (List.mem_cons_self _ _)
    simp only [moveLoop]
    have h1 := ih (moveBeforeTerminator insts d) true
      (fun x hx => h x (List.mem_cons_of_mem _ hx))
    constructor
    · rw [h1.1]
      unfold moveBeforeTerminator
      rw [List.filter_append, eraseInst_keeps_non_refops _ _ hd]
      simp [hd]
    · intro x hx
      rcases h1.2 x hx with h2 | h2
      · unfold moveBeforeTerminator at h2
        rcases List.mem_append.1 h2 with h3 | h3
        · exact Or.inl ((mem_eraseInst _ _ _).1 h3).1
        · right
          have : x = d := by simpa using h3
          rw [this]; exact List.mem_cons_self _ _
      · exact Or.inr (List.mem_cons_of_mem _ h2)

theorem normalizeBlock_keeps (bb : BasicBlock) (m : Bool) :
    nonRefopView (normalizeBlock bb m).1 = nonRefopView bb ∧
      ∀ x ∈ (normalizeBlock bb m).1.insts, x ∈ bb.insts := by
  by_cases hhas : bb.insts.any isIncrefOp = true
  · have h := moveLoop_keeps (bb.insts.filter isDecrefOp) bb.insts m
      (fun x hx => isDecrefOp_isRefOp x (List.mem_filter.1 hx).2)
    simp only [normalizeBlock, hhas, if_true, nonRefopView]
    refine ⟨by rw [h.1], ?_⟩
    intro x hx
    rcases h.2 x hx with h2 | h2
    · exact h2
    · exact (List.mem_filter.1 h2).1
  · simp [normalizeBlock, hhas]

theorem normalizeBlocks_keeps (F : List BasicBlock) :
    ∀ (m : Bool), (normalizeBlocks F m).1.map nonRefopView = F.map nonRefopView ∧
      ∀ b x, x ∈ instsOf (normalizeBlocks F m).1 b → x ∈ instsOf F b := by
  induction F with
  | nil => intro m; simp [normalizeBlocks]
  | cons bb F ih =>
    intro m
    simp only [normalizeBlocks, List.map_cons]
    have h1 := normalizeBlock_keeps bb m
    have h2 := ih (normalizeBlock bb m).2
    refine ⟨by rw [h1.1, h2.1], ?_⟩
    intro b x hx
    cases b with
    | zero =>
      rw [instsOf_cons_zero] at hx ⊢
      exact h1.2 x hx
    | succ b =>
      rw [instsOf_cons_succ] at hx ⊢
      exact h2.2 b x hx

/-- Claim C7: the normalize pass followed by the prune pass leaves, in every
block, the sequence of instructions that are not refop calls and the
terminator as they were, and every instruction of the result is an
instruction of the same block of the input: only refop calls are deleted,
nothing else is deleted, moved past another such instruction, or created. -/
theorem passes_keep_non_refops (DT PDT : InstRef → InstRef → Bool) (F : Function)
    (st : Stats) :
    (runRefPrunePasses DT PDT F st).1.map nonRefopView = F.map nonRefopView ∧
      ∀ (b : Nat) (x : Instruction),
        x ∈ instsOf (runRefPrunePasses DT PDT F st).1 b → x ∈ instsOf F b := by
  have hn := normalizeBlocks_keeps F false
  have hp := runOnFunction_shrinks DT PDT (RefNormalizePass.runOnFunction F).1 st
  refine ⟨?_, ?_⟩
  · unfold runRefPrunePasses
    rw [shrinks_view_eq hp]
    exact hn.1
  · intro b x hx
    exact hn.2 b x ((shrinks_instsOf_sublist hp b).subset hx)

/-- Claim C7 on `incref %p; use %p; decref %p; ret`: the call `use %p` is an
instruction of the result only because it is one of the input. -/
theorem passes_keep_non_refops_witness :
    mkUse 2 7 ∈ instsOf singleBlockPairFn 0 :=
  (passes_keep_non_refops (domTreeOf singleBlockPairFn) (postDomTreeOf singleBlockPairFn)
    singleBlockPairFn zeroStats).2 0 (mkUse 2 7) (by decide)

/-- Claim C8: on a function whose instructions have distinct addresses the
loop of `RefPrunePass::runOnFunction` ends with an iteration in which no
pruner reports a mutation, and running the pass again on its output, with
the counters it left, returns the same function, the same counters and
the flag false. -/
theorem driver_idempotent (DT PDT : InstRef → InstRef → Bool) (F : Function) (st : Stats)
    (hwf : WellFormed F) :
    pruneIteration DT PDT (RefPrunePass.runOnFunction DT PDT F st).1
        (RefPrunePass.runOnFunction DT PDT F st).2.2
      = ((RefPrunePass.runOnFunction DT PDT F st).1, false,
          (RefPrunePass.runOnFunction DT PDT F st).2.2) ∧
    RefPrunePass.runOnFunction DT PDT (RefPrunePass.runOnFunction DT PDT F st).1
        (RefPrunePass.runOnFunction DT PDT F st).2.2
      = ((RefPrunePass.runOnFunction DT PDT F st).1, false,
          (RefPrunePass.runOnFunction DT PDT F st).2.2) := by
  have h := pruneLoop_converges DT PDT (numInsts F + 1) F st false hwf (Nat.lt_succ_self _)
  refine ⟨h, ?_⟩
  have e : RefPrunePass.runOnFunction DT PDT (RefPrunePass.runOnFunction DT PDT F st).1
      (RefPrunePass.runOnFunction DT PDT F st).2.2
      = pruneLoop DT PDT (numInsts (RefPrunePass.runOnFunction DT PDT F st).1 + 1)
          (RefPrunePass.runOnFunction DT PDT F st).1
          (RefPrunePass.runOnFunction DT PDT F st).2.2 false := rfl
  rw [e, pruneLoop_succ]
  have h' : pruneIteration DT PDT (RefPrunePass.runOnFunction DT PDT F st).1
      (RefPrunePass.runOnFunction DT PDT F st).2.2
      = ((RefPrunePass.runOnFunction DT PDT F st).1, false,
          (RefPrunePass.runOnFunction DT PDT F st).2.2) := h
  rw [h']
  rfl

/-- Claim C8 on scenario 5: the second run of the pass on the pruned
function changes nothing. -/
theorem driver_idempotent_witness :
    WellFormed fanoutFn ∧
      RefPrunePass.runOnFunction (domTreeOf fanoutFn) (postDomTreeOf fanoutFn)
          (RefPrunePass.runOnFunction (domTreeOf fanoutFn) (postDomTreeOf fanoutFn)
            fanoutFn zeroStats).1
          (RefPrunePass.runOnFunction (domTreeOf fanoutFn) (postDomTreeOf fanoutFn)
            fanoutFn zeroStats).2.2
        = ((RefPrunePass.runOnFunction (domTreeOf fanoutFn) (postDomTreeOf fanoutFn)
              fanoutFn zeroStats).1, false,
            (RefPrunePass.runOnFunction (domTreeOf fanoutFn) (postDomTreeOf fanoutFn)
              fanoutFn zeroStats).2.2) :=
  ⟨by decide,
   (driver_idempotent (domTreeOf fanoutFn) (postDomTreeOf fanoutFn) fanoutFn zeroStats
      (by decide)).2⟩

/-- Claim C9: on a function whose instructions have distinct addresses, one
run of the per-block, diamond or fanout pruner adds to its own counter
exactly the number of instructions it erased and leaves the other three
counters alone; one run of `RefPrunePass::runOnFunction` decreases none of
the four counters, leaves `stats_fanout_raise` alone, and the three
increases add up to the number of instructions erased from the function. -/
theorem stats_accounting (DT PDT : InstRef → InstRef → Bool) (F : Function) (st : Stats)
    (hwf : WellFormed F) :
    ((runPerBasicBlockPrune F st).2.2.per_bb
        = st.per_bb + (numInsts F - numInsts (runPerBasicBlockPrune F st).1) ∧
      (runPerBasicBlockPrune F st).2.2.diamond = st.diamond ∧
      (runPerBasicBlockPrune F st).2.2.fanout = st.fanout ∧
      (runPerBasicBlockPrune F st).2.2.fanout_raise = st.fanout_raise) ∧
    ((runDiamondPrune DT PDT F st).2.2.diamond
        = st.diamond + (numInsts F - numInsts (runDiamondPrune DT PDT F st).1) ∧
      (runDiamondPrune DT PDT F st).2.2.per_bb = st.per_bb ∧
      (runDiamondPrune DT PDT F st).2.2.fanout = st.fanout ∧
      (runDiamondPrune DT PDT F st).2.2.fanout_raise = st.fanout_raise) ∧
    ((runFanoutPrune F st).2.2.fanout
        = st.fanout + (numInsts F - numInsts (runFanoutPrune F st).1) ∧
      (runFanoutPrune F st).2.2.per_bb = st.per_bb ∧
      (runFanoutPrune F st).2.2.diamond = st.diamond ∧
      (runFanoutPrune F st).2.2.fanout_raise = st.fanout_raise) ∧
    (st.per_bb ≤ (RefPrunePass.runOnFunction DT PDT F st).2.2.per_bb ∧
      st.diamond ≤ (RefPrunePass.runOnFunction DT PDT F st).2.2.diamond ∧
      st.fanout ≤ (RefPrunePass.runOnFunction DT PDT F st).2.2.fanout ∧
      (RefPrunePass.runOnFunction DT PDT F st).2.2.fanout_raise = st.fanout_raise ∧
      ((RefPrunePass.runOnFunction DT PDT F st).2.2.per_bb - st.per_bb)
          + ((RefPrunePass.runOnFunction DT PDT F st).2.2.diamond - st.diamond)
          + ((RefPrunePass.runOnFunction DT PDT F st).2.2.fanout - st.fanout)
        = numInsts F - numInsts (RefPrunePass.runOnFunction DT PDT F st).1) := by
  obtain ⟨a1, a2, a3, a4, _⟩ := runPerBasicBlockPrune_count F st hwf
  obtain ⟨b1, b2, b3, b4, _⟩ := runDiamondPrune_count DT PDT F st hwf
  obtain ⟨c1, c2, c3, c4, _⟩ := runFanoutPrune_count F st hwf
  have al := shrinks_numInsts_le (runPerBasicBlockPrune_shrinks F st)
  have bl := shrinks_numInsts_le (runDiamondPrune_shrinks DT PDT F st)
  have cl := shrinks_numInsts_le (runFanoutPrune_shrinks F st)
  obtain ⟨_, d2, d3, d4, d5, d6⟩ := pruneLoop_count DT PDT (numInsts F + 1) F st false hwf
  have dl := shrinks_numInsts_le (runOnFunction_shrinks DT PDT F st)
  refine ⟨⟨by omega, a2, a3, a4⟩, ⟨by omega, b2, b3, b4⟩, ⟨by omega, c2, c3, c4⟩,
    d3, d4, d5, d6, ?_⟩
  have d2' : (RefPrunePass.runOnFunction DT PDT F st).2.2.per_bb
      + (RefPrunePass.runOnFunction DT PDT F st).2.2.diamond
      + (RefPrunePass.runOnFunction DT PDT F st).2.2.fanout
      + numInsts (RefPrunePass.runOnFunction DT PDT F st).1
      = st.per_bb + st.diamond + st.fanout + numInsts F := d2
  have d3' : st.per_bb ≤ (RefPrunePass.runOnFunction DT PDT F st).2.2.per_bb := d3
  have d4' : st.diamond ≤ (RefPrunePass.runOnFunction DT PDT F st).2.2.diamond := d4
  have d5' : st.fanout ≤ (RefPrunePass.runOnFunction DT PDT F st).2.2.fanout := d5
  omega

/-- Claim C9 on scenario 5: the fanout counter grows by the three
instructions erased. -/
theorem stats_accounting_witness :
    WellFormed fanoutFn ∧
      (RefPrunePass.runOnFunction (domTreeOf fanoutFn) (postDomTreeOf fanoutFn) fanoutFn
          zeroStats).2.2.fanout = 3 ∧
      ((RefPrunePass.runOnFunction (domTreeOf fanoutFn) (postDomTreeOf fanoutFn) fanoutFn
            zeroStats).2.2.per_bb - zeroStats.per_bb)
          + ((RefPrunePass.runOnFunction (domTreeOf fanoutFn) (postDomTreeOf fanoutFn) fanoutFn
            zeroStats).2.2.diamond - zeroStats.diamond)
          + ((RefPrunePass.runOnFunction (domTreeOf fanoutFn) (postDomTreeOf fanoutFn) fanoutFn
            zeroStats).2.2.fanout - zeroStats.fanout)
        = numInsts fanoutFn - numInsts (RefPrunePass.runOnFunction (domTreeOf fanoutFn)
            (postDomTreeOf fanoutFn) fanoutFn zeroStats).1 :=
  ⟨by decide, by decide,
   (stats_accounting (domTreeOf fanoutFn) (postDomTreeOf fanoutFn) fanoutFn zeroStats
      (by decide)).2.2.2.2.2.2.2⟩

/-- Claim C10 at the failing input `H -> A, A -> A` with `incref %p` in `H`
and no decref anywhere: the only branch of the walk re-enters the path stack
at `A` and is answered true without a tail, `findFanout` answers true with
an empty `decref_blocks`, and the fanout pruner erases the incref alone and
counts it. -/
theorem fanout_erases_incref_without_tail :
    hasAnyDecrefInNode (instsOf selfLoopFn 0) = false ∧
      collectDecrefs selfLoopFn = [] ∧
      findFanout selfLoopFn (0, mkIncref 1 7) = (true, []) ∧
      runFanoutPrune selfLoopFn zeroStats
        = ([mkBlock [] 10 [1], mkBlock [] 11 [1]], true, { zeroStats with fanout := 1 }) ∧
      ¬ (∀ T, findFanout selfLoopFn (0, mkIncref 1 7) = (true, T) → T ≠ []) := by
  refine ⟨by decide, by decide, by decide, by decide, ?_⟩
  intro h
  exact h [] (by decide) rfl

/-- What a successful fanout check establishes: when the body of the incref
loop of `runFanoutPrune` erases an incref `I` of head block `H` with tail
blocks `T`, the head has a successor; every successor of `H` and,
recursively, every successor of a block the walk pushed on the path stack is
not `H` and is a block of `T` or a pushed block, and every pushed block has
a successor; every block of `T` holds a decref related to `I`, `T` has no
duplicates, and one decref is erased and counted for each block of `T`
together with `I`. -/
theorem fanout_branches_reach_tail_or_stack (F : Function) (incref : InstRef)
    (T : List Nat) (m : Bool) (n : Nat)
    (hgate : hasAnyDecrefInNode (instsOf F incref.1) = false)
    (h : findFanout F incref = (true, T)) :
    succs F incref.1 ≠ [] ∧
      (∃ E, Covered F incref.1 T E [] ∧
        ∀ c ∈ succs F incref.1, c ≠ incref.1 ∧ (c ∈ T ∨ c ∈ E)) ∧
      (∀ t ∈ T, hasDecrefInNode incref.2 (instsOf F t) = true) ∧
      T.Nodup ∧
      fanoutStep incref F m n
        = (eraseFromParent (eraseTails incref.2 T F n).1 incref, true, n + T.length + 1) := by
  obtain ⟨h1, h2, _⟩ := findFanout_true F incref T h
  obtain ⟨hne, E, hcov, hsucc, hdec⟩ :=
    findFanoutDecrefCandidates_sound F incref.2 incref.1 h1
  have hnd := findFanoutDecrefCandidates_nodup F incref.2 incref.1
  rw [h2] at hcov hsucc hdec hnd
  refine ⟨hne, ⟨E, hcov, hsucc⟩, hdec, hnd, ?_⟩
  rw [fanoutStep_of_findFanout F incref T m n hgate h,
    eraseTails_exact incref.2 T F n hnd hdec]

/-- On scenario 5 the incref of `H` goes together with one decref of `A` and
one of `B`. -/
theorem fanout_branches_reach_tail_or_stack_witness :
    fanoutStep (0, mkIncref 1 7) fanoutFn false 0
      = (eraseFromParent (eraseTails (mkIncref 1 7) [1, 2] fanoutFn 0).1 (0, mkIncref 1 7),
          true, 0 + ([1, 2] : List Nat).length + 1) :=
  (fanout_branches_reach_tail_or_stack fanoutFn (0, mkIncref 1 7) [1, 2] false 0
    (by decide) (by decide)).2.2.2.2

/-! ## Erasing one instruction of a block with distinct addresses -/

theorem eraseInst_split (A B : List Instruction) (d : Instruction)
    (h : (A ++ d :: B).Nodup) : eraseInst (A ++ d :: B) d = A ++ B := by
  have hA : d ∉ A := by
    intro hd
    have := (List.nodup_append.1 h).2.2
    exact this hd (List.mem_cons_self _ _)
  have hB : d ∉ B := (List.nodup_cons.1 (List.nodup_append.1 h).2.1).1
  rw [eraseInst_append, eraseInst_of_not_mem A d hA]
  congr 1
  unfold eraseInst
  rw [List.filter_cons]
  simp only [bne_self_eq_false, Bool.false_eq_true, if_false]
  exact eraseInst_of_not_mem B d hB

/-! ## What the tail loop of the fanout pruner does to each block -/

theorem instsOf_eraseFirstRelated (incref : Instruction) (F : Function) (each n b : Nat) :
    (b ≠ each → instsOf (eraseFirstRelated incref F each n).1 b = instsOf F b) ∧
      (∀ d, (instsOf F each).find? (isRelatedDecref incref) = some d →
        instsOf (eraseFirstRelated incref F each n).1 each = eraseInst (instsOf F each) d) := by
  unfold eraseFirstRelated
  cases h : (instsOf F each).find? (isRelatedDecref incref) with
  | none => exact ⟨fun _ => rfl, fun d hd => Option.noConfusion hd⟩
  | some d0 =>
    dsimp only
    constructor
    · intro hb
      rw [instsOf_eraseFromParent, if_neg hb]
    · intro d hd
      have : d0 = d := Option.some.inj hd
      subst this
      rw [instsOf_eraseFromParent, if_pos rfl]

theorem instsOf_eraseTails (incref : Instruction) (T : List Nat) :
    ∀ (F : Function) (n : Nat), T.Nodup → ∀ b : Nat,
      (b ∉ T → instsOf (eraseTails incref T F n).1 b = instsOf F b) ∧
        (b ∈ T → ∀ d, (instsOf F b).find? (isRelatedDecref incref) = some d →
          instsOf (eraseTails incref T F n).1 b = eraseInst (instsOf F b) d) := by
  induction T with
  | nil =>
    intro F n _ b
    exact ⟨fun _ => rfl, fun hb => absurd hb (List.not_mem_nil b)⟩
  | cons t T ih =>
    intro F n hnd b
    rw [List.nodup_cons] at hnd
    simp only [eraseTails]
    have h1 := instsOf_eraseFirstRelated incref F t n b
    have h2 := ih (eraseFirstRelated incref F t n).1 (eraseFirstRelated incref F t n).2 hnd.2 b
    constructor
    · intro hb
      have hbt : b ≠ t := fun e => hb (e ▸ List.mem_cons_self _ _)
      have hbT : b ∉ T := fun e => hb (List.mem_cons_of_mem _ e)
      rw [h2.1 hbT, h1.1 hbt]
    · intro hb d hd
      by_cases hbt : b = t
      · subst hbt
        rw [h2.1 hnd.1]
        exact h1.2 d hd
      · have hbT : b ∈ T := by
          rcases List.mem_cons.1 hb with e | e
          · exact absurd e hbt
          · exact e
        have e1 := h1.1 hbt
        rw [h2.2 hbT d (by rw [e1]; exact hd), e1]

/-! ## The recorded path stacks of the forward walk -/

theorem walkSuccessorsTrace_cons
    (walk : Nat → List Nat → (Bool × List Nat) × List (List Nat)) (child : Nat)
    (rest T : List Nat) (found : Bool) :
    walkSuccessorsTrace walk (child :: rest) T found
      = if !(walk child T).1.1 then ((false, (walk child T).1.2), (walk child T).2)
        else ((walkSuccessorsTrace walk rest (walk child T).1.2 true).1,
          (walk child T).2 ++ (walkSuccessorsTrace walk rest (walk child T).1.2 true).2) := by
  rfl

theorem walkSuccessors_cons (walk : Nat → List Nat → Bool × List Nat) (child : Nat)
    (rest T : List Nat) (found : Bool) :
    walkSuccessors walk (child :: rest) T found
      = if !(walk child T).1 then (false, (walk child T).2)
        else walkSuccessors walk rest (walk child T).2 true := by
  rfl

theorem walkChildForDecrefTrace_succ (F : Function) (incref : Instruction)
    (fuel cur_node : Nat) (path_stack decref_blocks : List Nat) :
    walkChildForDecrefTrace F incref (fuel + 1) cur_node path_stack decref_blocks
      = if path_stack.length ≥ 15 then ((false, decref_blocks), [path_stack])
        else if basicBlockInList cur_node path_stack then
          if path_stack.head? == some cur_node then ((false, decref_blocks), [path_stack])
          else ((true, decref_blocks), [path_stack])
        else if hasDecrefInNode incref (instsOf F cur_node) then
          ((true, setInsert decref_blocks cur_node), [path_stack])
        else
          ((walkSuccessorsTrace
              (fun child blocks =>
                walkChildForDecrefTrace F incref fuel child (path_stack ++ [cur_node]) blocks)
              (succs F cur_node) decref_blocks false).1,
            path_stack :: (path_stack ++ [cur_node]) ::
              (walkSuccessorsTrace
                (fun child blocks =>
                  walkChildForDecrefTrace F incref fuel child (path_stack ++ [cur_node]) blocks)
                (succs F cur_node) decref_blocks false).2) := by
  rfl

theorem walkSuccessorsTrace_fst
    (walkT : Nat → List Nat → (Bool × List Nat) × List (List Nat))
    (walk : Nat → List Nat → Bool × List Nat)
    (hw : ∀ c T, (walkT c T).1 = walk c T) (children : List Nat) :
    ∀ (T : List Nat) (found : Bool),
      (walkSuccessorsTrace walkT children T found).1 = walkSuccessors walk children T found := by
  induction children with
  | nil => intro T found; rfl
  | cons c rest ih =>
    intro T found
    rw [walkSuccessorsTrace_cons, walkSuccessors_cons, ← hw c T]
    by_cases h : (!(walkT c T).1.1) = true
    · rw [if_pos h, if_pos h]
    · rw [if_neg h, if_neg h]
      exact ih _ true

theorem walkChildForDecrefTrace_fst (F : Function) (incref : Instruction) (fuel : Nat) :
    ∀ (cur : Nat) (ps T : List Nat),
      (walkChildForDecrefTrace F incref fuel cur ps T).1
        = walkChildForDecref F incref fuel cur ps T := by
  induction fuel with
  | zero => intro cur ps T; rfl
  | succ fuel ih =>
    intro cur ps T
    rw [walkChildForDecrefTrace_succ, walkChildForDecref_succ]
    by_cases h1 : ps.length ≥ 15
    · rw [if_pos h1, if_pos h1]
    · rw [if_neg h1, if_neg h1]
      by_cases h2 : basicBlockInList cur ps = true
      · rw [if_pos h2, if_pos h2]
        by_cases h3 : (ps.head? == some cur) = true
        · rw [if_pos h3, if_pos h3]
        · rw [if_neg h3, if_neg h3]
      · rw [if_neg h2, if_neg h2]
        by_cases h4 : hasDecrefInNode incref (instsOf F cur) = true
        · rw [if_pos h4, if_pos h4]
        · rw [if_neg h4, if_neg h4]
          exact walkSuccessorsTrace_fst _ _ (fun c T1 => ih c (ps ++ [cur]) T1) _ _ _

theorem findFanoutDecrefCandidatesTrace_fst (F : Function) (incref : Instruction) (H : Nat)
    (T : List Nat) :
    (findFanoutDecrefCandidatesTrace F incref H T).1 = findFanoutDecrefCandidates F incref H T :=
  walkSuccessorsTrace_fst _ _ (fun c T1 => walkChildForDecrefTrace_fst F incref 15 c [H] T1) _ _ _

/-- Every recorded stack of the successor loop obeys a bound that every
call obeys. -/
theorem walkSuccessorsTrace_all (P : List Nat → Prop)
    (walkT : Nat → List Nat → (Bool × List Nat) × List (List Nat))
    (hw : ∀ c T, ∀ s ∈ (walkT c T).2, P s) (children : List Nat) :
    ∀ (T : List Nat) (found : Bool), ∀ s ∈ (walkSuccessorsTrace walkT children T found).2, P s := by
  induction children with
  | nil => intro T found s hs; exact absurd hs (List.not_mem_nil s)
  | cons c rest ih =>
    intro T found s hs
    rw [walkSuccessorsTrace_cons] at hs
    by_cases h : (!(walkT c T).1.1) = true
    · rw [if_pos h] at hs
      exact hw c T s hs
    · rw [if_neg h] at hs
      rcases List.mem_append.1 hs with h1 | h1
      · exact hw c T s h1
      · exact ih _ true s h1

theorem walkChildForDecrefTrace_le (F : Function) (incref : Instruction) (fuel : Nat) :
    ∀ (cur : Nat) (ps T : List Nat), ps.length ≤ 15 →
      ∀ s ∈ (walkChildForDecrefTrace F incref fuel cur ps T).2, s.length ≤ 15 := by
  induction fuel with
  | zero =>
    intro cur ps T hps s hs
    have : s = ps := by simpa [walkChildForDecrefTrace] using hs
    rw [this]; exact hps
  | succ fuel ih =>
    intro cur ps T hps s hs
    rw [walkChildForDecrefTrace_succ] at hs
    have hone : s ∈ [ps] → s.length ≤ 15 := by
      intro h
      have : s = ps := by simpa using h
      rw [this]; exact hps
    by_cases h1 : ps.length ≥ 15
    · rw [if_pos h1] at hs; exact hone hs
    · rw [if_neg h1] at hs
      by_cases h2 : basicBlockInList cur ps = true
      · rw [if_pos h2] at hs
        by_cases h3 : (ps.head? == some cur) = true
        · rw [if_pos h3] at hs; exact hone hs
        · rw [if_neg h3] at hs; exact hone hs
      · rw [if_neg h2] at hs
        by_cases h4 : hasDecrefInNode incref (instsOf F cur) = true
        · rw [if_pos h4] at hs; exact hone hs
        · rw [if_neg h4] at hs
          have hlen : (ps ++ [cur]).length ≤ 15 := by
            rw [List.length_append, List.length_singleton]; omega
          rcases List.mem_cons.1 hs with e | hs2
          · rw [e]; exact hps
          · rcases List.mem_cons.1 hs2 with e | hs3
            · rw [e]; exact hlen
            · exact walkSuccessorsTrace_all (fun s => s.length ≤ 15) _
                (fun c T1 => ih c (ps ++ [cur]) T1 hlen) _ _ _ s hs3

/-- A recorded stack that breaks a bound makes the successor loop answer
false when it makes every call do so. -/
theorem walkSuccessorsTrace_abandon (P : List Nat → Prop)
    (walkT : Nat → List Nat → (Bool × List Nat) × List (List Nat))
    (hw : ∀ c T, (∃ s ∈ (walkT c T).2, P s) → (walkT c T).1.1 = false)
    (children : List Nat) :
    ∀ (T : List Nat) (found : Bool),
      (∃ s ∈ (walkSuccessorsTrace walkT children T found).2, P s) →
        (walkSuccessorsTrace walkT children T found).1.1 = false := by
  induction children with
  | nil =>
    intro T found h
    obtain ⟨s, hs, _⟩ := h
    exact absurd hs (List.not_mem_nil s)
  | cons c rest ih =>
    intro T found h
    obtain ⟨s, hs, hP⟩ := h
    rw [walkSuccessorsTrace_cons] at hs ⊢
    by_cases hc : (!(walkT c T).1.1) = true
    · rw [if_pos hc]
    · rw [if_neg hc] at hs ⊢
      rcases List.mem_append.1 hs with h1 | h1
      · have := hw c T ⟨s, h1, hP⟩
        rw [this] at hc
        exact absurd rfl hc
      · exact ih _ true ⟨s, h1, hP⟩

theorem walkChildForDecref_full (F : Function) (incref : Instruction) (fuel cur : Nat)
    (ps T : List Nat) (h : 15 ≤ ps.length) :
    walkChildForDecref F incref fuel cur ps T = (false, T) := by
  cases fuel with
  | zero => rfl
  | succ fuel => rw [walkChildForDecref_succ, if_pos h]

theorem walkSuccessorsTrace_of_false
    (walkT : Nat → List Nat → (Bool × List Nat) × List (List Nat))
    (hw : ∀ c T, (walkT c T).1.1 = false) (children T : List Nat) :
    (walkSuccessorsTrace walkT children T false).1.1 = false := by
  cases children with
  | nil => rfl
  | cons c rest =>
    rw [walkSuccessorsTrace_cons, hw c T]
    rfl

theorem walkChildForDecrefTrace_abandon (F : Function) (incref : Instruction) (fuel : Nat) :
    ∀ (cur : Nat) (ps T : List Nat),
      (∃ s ∈ (walkChildForDecrefTrace F incref fuel cur ps T).2, 15 ≤ s.length) →
        (walkChildForDecrefTrace F incref fuel cur ps T).1.1 = false := by
  induction fuel with
  | zero => intro cur ps T _; rfl
  | succ fuel ih =>
    intro cur ps T h
    obtain ⟨s, hs, hlen⟩ := h
    rw [walkChildForDecrefTrace_succ] at hs ⊢
    by_cases h1 : ps.length ≥ 15
    · rw [if_pos h1]
    · rw [if_neg h1] at hs ⊢
      have hone : s ∈ [ps] → False := by
        intro h
        have : s = ps := by simpa using h
        rw [this] at hlen
        exact h1 hlen
      by_cases h2 : basicBlockInList cur ps = true
      · rw [if_pos h2] at hs
        by_cases h3 : (ps.head? == some cur) = true
        · rw [if_pos h3] at hs; exact absurd hs hone
        · rw [if_neg h3] at hs; exact absurd hs hone
      · rw [if_neg h2] at hs ⊢
        by_cases h4 : hasDecrefInNode incref (instsOf F cur) = true
        · rw [if_pos h4] at hs; exact absurd hs hone
        · rw [if_neg h4] at hs ⊢
          dsimp only
          rcases List.mem_cons.1 hs with e | hs2
          · exact absurd (List.mem_singleton.2 e) hone
          · rcases List.mem_cons.1 hs2 with e | hs3
            · apply walkSuccessorsTrace_of_false
              intro c T1
              rw [walkChildForDecrefTrace_fst]
              rw [walkChildForDecref_full F incref fuel c (ps ++ [cur]) T1 (e ▸ hlen)]
            · exact walkSuccessorsTrace_abandon (fun s => 15 ≤ s.length) _
                (fun c T1 => ih c (ps ++ [cur]) T1) _ _ _ ⟨s, hs3, hlen⟩

/-! ## The pairing loop, pointer by pointer -/

theorem isRelatedDecref_onP (incref d : Instruction) :
    isRelatedDecref incref d = (isDecrefOp d && (d.arg0 == incref.arg0)) := by
  rw [isRelatedDecref_eq, isDecrefOp_eq]
  cases h : incref.arg0 == d.arg0
  · have : (d.arg0 == incref.arg0) = false := by
      simp only [beq_eq_false_iff_ne, ne_eq] at h ⊢
      exact fun e => h e.symm
    rw [this]
  · have : (d.arg0 == incref.arg0) = true := by
      simp only [beq_iff_eq] at h ⊢
      exact h.symm
    rw [this]

/-- The instructions on pointer `p` that the pairing loop leaves: those of
the block apart from the first `k` increfs on `p` in pop order and the
first `k` live decrefs on `p`, `k` being the smaller of the two counts. -/
theorem pairLoop_mem_on (p : Value) (incs : List Instruction) :
    ∀ (slots : List (Option Instruction)) (insts : List Instruction) (m : Bool) (n : Nat)
      (x : Instruction), x.arg0 = p →
      (x ∈ (pairLoop incs slots insts m n).1 ↔
        x ∈ insts ∧
          x ∉ (incs.filter (fun i => i.arg0 == p)).take
            (min (incs.filter (fun i => i.arg0 == p)).length
              (slots.reduceOption.filter (fun d => isDecrefOp d && (d.arg0 == p))).length) ∧
          x ∉ (slots.reduceOption.filter (fun d => isDecrefOp d && (d.arg0 == p))).take
            (min (incs.filter (fun i => i.arg0 == p)).length
              (slots.reduceOption.filter (fun d => isDecrefOp d && (d.arg0 == p))).length)) := by
  induction incs with
  | nil => intro slots insts m n x _; simp [pairLoop]
  | cons inc rest ih =>
    intro slots insts m n x hx
    by_cases hp : inc.arg0 = p
    · have hfc : (inc :: rest).filter (fun i => i.arg0 == p)
          = inc :: rest.filter (fun i => i.arg0 == p) := by
        rw [List.filter_cons, if_pos (by simpa using hp)]
      rw [hfc]
      cases ht : takeRelatedSlot inc slots with
      | none =>
        have hn := takeRelatedSlot_none inc slots ht
        have hD : slots.reduceOption.filter (fun d => isDecrefOp d && (d.arg0 == p)) = [] := by
          rw [List.filter_eq_nil_iff]
          intro e he
          have := hn e he
          rw [isRelatedDecref_onP, hp] at this
          simp [this]
        simp only [pairLoop, ht]
        rw [ih slots insts m n x hx, hD]
        simp
      | some r =>
        obtain ⟨d, slots'⟩ := r
        obtain ⟨A, B, h1, h2, h3, h4⟩ := takeRelatedSlot_some inc slots d slots' ht
        have hA : A.filter (fun d => isDecrefOp d && (d.arg0 == p)) = [] := by
          rw [List.filter_eq_nil_iff]
          intro e he
          have := h3 e he
          rw [isRelatedDecref_onP, hp] at this
          simp [this]
        have hd : (isDecrefOp d && (d.arg0 == p)) = true := by
          rw [isRelatedDecref_onP, hp] at h4
          exact h4
        simp only [pairLoop, ht]
        rw [ih slots' _ true (n + 2) x hx, h1, h2, List.filter_append, List.filter_append,
          List.filter_cons, if_pos hd, hA, List.nil_append, List.nil_append, List.length_cons,
          List.length_cons, Nat.succ_min_succ, List.take_succ_cons, List.take_succ_cons,
          mem_eraseInst, mem_eraseInst]
        simp only [List.mem_cons, not_or]
        tauto
    · have hfc : (inc :: rest).filter (fun i => i.arg0 == p)
          = rest.filter (fun i => i.arg0 == p) := by
        rw [List.filter_cons, if_neg (by simpa using hp)]
      rw [hfc]
      cases ht : takeRelatedSlot inc slots with
      | none =>
        simp only [pairLoop, ht]
        exact ih slots insts m n x hx
      | some r =>
        obtain ⟨d, slots'⟩ := r
        obtain ⟨A, B, h1, h2, _, h4⟩ := takeRelatedSlot_some inc slots d slots' ht
        have hdarg : d.arg0 ≠ p := by
          have := isRelatedDecref_arg inc d h4
          intro e
          apply hp
          rw [← e]
          exact this
        have hd : ¬ (isDecrefOp d && (d.arg0 == p)) = true := by
          simp [hdarg]
        have hxi : x ≠ inc := fun e => hp (e ▸ hx)
        have hxd : x ≠ d := fun e => hdarg (e ▸ hx)
        simp only [pairLoop, ht]
        rw [ih slots' _ true (n + 2) x hx, h1, h2, List.filter_append, List.filter_append,
          List.filter_cons, if_neg hd, mem_eraseInst, mem_eraseInst]
        simp only [ne_eq, hxi, hxd, not_false_eq_true, and_true]

/-! ## Sublists of a list without repetition -/

theorem sublist_eq_filter {α : Type} [DecidableEq α] (q : α → Bool) :
    ∀ (S L : List α), S.Sublist L → L.Nodup → (∀ x, x ∈ S ↔ x ∈ L ∧ q x = true) →
      S = L.filter q := by
  intro S L hs
  induction hs with
  | slnil => intro _ _; rfl
  | cons a hsub ih =>
    rename_i S0 L0
    intro hnd hmem
    rw [List.nodup_cons] at hnd
    have haS : a ∉ S0 := fun h => hnd.1 (hsub.subset h)
    have hqa : ¬ q a = true := fun h => haS ((hmem a).2 ⟨List.mem_cons_self _ _, h⟩)
    rw [List.filter_cons, if_neg hqa]
    apply ih hnd.2
    intro x
    constructor
    · intro hx
      exact ⟨hsub.subset hx, ((hmem x).1 hx).2⟩
    · intro hx
      exact (hmem x).2 ⟨List.mem_cons_of_mem _ hx.1, hx.2⟩
  | cons₂ a hsub ih =>
    rename_i S0 L0
    intro hnd hmem
    rw [List.nodup_cons] at hnd
    have hqa : q a = true := ((hmem a).1 (List.mem_cons_self _ _)).2
    rw [List.filter_cons, if_pos hqa]
    congr 1
    apply ih hnd.2
    intro x
    constructor
    · intro hx
      exact ⟨hsub.subset hx, ((hmem x).1 (List.mem_cons_of_mem _ hx)).2⟩
    · intro hx
      rcases List.mem_cons.1 ((hmem x).2 ⟨List.mem_cons_of_mem _ hx.1, hx.2⟩) with e | e
      · exact absurd (e ▸ hx.1) hnd.1
      · exact e

theorem filter_not_mem_drop {α : Type} [DecidableEq α] (L : List α) (j : Nat) (h : L.Nodup) :
    L.filter (fun x => decide (x ∉ L.drop j)) = L.take j := by
  symm
  apply sublist_eq_filter _ _ _ (List.take_sublist j L) h
  intro x
  have hd : List.Disjoint (L.take j) (L.drop j) := by
    have h2 : (L.take j ++ L.drop j).Nodup := by rw [List.take_append_drop]; exact h
    exact (List.nodup_append.1 h2).2.2
  constructor
  · intro hx
    exact ⟨(List.take_sublist j L).subset hx, by simpa using fun h2 => hd hx h2⟩
  · intro hx
    have h1 : x ∈ L.take j ++ L.drop j := by rw [List.take_append_drop]; exact hx.1
    rcases List.mem_append.1 h1 with e | e
    · exact e
    · have := hx.2
      simp only [decide_eq_true_eq] at this
      exact absurd e this

theorem filter_not_mem_take {α : Type} [DecidableEq α] (L : List α) (k : Nat) (h : L.Nodup) :
    L.filter (fun x => decide (x ∉ L.take k)) = L.drop k := by
  symm
  apply sublist_eq_filter _ _ _ (List.drop_sublist k L) h
  intro x
  have hd : List.Disjoint (L.take k) (L.drop k) := by
    have h2 : (L.take k ++ L.drop k).Nodup := by rw [List.take_append_drop]; exact h
    exact (List.nodup_append.1 h2).2.2
  constructor
  · intro hx
    exact ⟨(List.drop_sublist k L).subset hx, by simpa using fun h2 => hd h2 hx⟩
  · intro hx
    have h1 : x ∈ L.take k ++ L.drop k := by rw [List.take_append_drop]; exact hx.1
    rcases List.mem_append.1 h1 with e | e
    · have := hx.2
      simp only [decide_eq_true_eq] at this
      exact absurd e this
    · exact e

/-! ## The interference walk finds only decrefs that can be reached -/

theorem reachAvoid_prepend (F : Function) (tail_node h c x : Nat) (hc : c ∈ succs F h)
    (hne : c ≠ tail_node) (hx : ReachAvoid F tail_node c x) : ReachAvoid F tail_node h x := by
  induction hx with
  | refl => exact ReachAvoid.step (ReachAvoid.refl h) hc hne
  | step _ hs hn ih => exact ReachAvoid.step ih hs hn

theorem betweenLoop_complete (F : Function) (tail_node : Nat)
    (walk : Nat → List Nat → Bool × List Nat) (bound : Nat) (P : Nat → Prop)
    (hext : ∀ c s, s.Nodup → (walk c s).2.Nodup ∧ ∃ ext, (walk c s).2 = s ++ ext)
    (hwalk : ∀ c s, s.Nodup →
      bound ≤ (s.filter (fun x => decide (x < F.length))).length →
      (walk c s).1 = true → P c)
    (children : List Nat) :
    ∀ (stack : List Nat), stack.Nodup →
      bound ≤ (stack.filter (fun x => decide (x < F.length))).length →
      (betweenLoop walk tail_node children stack).1 = true →
      ∃ c ∈ children, c ≠ tail_node ∧ P c := by
  induction children with
  | nil => intro stack _ _ h; exact Bool.noConfusion h
  | cons child rest ih =>
    intro stack hnd hb h
    rw [betweenLoop_cons] at h
    by_cases h1 : (child == tail_node) = true
    · rw [if_pos h1] at h
      obtain ⟨c, hc, r⟩ := ih stack hnd hb h
      exact ⟨c, List.mem_cons_of_mem _ hc, r⟩
    · rw [if_neg h1] at h
      by_cases h2 : (walk child stack).1 = true
      · exact ⟨child, List.mem_cons_self _ _, by simpa using h1, hwalk child stack hnd hb h2⟩
      · rw [if_neg h2] at h
        obtain ⟨w1, ext, w2⟩ := hext child stack hnd
        obtain ⟨c, hc, r⟩ := ih _ w1 (by
          rw [w2]
          exact Nat.le_trans hb (inRange_append F.length stack ext)) h
        exact ⟨c, List.mem_cons_of_mem _ hc, r⟩

theorem hasDecrefBetweenGraph_complete (F : Function) (tail_node fuel : Nat) :
    ∀ (head_node : Nat) (stack : List Nat), stack.Nodup →
      F.length + 1 ≤ fuel + (stack.filter (fun x => decide (x < F.length))).length →
      (hasDecrefBetweenGraph F tail_node fuel head_node stack).1 = true →
      ∃ x, ReachAvoid F tail_node head_node x ∧ hasAnyDecrefInNode (instsOf F x) = true := by
  induction fuel with
  | zero =>
    intro head_node stack h hb _
    exfalso
    have hle := nodup_length_le (stack.filter (fun x => decide (x < F.length))) F.length
      (h.sublist (List.filter_sublist stack)) (by
        intro x hx
        have := (List.mem_filter.1 hx).2
        simpa using this)
    omega
  | succ fuel ih =>
    intro head_node stack h hb ht
    rw [hasDecrefBetweenGraph_succ] at ht
    by_cases h1 : basicBlockInList head_node stack = true
    · rw [if_pos h1] at ht; exact Bool.noConfusion ht
    · rw [if_neg h1] at ht
      by_cases h2 : hasAnyDecrefInNode (instsOf F head_node) = true
      · exact ⟨head_node, ReachAvoid.refl head_node, h2⟩
      · rw [if_neg h2] at ht
        have hnm : head_node ∉ stack := fun hm => h1 ((basicBlockInList_iff _ _).2 hm)
        have hnd : (stack ++ [head_node]).Nodup :=
          List.Nodup.append h (List.nodup_singleton _) (by
            intro x hx hy
            have : x = head_node := by simpa using hy
            exact hnm (this ▸ hx))
        by_cases hr : head_node < F.length
        · obtain ⟨c, hc, hne, x, hx, hdec⟩ := betweenLoop_complete F tail_node _
            (F.length + 1 - fuel)
            (fun c => ∃ x, ReachAvoid F tail_node c x ∧ hasAnyDecrefInNode (instsOf F x) = true)
            (hasDecrefBetweenGraph_extends F tail_node fuel)
            (fun c s hs hbs hw => ih c s hs (by omega) hw) (succs F head_node) _ hnd (by
              rw [List.filter_append, List.length_append]
              have : ([head_node].filter (fun x => decide (x < F.length))).length = 1 := by
                simp [hr]
              omega) ht
          exact ⟨x, reachAvoid_prepend F tail_node head_node c x hc hne hx, hdec⟩
        · have hnone : F[head_node]? = none := List.getElem?_eq_none (Nat.le_of_not_lt hr)
          have hs : succs F head_node = [] := by simp [succs, hnone]
          rw [hs] at ht
          exact Bool.noConfusion ht

theorem reachAvoid_ne_tail (F : Function) (tail_node head_node x : Nat)
    (hne : head_node ≠ tail_node) (hx : ReachAvoid F tail_node head_node x) :
    x ≠ tail_node := by
  cases hx with
  | refl => exact hne
  | step _ _ hn => exact hn

/-! ## Pruners that find nothing to do -/

theorem singleton_of_nodup {α : Type} (l : List α) (a : α) (hnd : l.Nodup) (ha : a ∈ l)
    (hall : ∀ x ∈ l, x = a) : l = [a] := by
  cases l with
  | nil => exact absurd ha (List.not_mem_nil a)
  | cons b t =>
    have hb : b = a := hall b (List.mem_cons_self _ _)
    subst hb
    cases t with
    | nil => rfl
    | cons c t' =>
      have hc : c = b := hall c (List.mem_cons_of_mem _ (List.mem_cons_self _ _))
      subst hc
      rw [List.nodup_cons] at hnd
      exact absurd (List.mem_cons_self _ _) hnd.1

theorem pairLoop_no_slots (incs : List Instruction) :
    ∀ (insts : List Instruction) (m : Bool) (n : Nat),
      pairLoop incs [] insts m n = (insts, m, n) := by
  induction incs with
  | nil => intro insts m n; rfl
  | cons inc rest ih =>
    intro insts m n
    simp only [pairLoop, takeRelatedSlot]
    exact ih insts m n

theorem pruneBlock_id (bb : BasicBlock) (m : Bool) (n : Nat) (hnull : nullList bb.insts = [])
    (h : increfList bb.insts = [] ∨ decrefList bb.insts = []) :
    pruneBlock bb m n = (bb, m, n) := by
  unfold pruneBlock
  rw [hnull]
  simp only [eraseNullLoop]
  rcases h with h | h
  · rw [h]
    rfl
  · rw [h, List.map_nil, pairLoop_no_slots]

theorem pruneBlocks_id (L : List BasicBlock) :
    ∀ (m : Bool) (n : Nat),
      (∀ bb ∈ L, nullList bb.insts = [] ∧
        (increfList bb.insts = [] ∨ decrefList bb.insts = [])) →
      pruneBlocks L m n = (L, m, n) := by
  induction L with
  | nil => intro m n _; rfl
  | cons bb L ih =>
    intro m n h
    have hb := h bb (List.mem_cons_self _ _)
    simp only [pruneBlocks]
    rw [pruneBlock_id bb m n hb.1 hb.2]
    dsimp only
    rw [ih m n (fun b hb2 => h b (List.mem_cons_of_mem _ hb2))]

theorem runPerBasicBlockPrune_id (F : Function) (st : Stats)
    (h : ∀ bb ∈ F, nullList bb.insts = [] ∧
      (increfList bb.insts = [] ∨ decrefList bb.insts = [])) :
    runPerBasicBlockPrune F st = (F, false, st) := by
  unfold runPerBasicBlockPrune
  rw [pruneBlocks_id F false st.per_bb h]

theorem collectIncrefs_nil (F : Function)
    (h : ∀ b x, x ∈ instsOf F b → isIncrefOp x = false) : collectIncrefs F = [] := by
  rw [List.eq_nil_iff_forall_not_mem]
  intro r hr
  have := (mem_collectIncrefs F r).1 hr
  rw [h r.1 r.2 this.1] at this
  exact Bool.noConfusion this.2

theorem collectDecrefs_nil (F : Function)
    (h : ∀ b x, x ∈ instsOf F b → isDecrefOp x = false) : collectDecrefs F = [] := by
  rw [List.eq_nil_iff_forall_not_mem]
  intro r hr
  have := (mem_collectDecrefs F r).1 hr
  rw [h r.1 r.2 this.1] at this
  exact Bool.noConfusion this.2

theorem runFanoutPrune_id (F : Function) (st : Stats)
    (h : ∀ b x, x ∈ instsOf F b → isIncrefOp x = false) :
    runFanoutPrune F st = (F, false, st) := by
  unfold runFanoutPrune
  rw [collectIncrefs_nil F h]
  rfl

theorem runDiamondPrune_id (DT PDT : InstRef → InstRef → Bool) (F : Function) (st : Stats)
    (h : ∀ b x, x ∈ instsOf F b → isIncrefOp x = false) :
    runDiamondPrune DT PDT F st = (F, false, st) := by
  unfold runDiamondPrune
  rw [collectIncrefs_nil F h]
  rfl

theorem mem_block_instsOf (F : Function) (bb : BasicBlock) (hbb : bb ∈ F) :
    ∃ b, instsOf F b = bb.insts := by
  obtain ⟨b, hb⟩ := List.mem_iff_getElem?.1 hbb
  refine ⟨b, ?_⟩
  unfold instsOf
  rw [hb]

/-- A function without refops goes through one iteration of the driver
loop unchanged. -/
theorem pruneIteration_id (DT PDT : InstRef → InstRef → Bool) (F : Function) (st : Stats)
    (h : ∀ b x, x ∈ instsOf F b → isRefOp x = false) :
    pruneIteration DT PDT F st = (F, false, st) := by
  have hinc : ∀ b x, x ∈ instsOf F b → isIncrefOp x = false := by
    intro b x hx
    cases hi : isIncrefOp x
    · rfl
    · have := isIncrefOp_isRefOp x hi
      rw [h b x hx] at this
      exact Bool.noConfusion this
  have hbb : ∀ bb ∈ F, nullList bb.insts = [] ∧
      (increfList bb.insts = [] ∨ decrefList bb.insts = []) := by
    intro bb hbb
    obtain ⟨b, hb⟩ := mem_block_instsOf F bb hbb
    constructor
    · unfold nullList
      rw [List.filter_eq_nil_iff]
      intro x hx
      rw [h b x (hb ▸ hx)]
      simp
    · left
      unfold increfList
      rw [List.filter_eq_nil_iff]
      intro x hx
      rw [h b x (hb ▸ hx)]
      simp
  unfold pruneIteration
  rw [runPerBasicBlockPrune_id F st hbb]
  dsimp only
  rw [runDiamondPrune_id DT PDT F st hinc]
  dsimp only
  rw [runFanoutPrune_id F st hinc]
  rfl

/-- Claim C11 fails on an indirect call through a value named `NRT_decref`:
the call is classified as a decref, and the passes delete it. -/
theorem indirect_call_classified_and_removed :
    indirectDecrefNull.direct = false ∧ isDecrefOp indirectDecrefNull = true ∧
      isRefOp indirectDecrefNull = true ∧
      runRefPrunePasses (domTreeOf indirectCallFn) (postDomTreeOf indirectCallFn)
          indirectCallFn zeroStats
        = ([mkBlock [] 2 []], true,
            { per_bb := 1, diamond := 0, fanout := 0, fanout_raise := 0 }) := by
  decide

/-- Claim C11 as amended: an instruction is classified as an incref (as a
decref) iff it is a call instruction whose called operand is named exactly
`NRT_incref` (`NRT_decref`), be the call direct or not; it is a decref
related to an incref iff moreover both have the same operand 0; it is a refop
iff it is an incref or a decref; and the instructions that are not refops
stay in their blocks, in their order, through both passes. -/
theorem refop_classification (i : Instruction) (DT PDT : InstRef → InstRef → Bool)
    (F : Function) (st : Stats) :
    (isIncrefOp i = true ↔ (i.isCall = true ∧ i.calleeName = "NRT_incref")) ∧
      (isDecrefOp i = true ↔ (i.isCall = true ∧ i.calleeName = "NRT_decref")) ∧
      (∀ inc : Instruction, isRelatedDecref inc i = true ↔
        (i.isCall = true ∧ i.calleeName = "NRT_decref" ∧ inc.arg0 = i.arg0)) ∧
      (isRefOp i = true ↔ (isIncrefOp i = true ∨ isDecrefOp i = true)) ∧
      (runRefPrunePasses DT PDT F st).1.map nonRefopView = F.map nonRefopView := by
  refine ⟨?_, ?_, ?_, ?_, ?_⟩
  · rw [isIncrefOp_eq]; simp [IsIncRef]
  · rw [isDecrefOp_eq]; simp [IsDecRef]
  · intro inc
    rw [isRelatedDecref_eq]; simp [IsDecRef, and_assoc]
  · rw [isRefOp_eq, isIncrefOp_eq, isDecrefOp_eq]
    cases i.isCall <;> simp
  · have hn := normalizeBlocks_keeps F false
    have hp := runOnFunction_shrinks DT PDT (RefNormalizePass.runOnFunction F).1 st
    unfold runRefPrunePasses
    rw [shrinks_view_eq hp]
    exact hn.1

/-- Claim C12 fails with all counters at zero: the text ends in a space
before the newline. -/
theorem stats_line_has_trailing_space :
    (LLVMPY_DumpRefPruneStats zeroStats true).2
        = "refprune stats per-BB 0 diamond 0 fanout 0 fanout+raise 0 \n" ∧
      (LLVMPY_DumpRefPruneStats zeroStats true).2
        ≠ "refprune stats per-BB 0 diamond 0 fanout 0 fanout+raise 0\n" := by
  decide

/-- Claim C12 as amended: for all counter values, when `do_print` is true the
text written to standard error is `refprune stats per-BB <b> diamond <d>
fanout <f> fanout+raise <r>` with the decimal values substituted and the
fields separated by single spaces, then one more space, then one newline;
when `do_print` is false nothing is written; the struct receives the four
counters in both cases. -/
theorem stats_line_format (st : Stats) (do_print : Bool) :
    (LLVMPY_DumpRefPruneStats st true).2
        = "refprune stats per-BB " ++ toString st.per_bb ++ " diamond "
          ++ toString st.diamond ++ " fanout " ++ toString st.fanout ++ " fanout+raise "
          ++ toString st.fanout_raise ++ " \n" ∧
      (LLVMPY_DumpRefPruneStats st false).2 = "" ∧
      (LLVMPY_DumpRefPruneStats st do_print).1
        = { basicblock := st.per_bb, diamond := st.diamond, fanout := st.fanout,
            fanout_raise := st.fanout_raise } := by
  refine ⟨?_, rfl, rfl⟩
  show statsLine st = _
  unfold statsLine
  simp only [String.append_assoc]
  rfl

/-- Claim C13: when the incref `I` of a function with distinct instruction
addresses passes the head gate and `findFanout` answers true with tail
blocks `T`, the body of the incref loop of `runFanoutPrune` sets the flag,
adds `|T| + 1` to the fanout counter, turns each tail block `A ++ d :: B`,
where `d` is its first decref related to `I`, into `A ++ B`, turns the head
block `A ++ I :: B` into `A ++ B`, and leaves every other block and every
terminator as it was; on scenario 5 the pruner removes the three refops and
adds 3 to the counter. -/
theorem fanout_elimination (F : Function) (I : InstRef) (T : List Nat) (m : Bool) (n : Nat)
    (hwf : WellFormed F) (hgate : hasAnyDecrefInNode (instsOf F I.1) = false)
    (h : findFanout F I = (true, T)) :
    ((fanoutStep I F m n).2 = (true, n + T.length + 1) ∧
      (∀ t ∈ T, ∃ (A : List Instruction) (d : Instruction) (B : List Instruction),
        instsOf F t = A ++ d :: B ∧ (∀ x ∈ A, isRelatedDecref I.2 x = false) ∧
          isRelatedDecref I.2 d = true ∧ instsOf (fanoutStep I F m n).1 t = A ++ B) ∧
      (∀ A B : List Instruction, instsOf F I.1 = A ++ I.2 :: B →
        instsOf (fanoutStep I F m n).1 I.1 = A ++ B) ∧
      (∀ b : Nat, b ∉ T → b ≠ I.1 → instsOf (fanoutStep I F m n).1 b = instsOf F b) ∧
      (∀ b : Nat, succs (fanoutStep I F m n).1 b = succs F b)) ∧
    runFanoutPrune fanoutFn zeroStats
      = ([mkBlock [] 10 [1, 2], mkBlock [] 11 [3], mkBlock [] 12 [3], mkBlock [] 13 []],
          true, { per_bb := 0, diamond := 0, fanout := 3, fanout_raise := 0 }) := by
  refine ⟨?_, by decide⟩
  obtain ⟨hc1, hc2, _⟩ := findFanout_true F I T h
  have hnd : T.Nodup := by
    rw [← hc2]
    exact findFanoutDecrefCandidates_nodup F I.2 I.1
  have hall : ∀ t ∈ T, hasDecrefInNode I.2 (instsOf F t) = true := by
    have := (findFanoutDecrefCandidates_sound F I.2 I.1 hc1).2
    obtain ⟨_, _, _, h4⟩ := this
    intro t ht
    exact h4 t (hc2 ▸ ht)
  have hHT : I.1 ∉ T := by
    intro hH
    have h1 := hall _ hH
    unfold hasDecrefInNode at h1
    obtain ⟨d, hd, hrel⟩ := List.any_eq_true.1 h1
    have h2 : hasAnyDecrefInNode (instsOf F I.1) = true := by
      unfold hasAnyDecrefInNode
      exact List.any_eq_true.2 ⟨d, hd, isRelatedDecref_isDecrefOp _ _ hrel⟩
    rw [hgate] at h2
    exact Bool.noConfusion h2
  have hnodup : ∀ b : Nat, (instsOf F b).Nodup := by
    intro b
    unfold instsOf
    cases hb : F[b]? with
    | none => exact List.nodup_nil
    | some bb => exact hwf bb (List.getElem?_mem hb)
  rw [fanoutStep_of_findFanout F I T m n hgate h]
  have hE := instsOf_eraseTails I.2 T F n hnd
  refine ⟨?_, ?_, ?_, ?_, ?_⟩
  · dsimp only
    rw [eraseTails_exact I.2 T F n hnd hall]
  · intro t ht
    have h1 := hall t ht
    unfold hasDecrefInNode at h1
    obtain ⟨d0, hd0, hrel0⟩ := List.any_eq_true.1 h1
    cases hf : (instsOf F t).find? (isRelatedDecref I.2) with
    | none =>
      rw [List.find?_eq_none] at hf
      exact absurd hrel0 (hf d0 hd0)
    | some d =>
      obtain ⟨hrel, A, B, hsplit, hA⟩ := List.find?_eq_some.1 hf
      refine ⟨A, d, B, hsplit, ?_, hrel, ?_⟩
      · intro x hx
        have := hA x hx
        simpa using this
      · dsimp only
        have htH : t ≠ I.1 := fun e => hHT (e ▸ ht)
        rw [instsOf_eraseFromParent, if_neg htH, (hE t).2 ht d hf, hsplit]
        exact eraseInst_split A B d (hsplit ▸ hnodup t)
  · intro A B hsplit
    dsimp only
    rw [instsOf_eraseFromParent, if_pos rfl, (hE I.1).1 hHT, hsplit]
    exact eraseInst_split A B I.2 (hsplit ▸ hnodup I.1)
  · intro b hb hbH
    dsimp only
    rw [instsOf_eraseFromParent, if_neg hbH, (hE b).1 hb]
  · intro b
    dsimp only
    rw [succs_eraseFromParent]
    exact shrinks_succs_eq (eraseTails_shrinks I.2 T F n) b

/-- Claim C13 on scenario 5 with a second `decref %p` in tail block `A`:
the counter grows by 3, the first decref of `A` goes and the second stays. -/
theorem fanout_elimination_witness :
    (fanoutStep (0, mkIncref 1 7) fanoutTwoDecrefsFn false 0).2 = (true, 0 + [1, 2].length + 1) ∧
      instsOf (fanoutStep (0, mkIncref 1 7) fanoutTwoDecrefsFn false 0).1 1 = [mkDecref 4 7] :=
  ⟨(fanout_elimination fanoutTwoDecrefsFn (0, mkIncref 1 7) [1, 2] false 0
      (by decide) (by decide) (by decide)).1.1,
    by decide⟩

/-- The interference walk between the blocks of the only incref and the only
decref of a function answers false. -/
theorem plain_diamond_no_interference (F : Function) (I D : InstRef) (hne : I.1 ≠ D.1)
    (hinc : isIncrefOp I.2 = true)
    (honly : ∀ b x, x ∈ instsOf F b → isRefOp x = true → (b, x) = I ∨ (b, x) = D) :
    (hasDecrefBetweenGraph F D.1 (F.length + 1) I.1 []).1 = false := by
  cases hr : (hasDecrefBetweenGraph F D.1 (F.length + 1) I.1 []).1 with
  | false => rfl
  | true =>
    exfalso
    obtain ⟨x, hx, hdec⟩ := hasDecrefBetweenGraph_complete F D.1 (F.length + 1) I.1 []
      List.nodup_nil (by simp) hr
    unfold hasAnyDecrefInNode at hdec
    obtain ⟨d, hd, hdd⟩ := List.any_eq_true.1 hdec
    rcases honly x d hd (isDecrefOp_isRefOp d hdd) with e | e
    · have : d = I.2 := congrArg Prod.snd e
      rw [this, isIncrefOp_not_isDecrefOp I.2 hinc] at hdd
      exact Bool.noConfusion hdd
    · have : x = D.1 := congrArg Prod.fst e
      exact reachAvoid_ne_tail F D.1 I.1 x hne hx this

/-- Claim C14: in a function with distinct instruction addresses whose only
refops are an incref `I` and a decref `D` on the same pointer, not the null
constant, in different blocks, with `I` dominating `D` and `D`
post-dominating `I`, the prune pass erases `I` and `D`, returns true, adds 2
to the diamond counter and leaves the other counters as they were. -/
theorem plain_diamond_pruned (DT PDT : InstRef → InstRef → Bool) (F : Function) (st : Stats)
    (I D : InstRef) (hwf : WellFormed F) (hI : I.2 ∈ instsOf F I.1) (hD : D.2 ∈ instsOf F D.1)
    (hne : I.1 ≠ D.1) (hinc : isIncrefOp I.2 = true) (hdec : isDecrefOp D.2 = true)
    (harg : I.2.arg0 = D.2.arg0) (hnn : I.2.arg0 ≠ Value.nullPtr)
    (honly : ∀ b x, x ∈ instsOf F b → isRefOp x = true → (b, x) = I ∨ (b, x) = D)
    (hdt : DT I D = true) (hpdt : PDT D I = true) :
    RefPrunePass.runOnFunction DT PDT F st
      = (eraseFromParent (eraseFromParent F I) D, true,
          { st with diamond := st.diamond + 2 }) := by
  have hIinc : IsIncRef I.2 = true := by
    rw [isIncrefOp_eq] at hinc
    simp only [Bool.and_eq_true] at hinc
    exact hinc.2
  have hDdec : IsDecRef D.2 = true := by
    rw [isDecrefOp_eq] at hdec
    simp only [Bool.and_eq_true] at hdec
    exact hdec.2
  have hDinc : IsIncRef D.2 = false := by
    cases h : IsIncRef D.2
    · rfl
    · rw [incref_not_decref D.2 h] at hDdec
      exact Bool.noConfusion hDdec
  have hInn : isNonNullFirstArg I.2 = true := by
    unfold isNonNullFirstArg
    simpa using hnn
  have hDnn : isNonNullFirstArg D.2 = true := by
    unfold isNonNullFirstArg
    rw [← harg]
    simpa using hnn
  -- the per-block pruner finds nothing
  have hbb : ∀ bb ∈ F, nullList bb.insts = [] ∧
      (increfList bb.insts = [] ∨ decrefList bb.insts = []) := by
    intro bb hbb
    obtain ⟨b, hb⟩ := mem_block_instsOf F bb hbb
    constructor
    · unfold nullList
      rw [List.filter_eq_nil_iff]
      intro x hx
      cases hr : isRefOp x
      · simp
      · rcases honly b x (hb ▸ hx) hr with e | e
        · have : x = I.2 := congrArg Prod.snd e
          rw [this, hInn]; simp
        · have : x = D.2 := congrArg Prod.snd e
          rw [this, hDnn]; simp
    · by_cases hbI : b = I.1
      · right
        unfold decrefList
        rw [List.filter_eq_nil_iff]
        intro x hx
        cases hr : isRefOp x
        · simp
        · rcases honly b x (hb ▸ hx) hr with e | e
          · have : x = I.2 := congrArg Prod.snd e
            rw [this, hIinc]; simp
          · have : b = D.1 := congrArg Prod.fst e
            exact absurd (hbI.symm.trans this) hne
      · left
        unfold increfList
        rw [List.filter_eq_nil_iff]
        intro x hx
        cases hr : isRefOp x
        · simp
        · rcases honly b x (hb ▸ hx) hr with e | e
          · have : b = I.1 := congrArg Prod.fst e
            exact absurd this hbI
          · have : x = D.2 := congrArg Prod.snd e
            rw [this, hDinc]; simp
  -- the function-wide lists of the diamond pruner
  have hincs : collectIncrefs F = [I] := by
    apply singleton_of_nodup _ _ (collectFrom_nodup _ F 0 hwf)
      ((mem_collectIncrefs F I).2 ⟨hI, hinc⟩)
    intro r hr
    obtain ⟨h1, h2⟩ := (mem_collectIncrefs F r).1 hr
    rcases honly r.1 r.2 h1 (isIncrefOp_isRefOp r.2 h2) with e | e
    · exact e
    · have : r.2 = D.2 := congrArg Prod.snd e
      rw [this, isIncrefOp_eq, hDinc] at h2
      simp at h2
  have hdecs : collectDecrefs F = [D] := by
    apply singleton_of_nodup _ _ (collectFrom_nodup _ F 0 hwf)
      ((mem_collectDecrefs F D).2 ⟨hD, hdec⟩)
    intro r hr
    obtain ⟨h1, h2⟩ := (mem_collectDecrefs F r).1 hr
    rcases honly r.1 r.2 h1 (isDecrefOp_isRefOp r.2 h2) with e | e
    · have : r.2 = I.2 := congrArg Prod.snd e
      rw [this, isIncrefOp_not_isDecrefOp I.2 hinc] at h2
      exact Bool.noConfusion h2
    · exact e
  have hrel : isRelatedDecref I.2 D.2 = true := by
    rw [isRelatedDecref_onP, hdec, harg]
    simp
  have htest : diamondTest DT PDT F I D = true := by
    unfold diamondTest
    rw [if_neg (by simpa using hne), hrel, hdt, hpdt,
      plain_diamond_no_interference F I D hne hinc honly]
    rfl
  have hdia : ∀ st0 : Stats, runDiamondPrune DT PDT F st0
      = (eraseFromParent (eraseFromParent F I) D, true,
          { st0 with diamond := st0.diamond + 2 }) := by
    intro st0
    unfold runDiamondPrune
    rw [hincs, hdecs]
    simp only [List.map_cons, List.map_nil, diamondLoop, diamondScan, htest, if_true]
  -- the function after the diamond pruner holds no refop
  have hnone : ∀ b x, x ∈ instsOf (eraseFromParent (eraseFromParent F I) D) b →
      isRefOp x = false := by
    intro b x hx
    cases hr : isRefOp x
    · rfl
    · exfalso
      rw [instsOf_eraseFromParent] at hx
      by_cases hbD : b = D.1
      · rw [if_pos hbD, mem_eraseInst, instsOf_eraseFromParent] at hx
        have hbI : b ≠ I.1 := fun e => hne (e.symm.trans hbD)
        rw [if_neg hbI] at hx
        rcases honly b x hx.1 hr with e | e
        · exact hbI (congrArg Prod.fst e)
        · exact hx.2 (congrArg Prod.snd e)
      · rw [if_neg hbD, instsOf_eraseFromParent] at hx
        by_cases hbI : b = I.1
        · rw [if_pos hbI, mem_eraseInst] at hx
          rcases honly b x hx.1 hr with e | e
          · exact hx.2 (congrArg Prod.snd e)
          · exact hbD (congrArg Prod.fst e)
        · rw [if_neg hbI] at hx
          rcases honly b x hx hr with e | e
          · exact hbI (congrArg Prod.fst e)
          · exact hbD (congrArg Prod.fst e)
  have hnoinc : ∀ b x, x ∈ instsOf (eraseFromParent (eraseFromParent F I) D) b →
      isIncrefOp x = false := by
    intro b x hx
    cases hi : isIncrefOp x
    · rfl
    · have := isIncrefOp_isRefOp x hi
      rw [hnone b x hx] at this
      exact Bool.noConfusion this
  have hit1 : pruneIteration DT PDT F st
      = (eraseFromParent (eraseFromParent F I) D, true,
          { st with diamond := st.diamond + 2 }) := by
    unfold pruneIteration
    rw [runPerBasicBlockPrune_id F st hbb]
    dsimp only
    rw [hdia st]
    dsimp only
    rw [runFanoutPrune_id _ _ hnoinc]
    rfl
  have hfuel : numInsts F = numInsts (eraseFromParent F I) + 1 :=
    (numInsts_eraseFromParent F I hwf hI).symm
  unfold RefPrunePass.runOnFunction
  rw [hfuel, pruneLoop_succ, hit1]
  dsimp only
  rw [if_pos rfl, pruneLoop_succ, pruneIteration_id DT PDT _ _ hnone]
  rfl

/-- Claim C14 on scenario 3, the diamond `A -> B, A -> C, B -> D, C -> D`
with `incref %p` in `A` and `decref %p` in `D`. -/
theorem plain_diamond_pruned_witness :
    RefPrunePass.runOnFunction (domTreeOf diamondFn) (postDomTreeOf diamondFn) diamondFn
        zeroStats
      = ([mkBlock [] 10 [1, 2], mkBlock [] 11 [3], mkBlock [] 12 [3], mkBlock [] 13 []], true,
          { per_bb := 0, diamond := 2, fanout := 0, fanout_raise := 0 }) :=
  plain_diamond_pruned (domTreeOf diamondFn) (postDomTreeOf diamondFn) diamondFn zeroStats
    (0, mkIncref 1 7) (3, mkDecref 2 7) (by decide) (by decide) (by decide) (by decide)
    (by decide) (by decide) (by decide) (by decide)
    (by
      intro b x hx hr
      have hb : b < 4 ∨ 4 ≤ b := Nat.lt_or_ge b 4
      rcases hb with hb | hb
      · have h4 : b = 0 ∨ b = 1 ∨ b = 2 ∨ b = 3 := by omega
        rcases h4 with e | e | e | e
        · subst e
          have : x = mkIncref 1 7 := by simpa [instsOf, diamondFn, mkBlock] using hx
          left; rw [this]
        · subst e
          simp [instsOf, diamondFn, mkBlock] at hx
        · subst e
          simp [instsOf, diamondFn, mkBlock] at hx
        · subst e
          have : x = mkDecref 2 7 := by simpa [instsOf, diamondFn, mkBlock] using hx
          right; rw [this]
      · have hnone : diamondFn[b]? = none :=
          List.getElem?_eq_none (by simpa [diamondFn] using hb)
        simp [instsOf, hnone] at hx)
    (by decide) (by decide)

theorem pruneIteration_fanout_raise (DT PDT : InstRef → InstRef → Bool) (F : Function)
    (st : Stats) : (pruneIteration DT PDT F st).2.2.fanout_raise = st.fanout_raise := by
  rfl

theorem pruneLoop_fanout_raise (DT PDT : InstRef → InstRef → Bool) (fuel : Nat) :
    ∀ (F : Function) (st : Stats) (m : Bool),
      (pruneLoop DT PDT fuel F st m).2.2.fanout_raise = st.fanout_raise := by
  induction fuel with
  | zero => intro F st m; rfl
  | succ fuel ih =>
    intro F st m
    rw [pruneLoop_succ]
    by_cases hm : (pruneIteration DT PDT F st).2.1 = true
    · rw [if_pos hm, ih]
      exact pruneIteration_fanout_raise DT PDT F st
    · rw [if_neg hm]
      exact pruneIteration_fanout_raise DT PDT F st

theorem runAll_fanout_raise
    (jobs : List ((InstRef → InstRef → Bool) × (InstRef → InstRef → Bool) × Function)) :
    ∀ (st : Stats), (runAll jobs st).fanout_raise = st.fanout_raise := by
  induction jobs with
  | nil => intro st; rfl
  | cons job rest ih =>
    intro st
    simp only [runAll]
    rw [ih]
    exact pruneLoop_fanout_raise job.1 job.2.1 _ _ st false

/-- Claim C15: a run of `RefPrunePass::runOnFunction` leaves
`stats_fanout_raise` as it was; so, the counters starting at zero, after the
passes have run on any list of functions the field `fanout_raise` written by
`LLVMPY_DumpRefPruneStats` is 0. -/
theorem fanout_raise_never_counted (DT PDT : InstRef → InstRef → Bool) (F : Function)
    (st : Stats)
    (jobs : List ((InstRef → InstRef → Bool) × (InstRef → InstRef → Bool) × Function))
    (do_print : Bool) :
    (RefPrunePass.runOnFunction DT PDT F st).2.2.fanout_raise = st.fanout_raise ∧
      (LLVMPY_DumpRefPruneStats (runAll jobs zeroStats) do_print).1.fanout_raise = 0 := by
  refine ⟨pruneLoop_fanout_raise DT PDT _ F st false, ?_⟩
  show (runAll jobs zeroStats).fanout_raise = 0
  rw [runAll_fanout_raise]
  rfl

/-- Claim C16: for distinct blocks `head` and `tail`,
`hasDecrefBetweenGraph(head, tail, stack)` on an empty stack answers true iff
a block that holds a decref, on any pointer, can be reached from `head`
(`head` itself included) along successor edges without entering `tail`; no
such block is `tail`, so that a decref of `tail` never makes the answer true;
and a larger recursion bound gives the same answer and stack. -/
theorem interference_check (F : Function) (head_node tail_node : Nat)
    (hne : head_node ≠ tail_node) :
    ((hasDecrefBetweenGraph F tail_node (F.length + 1) head_node []).1 = true ↔
        ∃ x, ReachAvoid F tail_node head_node x ∧
          hasAnyDecrefInNode (instsOf F x) = true) ∧
      (∀ x, ReachAvoid F tail_node head_node x → x ≠ tail_node) ∧
      ∀ k : Nat, hasDecrefBetweenGraph F tail_node (F.length + 1 + k) head_node []
        = hasDecrefBetweenGraph F tail_node (F.length + 1) head_node [] := by
  refine ⟨⟨?_, ?_⟩, fun x hx => reachAvoid_ne_tail F tail_node head_node x hne hx, ?_⟩
  · intro h
    exact hasDecrefBetweenGraph_complete F tail_node (F.length + 1) head_node []
      List.nodup_nil (by simp) h
  · rintro ⟨x, hx, hdec⟩
    cases hr : (hasDecrefBetweenGraph F tail_node (F.length + 1) head_node []).1 with
    | true => rfl
    | false =>
      have := no_decref_between F tail_node head_node (F.length + 1) hr x hx
      rw [this] at hdec
      exact Bool.noConfusion hdec
  · intro k
    exact hasDecrefBetweenGraph_fuel F tail_node (F.length + 1) k head_node []
      List.nodup_nil (by simp)

/-- Claim C16 on scenario 4 and on scenario 3, with head `A` and tail `D`:
in scenario 4 the block `B` with its `decref %q` is reached from `A`
without entering `D`; in scenario 3 the only decref is in `D`, and the
answer is false. -/
theorem interference_check_witness :
    (∃ x, ReachAvoid diamondInterferenceFn 3 0 x ∧
        hasAnyDecrefInNode (instsOf diamondInterferenceFn x) = true) ∧
      (hasDecrefBetweenGraph diamondFn 3 (diamondFn.length + 1) 0 []).1 = false :=
  ⟨(interference_check diamondInterferenceFn 0 3 (by decide)).1.1 (by decide), by decide⟩

/-! ## The shape of a normalized block -/

theorem moveLoop_shape (rest : List Instruction) :
    ∀ (A B : List Instruction) (m : Bool), rest.Nodup → (∀ x ∈ rest, x ∉ B) →
      (moveLoop rest (A ++ B) m).1 = A.filter (fun x => decide (x ∉ rest)) ++ B ++ rest := by
  induction rest with
  | nil => intro A B m _ _; simp [moveLoop]
  | cons d rest ih =>
    intro A B m hnd hB
    have hd : d ∉ rest := (List.nodup_cons.1 hnd).1
    have hdB : d ∉ B := hB d (List.mem_cons_self _ _)
    simp only [moveLoop]
    have hmv : moveBeforeTerminator (A ++ B) d = eraseInst A d ++ (B ++ [d]) := by
      unfold moveBeforeTerminator
      rw [eraseInst_append, eraseInst_of_not_mem B d hdB, List.append_assoc]
    rw [hmv, ih (eraseInst A d) (B ++ [d]) true (List.nodup_cons.1 hnd).2]
    · unfold eraseInst
      rw [List.filter_filter]
      have hf : A.filter (fun a => decide (a ∉ rest) && (a != d))
          = A.filter (fun x => decide (x ∉ d :: rest)) := by
        apply List.filter_congr
        intro x _
        by_cases hx : x = d
        · subst hx; simp
        · simp [hx]
      rw [hf]
      simp
    · intro x hx hxB
      rcases List.mem_append.1 hxB with h | h
      · exact hB x (List.mem_cons_of_mem _ hx) h
      · have : x = d := by simpa using h
        exact hd (this ▸ hx)

/-- Claim C17: `RefNormalizePass` leaves a block without incref as it is;
in a block with an incref, whose instructions have distinct addresses, the
instructions before the terminator become those that are not decrefs, in
their order, followed by the decrefs, in their order; the terminator stays,
and the new instruction list is a permutation of the old one. -/
theorem normalize_block_shape (bb : BasicBlock) (m : Bool) :
    (bb.insts.any isIncrefOp = false → normalizeBlock bb m = (bb, m)) ∧
      (bb.insts.any isIncrefOp = true → bb.insts.Nodup →
        (normalizeBlock bb m).1.insts
            = bb.insts.filter (fun ii => !isDecrefOp ii) ++ bb.insts.filter isDecrefOp ∧
          (normalizeBlock bb m).1.term = bb.term ∧
          List.Perm (normalizeBlock bb m).1.insts bb.insts) := by
  constructor
  · intro h
    simp [normalizeBlock, h]
  · intro h hnd
    have hs := moveLoop_shape (bb.insts.filter isDecrefOp) bb.insts [] m
      (hnd.filter _) (by simp)
    rw [List.append_nil, List.append_nil] at hs
    have hf : bb.insts.filter (fun x => decide (x ∉ bb.insts.filter isDecrefOp))
        = bb.insts.filter (fun ii => !isDecrefOp ii) := by
      apply List.filter_congr
      intro x hx
      cases hdx : isDecrefOp x <;> simp [List.mem_filter, hx, hdx]
    have hins : (normalizeBlock bb m).1.insts
        = bb.insts.filter (fun ii => !isDecrefOp ii) ++ bb.insts.filter isDecrefOp := by
      simp only [normalizeBlock, h, if_true]
      rw [hs, hf]
    refine ⟨hins, ?_, ?_⟩
    · simp only [normalizeBlock, h, if_true]
    · rw [hins]
      exact List.perm_append_comm.trans (List.filter_append_perm isDecrefOp bb.insts)

/-- Claim C17 on the block `decref %p; incref %p; ret`: the decref moves
behind the incref. -/
theorem normalize_block_shape_witness :
    (normalizeBlock (mkBlock [mkDecref 1 7, mkIncref 2 7] 3 []) false).1.insts
        = [mkIncref 2 7, mkDecref 1 7] ∧
      (normalizeBlock (mkBlock [mkDecref 1 7, mkIncref 2 7] 3 []) false).1.term
        = (mkBlock [mkDecref 1 7, mkIncref 2 7] 3 []).term ∧
      List.Perm (normalizeBlock (mkBlock [mkDecref 1 7, mkIncref 2 7] 3 []) false).1.insts
        [mkDecref 1 7, mkIncref 2 7] :=
  (normalize_block_shape (mkBlock [mkDecref 1 7, mkIncref 2 7] 3 []) false).2
    (by decide) (by decide)

theorem increfList_on (insts : List Instruction) (p : Value) (hp : p ≠ Value.nullPtr) :
    (increfList insts).filter (fun i => i.arg0 == p)
      = insts.filter (fun x => isIncrefOp x && (x.arg0 == p)) := by
  unfold increfList
  rw [List.filter_filter]
  apply List.filter_congr
  intro x _
  rw [isRefOp_eq, isIncrefOp_eq]
  unfold isNonNullFirstArg
  by_cases hx : x.arg0 = p
  · have hnn : (x.arg0 != Value.nullPtr) = true := by
      rw [hx]; simpa using hp
    rw [hnn]
    have hb : (x.arg0 == p) = true := beq_iff_eq.2 hx
    rw [hb]
    cases x.isCall <;> cases IsIncRef x <;> cases IsDecRef x <;> simp
  · have hb : (x.arg0 == p) = false := beq_eq_false_iff_ne.2 hx
    rw [hb]
    simp

theorem decrefList_on (insts : List Instruction) (p : Value) (hp : p ≠ Value.nullPtr) :
    (decrefList insts).filter (fun d => isDecrefOp d && (d.arg0 == p))
      = insts.filter (fun x => isDecrefOp x && (x.arg0 == p)) := by
  unfold decrefList
  rw [List.filter_filter]
  apply List.filter_congr
  intro x _
  by_cases hx : x.arg0 = p
  · have hnn : (x.arg0 != Value.nullPtr) = true := by
      rw [hx]; simpa using hp
    rw [isRefOp_eq, isDecrefOp_eq]
    unfold isNonNullFirstArg
    rw [hnn]
    cases hi : IsIncRef x
    · have hb : (x.arg0 == p) = true := beq_iff_eq.2 hx
      rw [hb]
      cases x.isCall <;> cases IsDecRef x <;> simp
    · rw [incref_not_decref x hi]
      simp
  · have hb : (x.arg0 == p) = false := beq_eq_false_iff_ne.2 hx
    rw [hb]
    simp

/-- The instructions on a non-null pointer that `pruneBlock` leaves. -/
theorem pruneBlock_mem_on (bb : BasicBlock) (m : Bool) (n : Nat) (p : Value)
    (hp : p ≠ Value.nullPtr) (x : Instruction) (hx : x.arg0 = p) :
    x ∈ (pruneBlock bb m n).1.insts ↔
      x ∈ bb.insts ∧
        x ∉ (bb.insts.filter (fun x => isIncrefOp x && (x.arg0 == p))).drop
          ((bb.insts.filter (fun x => isIncrefOp x && (x.arg0 == p))).length -
            min (bb.insts.filter (fun x => isIncrefOp x && (x.arg0 == p))).length
              (bb.insts.filter (fun x => isDecrefOp x && (x.arg0 == p))).length) ∧
        x ∉ (bb.insts.filter (fun x => isDecrefOp x && (x.arg0 == p))).take
          (min (bb.insts.filter (fun x => isIncrefOp x && (x.arg0 == p))).length
            (bb.insts.filter (fun x => isDecrefOp x && (x.arg0 == p))).length) := by
  unfold pruneBlock
  dsimp only
  rw [pairLoop_mem_on p _ _ _ _ _ x hx, reduceOption_map_some, List.filter_reverse,
    increfList_on _ p hp, decrefList_on _ p hp, List.length_reverse, List.take_reverse,
    List.mem_reverse, (eraseNullLoop_spec (nullList bb.insts) bb.insts m n).2.2 x]
  have hnull : x ∉ nullList bb.insts := by
    intro h
    have := (List.mem_filter.1 h).2
    unfold isNonNullFirstArg at this
    rw [hx] at this
    simp [hp] at this
  simp only [hnull, not_false_eq_true, and_true]

/-- Claim C18: in a block with distinct instruction addresses and for a
pointer `p` that is not the null constant, with `a` increfs and `b` decrefs
on `p` in the block and `k = min a b`, the increfs on `p` that `pruneBlock`
leaves are the first `a - k` of them and the decrefs on `p` it leaves are
those after the first `k`, both in source order; and the decref that the
slot search pairs with an incref is the first one in `decref_list` that is
not consumed and is related to it. -/
theorem per_block_tie_break (bb : BasicBlock) (m : Bool) (n : Nat) (p : Value)
    (hp : p ≠ Value.nullPtr) (hnd : bb.insts.Nodup) :
    (pruneBlock bb m n).1.insts.filter (fun x => isIncrefOp x && (x.arg0 == p))
        = (bb.insts.filter (fun x => isIncrefOp x && (x.arg0 == p))).take
          ((bb.insts.filter (fun x => isIncrefOp x && (x.arg0 == p))).length -
            min (bb.insts.filter (fun x => isIncrefOp x && (x.arg0 == p))).length
              (bb.insts.filter (fun x => isDecrefOp x && (x.arg0 == p))).length) ∧
      (pruneBlock bb m n).1.insts.filter (fun x => isDecrefOp x && (x.arg0 == p))
        = (bb.insts.filter (fun x => isDecrefOp x && (x.arg0 == p))).drop
          (min (bb.insts.filter (fun x => isIncrefOp x && (x.arg0 == p))).length
            (bb.insts.filter (fun x => isDecrefOp x && (x.arg0 == p))).length) ∧
      ∀ (incref d : Instruction) (slots slots' : List (Option Instruction)),
        takeRelatedSlot incref slots = some (d, slots') →
          ∃ A B, slots.reduceOption = A ++ d :: B ∧ slots'.reduceOption = A ++ B ∧
            (∀ e ∈ A, isRelatedDecref incref e = false) ∧ isRelatedDecref incref d = true := by
  have hsub : (pruneBlock bb m n).1.insts.Sublist bb.insts := (pruneBlock_shrinks bb m n).2.1
  refine ⟨?_, ?_, fun incref d slots slots' h => takeRelatedSlot_some incref slots d slots' h⟩
  · rw [← filter_not_mem_drop _ _ (hnd.filter _)]
    apply sublist_eq_filter _ _ _ (hsub.filter _) (hnd.filter _)
    intro x
    rw [List.mem_filter, List.mem_filter]
    constructor
    · rintro ⟨hx, hq⟩
      have hq2 := hq
      simp only [Bool.and_eq_true, beq_iff_eq] at hq2
      have h := (pruneBlock_mem_on bb m n p hp x hq2.2).1 hx
      exact ⟨⟨h.1, hq⟩, by simpa using h.2.1⟩
    · rintro ⟨⟨hx, hq⟩, hdrop⟩
      have hq2 := hq
      simp only [Bool.and_eq_true, beq_iff_eq] at hq2
      refine ⟨(pruneBlock_mem_on bb m n p hp x hq2.2).2 ⟨hx, by simpa using hdrop, ?_⟩, hq⟩
      intro ht
      have h2 := (List.mem_filter.1 (List.mem_of_mem_take ht)).2
      simp only [Bool.and_eq_true] at h2
      rw [isIncrefOp_not_isDecrefOp x hq2.1] at h2
      exact Bool.noConfusion h2.1
  · rw [← filter_not_mem_take _ _ (hnd.filter _)]
    apply sublist_eq_filter _ _ _ (hsub.filter _) (hnd.filter _)
    intro x
    rw [List.mem_filter, List.mem_filter]
    constructor
    · rintro ⟨hx, hq⟩
      have hq2 := hq
      simp only [Bool.and_eq_true, beq_iff_eq] at hq2
      have h := (pruneBlock_mem_on bb m n p hp x hq2.2).1 hx
      exact ⟨⟨h.1, hq⟩, by simpa using h.2.2⟩
    · rintro ⟨⟨hx, hq⟩, htake⟩
      have hq2 := hq
      simp only [Bool.and_eq_true, beq_iff_eq] at hq2
      refine ⟨(pruneBlock_mem_on bb m n p hp x hq2.2).2 ⟨hx, ?_, by simpa using htake⟩, hq⟩
      intro ht
      have h2 := (List.mem_filter.1 (List.mem_of_mem_drop ht)).2
      simp only [Bool.and_eq_true] at h2
      rw [isIncrefOp_not_isDecrefOp x h2.1] at hq2
      exact Bool.noConfusion hq2.1

/-- Claim C18 on the block `incref; incref; decref; decref; decref`, all on
`%7`: both increfs and the first two decrefs go, the third decref stays. -/
theorem per_block_tie_break_witness :
    (pruneBlock (mkBlock [mkIncref 1 7, mkIncref 2 7, mkDecref 3 7, mkDecref 4 7, mkDecref 5 7]
        6 []) false 0).1.insts.filter (fun x => isDecrefOp x && (x.arg0 == Value.val 7))
      = [mkDecref 5 7] ∧
    (pruneBlock (mkBlock [mkIncref 1 7, mkIncref 2 7, mkDecref 3 7, mkDecref 4 7, mkDecref 5 7]
        6 []) false 0).1.insts = [mkDecref 5 7] :=
  ⟨(per_block_tie_break
      (mkBlock [mkIncref 1 7, mkIncref 2 7, mkDecref 3 7, mkDecref 4 7, mkDecref 5 7] 6 [])
      false 0 (Value.val 7) (by decide) (by decide)).2.1,
    by decide⟩

/-- Claim C19: in the forward walk of `findFanout` for an incref, every value
the path stack takes holds at most 15 blocks, the head block included; a
call of `walkChildForDecref` answers true only with fewer than 15 blocks on
the stack; a call with 15 blocks on it answers false at once and leaves
`decref_blocks` alone; and when the stack reaches 15 blocks during the walk,
`findFanout` answers false and the incref loop of `runFanoutPrune` leaves
the function, the flag and the counter as they are. -/
theorem fanout_depth_bound (F : Function) (I : InstRef) (m : Bool) (n : Nat) :
    (findFanoutDecrefCandidatesTrace F I.2 I.1 []).1 = findFanoutDecrefCandidates F I.2 I.1 [] ∧
      (∀ s ∈ (findFanoutDecrefCandidatesTrace F I.2 I.1 []).2, s.length ≤ 15) ∧
      (∀ (fuel cur : Nat) (ps T : List Nat),
        (walkChildForDecref F I.2 fuel cur ps T).1 = true → ps.length < 15) ∧
      (∀ (fuel cur : Nat) (ps T : List Nat),
        15 ≤ ps.length → walkChildForDecref F I.2 fuel cur ps T = (false, T)) ∧
      ((∃ s ∈ (findFanoutDecrefCandidatesTrace F I.2 I.1 []).2, 15 ≤ s.length) →
        (findFanout F I).1 = false ∧ fanoutStep I F m n = (F, m, n)) := by
  refine ⟨findFanoutDecrefCandidatesTrace_fst F I.2 I.1 [], ?_, ?_, ?_, ?_⟩
  · intro s hs
    unfold findFanoutDecrefCandidatesTrace at hs
    rcases List.mem_cons.1 hs with e | hs2
    · rw [e]; simp
    · exact walkSuccessorsTrace_all (fun s => s.length ≤ 15) _
        (fun c T1 => walkChildForDecrefTrace_le F I.2 15 c [I.1] T1 (by simp)) _ _ _ s hs2
  · intro fuel cur ps T h
    by_contra hlen
    rw [walkChildForDecref_full F I.2 fuel cur ps T (by omega)] at h
    exact Bool.noConfusion h
  · intro fuel cur ps T h
    exact walkChildForDecref_full F I.2 fuel cur ps T h
  · intro h
    obtain ⟨s, hs, hlen⟩ := h
    have hcand : (findFanoutDecrefCandidates F I.2 I.1 []).1 = false := by
      rw [← findFanoutDecrefCandidatesTrace_fst]
      unfold findFanoutDecrefCandidatesTrace at hs ⊢
      rcases List.mem_cons.1 hs with e | hs2
      · rw [e] at hlen
        simp at hlen
      · exact walkSuccessorsTrace_abandon (fun s => 15 ≤ s.length) _
          (fun c T1 => walkChildForDecrefTrace_abandon F I.2 15 c [I.1] T1) _ _ _
          ⟨s, hs2, hlen⟩
    have hff : (findFanout F I).1 = false := by
      unfold findFanout
      dsimp only
      rw [hcand]
      rfl
    refine ⟨hff, ?_⟩
    rw [fanoutStep_eq]
    by_cases hg : hasAnyDecrefInNode (instsOf F I.1) = true
    · rw [if_pos hg]
    · rw [if_neg hg, hff]
      rfl

/-- Claim C19 on chains `H -> c1 -> ... -> ck -> t` with the incref in `H`
and the decref in `t`: with 14 blocks between them the stack reaches 15
blocks and the incref stays; with 13 the walk succeeds with tail `t`. -/
theorem fanout_depth_bound_witness :
    (∃ s ∈ (findFanoutDecrefCandidatesTrace (chainFn 14) (mkIncref 1 7) 0 []).2,
        15 ≤ s.length) ∧
      ((findFanout (chainFn 14) (0, mkIncref 1 7)).1 = false ∧
        fanoutStep (0, mkIncref 1 7) (chainFn 14) false 0 = (chainFn 14, false, 0)) ∧
      findFanout (chainFn 13) (0, mkIncref 1 7) = (true, [14]) :=
  ⟨by decide,
    (fanout_depth_bound (chainFn 14) (0, mkIncref 1 7) false 0).2.2.2.2 (by decide),
    by decide⟩

/-- Claim C20: when the block of an incref holds a decref on any pointer at
the moment `runFanoutPrune` examines the incref, the body of the incref loop
leaves the function, the flag and the counter as they are: neither the
incref nor any decref is erased on its behalf. -/
theorem fanout_head_gate (incref : InstRef) (F : Function) (m : Bool) (n : Nat)
    (h : hasAnyDecrefInNode (instsOf F incref.1) = true) :
    fanoutStep incref F m n = (F, m, n) := by
  rw [fanoutStep_eq, if_pos h]

/-- Claim C20 on `H -> A` with `incref %p; decref %q` in `H` and `decref %p`
in `A`: the incref of `H` is skipped. -/
theorem fanout_head_gate_witness :
    hasAnyDecrefInNode (instsOf headGateFn 0) = true ∧
      fanoutStep (0, mkIncref 1 7) headGateFn false 0 = (headGateFn, false, 0) :=
  ⟨by decide, fanout_head_gate (0, mkIncref 1 7) headGateFn false 0 (by decide)⟩

/-! ## The returned flag and what was erased -/

theorem report_of_disj (r : Function × Bool × Stats) (F : Function) (st : Stats)
    (h : r = (F, false, st) ∨ (r.2.1 = true ∧ numInsts r.1 < numInsts F)) :
    (r.2.1 = true ↔ numInsts r.1 < numInsts F) ∧ (r.2.1 = false → r = (F, false, st)) := by
  rcases h with h | h
  · rw [h]
    exact ⟨⟨fun e => Bool.noConfusion e, fun e => absurd e (Nat.lt_irrefl _)⟩, fun _ => rfl⟩
  · refine ⟨⟨fun _ => h.2, fun _ => h.1⟩, fun e => ?_⟩
    rw [h.1] at e
    exact Bool.noConfusion e

theorem pruneLoop_report (DT PDT : InstRef → InstRef → Bool) (fuel : Nat) :
    ∀ (F : Function) (st : Stats) (m : Bool), WellFormed F → numInsts F < fuel →
      (pruneLoop DT PDT fuel F st m = (F, m, st) ∨
        ((pruneLoop DT PDT fuel F st m).2.1 = true ∧
          numInsts (pruneLoop DT PDT fuel F st m).1 < numInsts F)) := by
  induction fuel with
  | zero => intro F st m _ h; exact absurd h (Nat.not_lt_zero _)
  | succ fuel ih =>
    intro F st m hwf hlt
    obtain ⟨i1, _, _, _, _, _, i7⟩ := pruneIteration_count DT PDT F st hwf
    rw [pruneLoop_succ]
    rcases i7 with h | h
    · left
      rw [h]
      simp
    · right
      rw [if_pos h.1]
      rcases ih (pruneIteration DT PDT F st).1 (pruneIteration DT PDT F st).2.2
        (m || (pruneIteration DT PDT F st).2.1) i1 (by have := h.2; omega) with h2 | h2
      · rw [h2, h.1]
        exact ⟨by simp, h.2⟩
      · exact ⟨h2.1, Nat.lt_trans h2.2 h.2⟩

/-! ## Refops and the other instructions -/

theorem incrementsOrder_iff_pairwise (l : List Instruction) :
    IncrefsBeforeDecrefs l ↔
      l.Pairwise (fun a b => ¬ (isDecrefOp a = true ∧ isIncrefOp b = true)) := by
  rw [List.pairwise_iff_getElem]
  constructor
  · intro h i j hi hj hij hc
    have := h j hj i hi hc.2 hc.1
    omega
  · intro h i hi j hj hinc hdec
    by_contra hlt
    rcases Nat.lt_or_eq_of_le (Nat.le_of_not_lt hlt) with h1 | h1
    · exact h j i hj hi h1 ⟨hdec, hinc⟩
    · subst h1
      rw [isIncrefOp_not_isDecrefOp _ hinc] at hdec
      exact Bool.noConfusion hdec

theorem incrementsOrder_sublist (l' l : List Instruction) (hs : l'.Sublist l)
    (h : IncrefsBeforeDecrefs l) : IncrefsBeforeDecrefs l' := by
  rw [incrementsOrder_iff_pairwise] at h ⊢
  exact h.sublist hs

theorem shrinks_order {A B : Function} (hs : Shrinks A B)
    (h : ∀ bb ∈ B, IncrefsBeforeDecrefs bb.insts) :
    ∀ bb ∈ A, IncrefsBeforeDecrefs bb.insts := by
  induction hs with
  | nil => intro bb hbb; exact absurd hbb (List.not_mem_nil bb)
  | cons hab _ ih =>
    intro bb hbb
    rcases List.mem_cons.1 hbb with e | e
    · rw [e]
      exact incrementsOrder_sublist _ _ hab.2.1 (h _ (List.mem_cons_self _ _))
    · exact ih (fun b hb => h b (List.mem_cons_of_mem _ hb)) bb e

/-- Claim C21: on a function whose instructions have distinct addresses,
each of `runPerBasicBlockPrune`, `runDiamondPrune`, `runFanoutPrune` and
`RefPrunePass::runOnFunction` returns the function with some refop calls
erased; it returns true iff the function has fewer instructions afterwards;
and when it returns false the function and the counters are as before. -/
theorem mutation_report (DT PDT : InstRef → InstRef → Bool) (F : Function) (st : Stats)
    (hwf : WellFormed F) :
    (Shrinks (runPerBasicBlockPrune F st).1 F ∧
      ((runPerBasicBlockPrune F st).2.1 = true ↔
        numInsts (runPerBasicBlockPrune F st).1 < numInsts F) ∧
      ((runPerBasicBlockPrune F st).2.1 = false →
        runPerBasicBlockPrune F st = (F, false, st))) ∧
    (Shrinks (runDiamondPrune DT PDT F st).1 F ∧
      ((runDiamondPrune DT PDT F st).2.1 = true ↔
        numInsts (runDiamondPrune DT PDT F st).1 < numInsts F) ∧
      ((runDiamondPrune DT PDT F st).2.1 = false →
        runDiamondPrune DT PDT F st = (F, false, st))) ∧
    (Shrinks (runFanoutPrune F st).1 F ∧
      ((runFanoutPrune F st).2.1 = true ↔ numInsts (runFanoutPrune F st).1 < numInsts F) ∧
      ((runFanoutPrune F st).2.1 = false → runFanoutPrune F st = (F, false, st))) ∧
    (Shrinks (RefPrunePass.runOnFunction DT PDT F st).1 F ∧
      ((RefPrunePass.runOnFunction DT PDT F st).2.1 = true ↔
        numInsts (RefPrunePass.runOnFunction DT PDT F st).1 < numInsts F) ∧
      ((RefPrunePass.runOnFunction DT PDT F st).2.1 = false →
        RefPrunePass.runOnFunction DT PDT F st = (F, false, st))) := by
  have a := report_of_disj _ F st (runPerBasicBlockPrune_count F st hwf).2.2.2.2
  have b := report_of_disj _ F st (runDiamondPrune_count DT PDT F st hwf).2.2.2.2
  have c := report_of_disj _ F st (runFanoutPrune_count F st hwf).2.2.2.2
  have d := report_of_disj _ F st
    (pruneLoop_report DT PDT (numInsts F + 1) F st false hwf (Nat.lt_succ_self _))
  exact ⟨⟨runPerBasicBlockPrune_shrinks F st, a.1, a.2⟩,
    ⟨runDiamondPrune_shrinks DT PDT F st, b.1, b.2⟩,
    ⟨runFanoutPrune_shrinks F st, c.1, c.2⟩,
    ⟨runOnFunction_shrinks DT PDT F st, d.1, d.2⟩⟩

/-- Claim C21 on scenario 5, where the fanout pruner erases three
instructions and returns true, and on `incref %p; ret`, where the pass
returns false and leaves the function alone. -/
theorem mutation_report_witness :
    ((runFanoutPrune fanoutFn zeroStats).2.1 = true ↔
        numInsts (runFanoutPrune fanoutFn zeroStats).1 < numInsts fanoutFn) ∧
      (runFanoutPrune fanoutFn zeroStats).2.1 = true ∧
      RefPrunePass.runOnFunction (domTreeOf loneIncrefFn) (postDomTreeOf loneIncrefFn)
          loneIncrefFn zeroStats = (loneIncrefFn, false, zeroStats) :=
  ⟨(mutation_report (domTreeOf fanoutFn) (postDomTreeOf fanoutFn) fanoutFn zeroStats
      (by decide)).2.2.1.2.1,
    by decide, by decide⟩

/-- Claim C22: when in every block of a function every incref stands before
every decref, the same holds in every block of the function returned by
`runPerBasicBlockPrune`, by `runDiamondPrune`, by `runFanoutPrune` and by
`RefPrunePass::runOnFunction`. -/
theorem pruning_keeps_order (DT PDT : InstRef → InstRef → Bool) (F : Function) (st : Stats)
    (h : ∀ bb ∈ F, IncrefsBeforeDecrefs bb.insts) :
    (∀ bb ∈ (runPerBasicBlockPrune F st).1, IncrefsBeforeDecrefs bb.insts) ∧
      (∀ bb ∈ (runDiamondPrune DT PDT F st).1, IncrefsBeforeDecrefs bb.insts) ∧
      (∀ bb ∈ (runFanoutPrune F st).1, IncrefsBeforeDecrefs bb.insts) ∧
      (∀ bb ∈ (RefPrunePass.runOnFunction DT PDT F st).1, IncrefsBeforeDecrefs bb.insts) :=
  ⟨shrinks_order (runPerBasicBlockPrune_shrinks F st) h,
    shrinks_order (runDiamondPrune_shrinks DT PDT F st) h,
    shrinks_order (runFanoutPrune_shrinks F st) h,
    shrinks_order (runOnFunction_shrinks DT PDT F st) h⟩

/-- Claim C22 on scenario 5 with a second `decref %p` in tail block `A`:
the blocks of the pruned function are ordered. -/
theorem pruning_keeps_order_witness :
    (∀ bb ∈ fanoutTwoDecrefsFn, IncrefsBeforeDecrefs bb.insts) ∧
      ∀ bb ∈ (RefPrunePass.runOnFunction (domTreeOf fanoutTwoDecrefsFn)
          (postDomTreeOf fanoutTwoDecrefsFn) fanoutTwoDecrefsFn zeroStats).1,
        IncrefsBeforeDecrefs bb.insts :=
  ⟨by decide,
    (pruning_keeps_order (domTreeOf fanoutTwoDecrefsFn) (postDomTreeOf fanoutTwoDecrefsFn)
      fanoutTwoDecrefsFn zeroStats (by decide)).2.2.2⟩

/-- No incref and decref on the same value are left in a block by
`pruneBlock`. -/
theorem pruneBlock_no_pair (bb : BasicBlock) (m : Bool) (n : Nat) (x y : Instruction)
    (hx : x ∈ (pruneBlock bb m n).1.insts) (hy : y ∈ (pruneBlock bb m n).1.insts)
    (hinc : isIncrefOp x = true) (hdec : isDecrefOp y = true) : x.arg0 ≠ y.arg0 := by
  intro harg
  have hnn : x.arg0 ≠ Value.nullPtr := by
    have := pruneBlock_no_null bb m n x hx (isIncrefOp_isRefOp x hinc)
    unfold isNonNullFirstArg at this
    simpa using this
  have h1 := (pruneBlock_mem_on bb m n x.arg0 hnn x rfl).1 hx
  have h2 := (pruneBlock_mem_on bb m n x.arg0 hnn y harg.symm).1 hy
  have hxI : x ∈ bb.insts.filter (fun z => isIncrefOp z && (z.arg0 == x.arg0)) := by
    rw [List.mem_filter]
    exact ⟨h1.1, by simp [hinc]⟩
  have hyD : y ∈ bb.insts.filter (fun z => isDecrefOp z && (z.arg0 == x.arg0)) := by
    rw [List.mem_filter]
    exact ⟨h2.1, by simp [hdec, harg]⟩
  rcases Nat.le_total (bb.insts.filter (fun z => isIncrefOp z && (z.arg0 == x.arg0))).length
      (bb.insts.filter (fun z => isDecrefOp z && (z.arg0 == x.arg0))).length with hle | hle
  · have h3 := h1.2.1
    rw [Nat.min_eq_left hle, Nat.sub_self, List.drop_zero] at h3
    exact h3 hxI
  · have h3 := h2.2.2
    rw [Nat.min_eq_right hle, List.take_length] at h3
    exact h3 hyD

/-- Claim C23: in the function returned by `runPerBasicBlockPrune` no block
holds an incref and a decref with the same operand 0. -/
theorem per_block_leaves_no_pair (F : Function) (st : Stats) (b : Nat) (x y : Instruction)
    (hx : x ∈ instsOf (runPerBasicBlockPrune F st).1 b)
    (hy : y ∈ instsOf (runPerBasicBlockPrune F st).1 b)
    (hinc : isIncrefOp x = true) (hdec : isDecrefOp y = true) : x.arg0 ≠ y.arg0 := by
  cases hb : F[b]? with
  | none =>
    exfalso
    have hlen := shrinks_length_eq (runPerBasicBlockPrune_shrinks F st)
    have hge : F.length ≤ b := by
      by_contra hlt
      have : b < F.length := Nat.lt_of_not_le hlt
      rw [List.getElem?_eq_getElem this] at hb
      exact Option.noConfusion hb
    have hnone : (runPerBasicBlockPrune F st).1[b]? = none :=
      List.getElem?_eq_none (by omega)
    simp [instsOf, hnone] at hx
  | some bb =>
    obtain ⟨m0, n0, e, _⟩ := pruneBlocks_at F false st.per_bb b bb hb
    have e2 : instsOf (runPerBasicBlockPrune F st).1 b = (pruneBlock bb m0 n0).1.insts := e
    rw [e2] at hx hy
    exact pruneBlock_no_pair bb m0 n0 x y hx hy hinc hdec

/-- Claim C23 on the block `incref %p; decref %q` of `headGateFn`: both
calls are left, and they are on different values. -/
theorem per_block_leaves_no_pair_witness :
    mkIncref 1 7 ∈ instsOf (runPerBasicBlockPrune headGateFn zeroStats).1 0 ∧
      mkDecref 2 8 ∈ instsOf (runPerBasicBlockPrune headGateFn zeroStats).1 0 ∧
      (mkIncref 1 7).arg0 ≠ (mkDecref 2 8).arg0 :=
  ⟨by decide, by decide,
    per_block_leaves_no_pair headGateFn zeroStats 0 (mkIncref 1 7) (mkDecref 2 8)
      (by decide) (by decide) (by decide) (by decide)⟩

/-- On scenario 4 the diamond pruner erases nothing, whatever the dominance
queries answer: the only related pair fails the interference walk. -/
theorem diamondInterference_diamond (DT PDT : InstRef → InstRef → Bool) (st : Stats) :
    runDiamondPrune DT PDT diamondInterferenceFn st = (diamondInterferenceFn, false, st) := by
  have h1 : diamondTest DT PDT diamondInterferenceFn (0, mkIncref 1 7) (1, mkDecref 3 8)
      = false := by
    unfold diamondTest
    rw [if_neg (by decide), if_pos (by decide)]
  have h2 : diamondTest DT PDT diamondInterferenceFn (0, mkIncref 1 7) (3, mkDecref 2 7)
      = false := by
    unfold diamondTest
    rw [if_neg (by decide), if_neg (by decide)]
    by_cases h : (DT (0, mkIncref 1 7) (3, mkDecref 2 7)
        && PDT (3, mkDecref 2 7) (0, mkIncref 1 7)) = true
    · rw [if_pos h, if_pos (by decide)]
    · rw [if_neg h]
  unfold runDiamondPrune
  have hi : collectIncrefs diamondInterferenceFn = [(0, mkIncref 1 7)] := by decide
  have hd : collectDecrefs diamondInterferenceFn = [(1, mkDecref 3 8), (3, mkDecref 2 7)] := by
    decide
  rw [hi, hd]
  simp only [List.map_cons, List.map_nil, diamondLoop, diamondScan, h1, h2]
  rfl

/-- Claim C25: on the diamond `A -> B, A -> C, B -> D, C -> D` with
`incref %p` in `A`, `decref %q` in `B` and `decref %p` in `D`, whatever the
dominance queries answer, the diamond pruner erases nothing, the decref of
`B` making the interference walk answer true, while `findFanout` accepts the
incref with tail `D`; the prune pass, alone or after the normalize pass,
erases `incref %p` and `decref %p`, keeps `decref %q`, and adds 2 to the
fanout counter and nothing to the others. -/
theorem fanout_past_interior_decref (DT PDT : InstRef → InstRef → Bool) :
    RefPrunePass.runOnFunction DT PDT diamondInterferenceFn zeroStats
        = ([mkBlock [] 10 [1, 2], mkBlock [mkDecref 3 8] 11 [3], mkBlock [] 12 [3],
            mkBlock [] 13 []], true,
            { per_bb := 0, diamond := 0, fanout := 2, fanout_raise := 0 }) ∧
      runRefPrunePasses DT PDT diamondInterferenceFn zeroStats
        = RefPrunePass.runOnFunction DT PDT diamondInterferenceFn zeroStats ∧
      runDiamondPrune DT PDT diamondInterferenceFn zeroStats
        = (diamondInterferenceFn, false, zeroStats) ∧
      domTreeOf diamondInterferenceFn (0, mkIncref 1 7) (3, mkDecref 2 7) = true ∧
      postDomTreeOf diamondInterferenceFn (3, mkDecref 2 7) (0, mkIncref 1 7) = true ∧
      (hasDecrefBetweenGraph diamondInterferenceFn 3 (diamondInterferenceFn.length + 1) 0 []).1
        = true ∧
      findFanout diamondInterferenceFn (0, mkIncref 1 7) = (true, [3]) := by
  have hrun : RefPrunePass.runOnFunction DT PDT diamondInterferenceFn zeroStats
      = ([mkBlock [] 10 [1, 2], mkBlock [mkDecref 3 8] 11 [3], mkBlock [] 12 [3],
          mkBlock [] 13 []], true,
          { per_bb := 0, diamond := 0, fanout := 2, fanout_raise := 0 }) := by
    have hit1 : pruneIteration DT PDT diamondInterferenceFn zeroStats
        = ([mkBlock [] 10 [1, 2], mkBlock [mkDecref 3 8] 11 [3], mkBlock [] 12 [3],
            mkBlock [] 13 []], true,
            { per_bb := 0, diamond := 0, fanout := 2, fanout_raise := 0 }) := by
      unfold pruneIteration
      rw [show runPerBasicBlockPrune diamondInterferenceFn zeroStats
        = (diamondInterferenceFn, false, zeroStats) by decide]
      dsimp only
      rw [diamondInterference_diamond DT PDT zeroStats]
      dsimp only
      rw [show runFanoutPrune diamondInterferenceFn zeroStats
        = ([mkBlock [] 10 [1, 2], mkBlock [mkDecref 3 8] 11 [3], mkBlock [] 12 [3],
            mkBlock [] 13 []], true,
            { per_bb := 0, diamond := 0, fanout := 2, fanout_raise := 0 }) by decide]
      rfl
    have hit2 : pruneIteration DT PDT
        [mkBlock [] 10 [1, 2], mkBlock [mkDecref 3 8] 11 [3], mkBlock [] 12 [3],
          mkBlock [] 13 []]
        { per_bb := 0, diamond := 0, fanout := 2, fanout_raise := 0 }
        = ([mkBlock [] 10 [1, 2], mkBlock [mkDecref 3 8] 11 [3], mkBlock [] 12 [3],
            mkBlock [] 13 []], false,
            { per_bb := 0, diamond := 0, fanout := 2, fanout_raise := 0 }) := by
      unfold pruneIteration
      rw [show runPerBasicBlockPrune
          [mkBlock [] 10 [1, 2], mkBlock [mkDecref 3 8] 11 [3], mkBlock [] 12 [3],
            mkBlock [] 13 []]
          { per_bb := 0, diamond := 0, fanout := 2, fanout_raise := 0 }
        = ([mkBlock [] 10 [1, 2], mkBlock [mkDecref 3 8] 11 [3], mkBlock [] 12 [3],
            mkBlock [] 13 []], false,
            { per_bb := 0, diamond := 0, fanout := 2, fanout_raise := 0 }) by decide]
      dsimp only
      have hd : runDiamondPrune DT PDT
          [mkBlock [] 10 [1, 2], mkBlock [mkDecref 3 8] 11 [3], mkBlock [] 12 [3],
            mkBlock [] 13 []]
          { per_bb := 0, diamond := 0, fanout := 2, fanout_raise := 0 }
          = ([mkBlock [] 10 [1, 2], mkBlock [mkDecref 3 8] 11 [3], mkBlock [] 12 [3],
              mkBlock [] 13 []], false,
              { per_bb := 0, diamond := 0, fanout := 2, fanout_raise := 0 }) := by
        unfold runDiamondPrune
        rw [show collectIncrefs
            [mkBlock [] 10 [1, 2], mkBlock [mkDecref 3 8] 11 [3], mkBlock [] 12 [3],
              mkBlock [] 13 []] = [] by decide]
        rfl
      rw [hd]
      dsimp only
      rw [show runFanoutPrune
          [mkBlock [] 10 [1, 2], mkBlock [mkDecref 3 8] 11 [3], mkBlock [] 12 [3],
            mkBlock [] 13 []]
          { per_bb := 0, diamond := 0, fanout := 2, fanout_raise := 0 }
        = ([mkBlock [] 10 [1, 2], mkBlock [mkDecref 3 8] 11 [3], mkBlock [] 12 [3],
            mkBlock [] 13 []], false,
            { per_bb := 0, diamond := 0, fanout := 2, fanout_raise := 0 }) by decide]
      rfl
    have e : RefPrunePass.runOnFunction DT PDT diamondInterferenceFn zeroStats
        = pruneLoop DT PDT 4 diamondInterferenceFn zeroStats false := rfl
    rw [e, pruneLoop_succ, hit1]
    dsimp only
    rw [if_pos rfl, pruneLoop_succ, hit2]
    rfl
  refine ⟨hrun, ?_, diamondInterference_diamond DT PDT zeroStats, by decide, by decide,
    by decide, by decide⟩
  have hn : (RefNormalizePass.runOnFunction diamondInterferenceFn).1 = diamondInterferenceFn := by
    decide
  unfold runRefPrunePasses
  rw [hn]

/-! ## The pairs erased by one run of the diamond pruner -/

theorem erasePairs_cons (F : Function) (e : InstRef × InstRef × Function)
    (ps : List (InstRef × InstRef × Function)) :
    erasePairs F (e :: ps) = erasePairs (eraseFromParent (eraseFromParent F e.1) e.2.1) ps := by
  rfl

theorem succs_erasePairs (ps : List (InstRef × InstRef × Function)) :
    ∀ (F : Function) (b : Nat), succs (erasePairs F ps) b = succs F b := by
  induction ps with
  | nil => intro F b; rfl
  | cons e ps ih =>
    intro F b
    rw [erasePairs_cons, ih, succs_eraseFromParent, succs_eraseFromParent]

theorem mem_instsOf_erasePairs (ps : List (InstRef × InstRef × Function)) :
    ∀ (F : Function) (b : Nat) (y : Instruction),
      y ∈ instsOf (erasePairs F ps) b ↔
        y ∈ instsOf F b ∧ ∀ e ∈ ps, (b, y) ≠ e.1 ∧ (b, y) ≠ e.2.1 := by
  induction ps with
  | nil => intro F b y; simp [erasePairs]
  | cons e ps ih =>
    intro F b y
    have hmem : ∀ (G : Function) (r : InstRef),
        y ∈ instsOf (eraseFromParent G r) b ↔ y ∈ instsOf G b ∧ (b, y) ≠ r := by
      intro G r
      rw [instsOf_eraseFromParent]
      by_cases hb : b = r.1
      · rw [if_pos hb, mem_eraseInst]
        constructor
        · rintro ⟨h1, h2⟩
          exact ⟨h1, fun e2 => h2 (congrArg Prod.snd e2)⟩
        · rintro ⟨h1, h2⟩
          refine ⟨h1, fun e2 => h2 ?_⟩
          rw [hb, e2]
      · rw [if_neg hb]
        constructor
        · intro h1
          exact ⟨h1, fun e2 => hb (congrArg Prod.fst e2)⟩
        · exact fun h => h.1
    rw [erasePairs_cons, ih, hmem, hmem]
    simp only [List.mem_cons, forall_eq_or_imp]
    tauto

theorem reachAvoid_congr (A B : Function) (tail_node head_node x : Nat)
    (hs : ∀ b, succs A b = succs B b) (h : ReachAvoid A tail_node head_node x) :
    ReachAvoid B tail_node head_node x := by
  induction h with
  | refl => exact ReachAvoid.refl head_node
  | step _ hc hne ih => exact ReachAvoid.step ih (hs _ ▸ hc) hne

theorem diamondScan_slots (DT PDT : InstRef → InstRef → Bool) (F : Function) (incref : InstRef)
    (slots : List (Option InstRef)) (d : InstRef) (slots' : List (Option InstRef))
    (h : diamondScan DT PDT F incref slots = some (d, slots')) (x : InstRef)
    (hx : some x ∈ slots') : some x ∈ slots := by
  obtain ⟨A, B, h1, h2⟩ := diamondScan_some DT PDT F incref slots d slots' h
  have hx2 : x ∈ slots'.reduceOption := List.reduceOption_mem_iff.2 hx
  rw [h2] at hx2
  apply List.reduceOption_mem_iff.1
  rw [h1]
  rcases List.mem_append.1 hx2 with e | e
  · exact List.mem_append_left _ e
  · exact List.mem_append_right _ (List.mem_cons_of_mem _ e)

/-- The record of `diamondLoopTrace`: the result is that of `diamondLoop`,
the function returned is the given one with the recorded pairs erased, and
each recorded pair passed the tests on the function as the pairs recorded
before it had left it. -/
theorem diamondLoopTrace_spec (DT PDT : InstRef → InstRef → Bool) (incs : List InstRef) :
    ∀ (slots : List (Option InstRef)) (G : Function) (m : Bool) (n : Nat),
      (diamondLoopTrace DT PDT incs slots G m n).1 = diamondLoop DT PDT incs slots G m n ∧
        (diamondLoopTrace DT PDT incs slots G m n).1.1
          = erasePairs G (diamondLoopTrace DT PDT incs slots G m n).2 ∧
        ∀ (pre : List (InstRef × InstRef × Function)) (I D : InstRef) (Fcur : Function)
          (post : List (InstRef × InstRef × Function)),
          (diamondLoopTrace DT PDT incs slots G m n).2 = pre ++ (I, D, Fcur) :: post →
            I ∈ incs ∧ some D ∈ slots ∧ Fcur = erasePairs G pre ∧
              diamondTest DT PDT Fcur I D = true := by
  induction incs with
  | nil =>
    intro slots G m n
    refine ⟨rfl, rfl, ?_⟩
    intro pre I D Fcur post h
    have h2 : ([] : List (InstRef × InstRef × Function)) = pre ++ (I, D, Fcur) :: post := h
    simp at h2
  | cons inc rest ih =>
    intro slots G m n
    cases hs : diamondScan DT PDT G inc slots with
    | none =>
      have e1 : diamondLoopTrace DT PDT (inc :: rest) slots G m n
          = diamondLoopTrace DT PDT rest slots G m n := by
        simp only [diamondLoopTrace, hs]
      have e2 : diamondLoop DT PDT (inc :: rest) slots G m n
          = diamondLoop DT PDT rest slots G m n := by
        simp only [diamondLoop, hs]
      rw [e1, e2]
      obtain ⟨a, b, c⟩ := ih slots G m n
      refine ⟨a, b, ?_⟩
      intro pre I D Fcur post h
      obtain ⟨c1, c2, c3, c4⟩ := c pre I D Fcur post h
      exact ⟨List.mem_cons_of_mem _ c1, c2, c3, c4⟩
    | some p =>
      obtain ⟨d, slots'⟩ := p
      have e1 : diamondLoopTrace DT PDT (inc :: rest) slots G m n
          = ((diamondLoopTrace DT PDT rest slots'
                (eraseFromParent (eraseFromParent G inc) d) true (n + 2)).1,
              (inc, d, G) :: (diamondLoopTrace DT PDT rest slots'
                (eraseFromParent (eraseFromParent G inc) d) true (n + 2)).2) := by
        simp only [diamondLoopTrace, hs]
      have e2 : diamondLoop DT PDT (inc :: rest) slots G m n
          = diamondLoop DT PDT rest slots'
              (eraseFromParent (eraseFromParent G inc) d) true (n + 2) := by
        simp only [diamondLoop, hs]
      rw [e1, e2]
      obtain ⟨a, b, c⟩ := ih slots' (eraseFromParent (eraseFromParent G inc) d) true (n + 2)
      obtain ⟨ht, hmem⟩ := diamondScan_test DT PDT G inc slots d slots' hs
      refine ⟨a, ?_, ?_⟩
      · dsimp only
        rw [erasePairs_cons]
        exact b
      · intro pre I D Fcur post h
        dsimp only at h
        cases pre with
        | nil =>
          rw [List.nil_append] at h
          have h1 := (List.cons.inj h).1
          have hI : inc = I := congrArg Prod.fst h1
          have hD : d = D := congrArg (fun t => t.2.1) h1
          have hF : G = Fcur := congrArg (fun t => t.2.2) h1
          subst hI hD hF
          exact ⟨List.mem_cons_self _ _, hmem, rfl, ht⟩
        | cons e pre' =>
          rw [List.cons_append] at h
          have h1 := (List.cons.inj h).1
          have h2 := (List.cons.inj h).2
          obtain ⟨c1, c2, c3, c4⟩ := c pre' I D Fcur post h2
          refine ⟨List.mem_cons_of_mem _ c1,
            diamondScan_slots DT PDT G inc slots d slots' hs D c2, ?_, c4⟩
          rw [← h1, erasePairs_cons]
          exact c3

theorem runDiamondPruneTrace_fst (DT PDT : InstRef → InstRef → Bool) (F : Function)
    (st : Stats) : (runDiamondPruneTrace DT PDT F st).1 = runDiamondPrune DT PDT F st := by
  unfold runDiamondPruneTrace runDiamondPrune
  dsimp only
  rw [(diamondLoopTrace_spec DT PDT (collectIncrefs F) ((collectDecrefs F).map some) F false
    st.diamond).1]

/-- Claim C3 fails on the chain `A -> B -> C` with `incref %q; incref %p` in
`A`, `decref %q` in `B` and `decref %p` in `C`: one run of the diamond pruner
erases the pair on `%q` and then the pair on `%p`, although in the function
it was given the block `B`, reached from `A` without entering `C`, holds a
decref. -/
theorem diamond_erases_pair_past_decref :
    runDiamondPrune (domTreeOf chainTwoPairsFn) (postDomTreeOf chainTwoPairsFn)
        chainTwoPairsFn zeroStats
      = ([mkBlock [] 10 [1], mkBlock [] 11 [2], mkBlock [] 12 []], true,
          { per_bb := 0, diamond := 4, fanout := 0, fanout_raise := 0 }) ∧
      mkIncref 2 7 ∈ instsOf chainTwoPairsFn 0 ∧
      mkDecref 4 7 ∈ instsOf chainTwoPairsFn 2 ∧
      ReachAvoid chainTwoPairsFn 2 0 1 ∧
      hasAnyDecrefInNode (instsOf chainTwoPairsFn 1) = true :=
  ⟨by decide, by decide, by decide,
    ReachAvoid.step (ReachAvoid.refl 0) (by decide) (by decide), by decide⟩

/-- Claim C3 as amended: the function returned by `runDiamondPrune` is the
given one with the recorded pairs erased, in order, and a pair `(I, D)` is
recorded only if `I` is an incref and `D` a decref of the given function, in
different blocks, `D` is on the operand 0 of `I`, the dominator tree answers
that `I` dominates `D`, the post-dominator tree that `D` post-dominates `I`,
and no block reachable from the block of `I` without entering the block of
`D` (the block of `I` included) holds a decref in the function as the pairs
erased before have left it: every decref of such a block in the given
function is the decref of a pair the same run erased before.  On the diamond
with `decref %q` in `B` the diamond pruner erases nothing. -/
theorem diamond_soundness (DT PDT : InstRef → InstRef → Bool) (F : Function) (st : Stats)
    (pre : List (InstRef × InstRef × Function)) (I D : InstRef) (Fcur : Function)
    (post : List (InstRef × InstRef × Function))
    (h : (runDiamondPruneTrace DT PDT F st).2 = pre ++ (I, D, Fcur) :: post) :
    (runDiamondPruneTrace DT PDT F st).1 = runDiamondPrune DT PDT F st ∧
      (runDiamondPrune DT PDT F st).1 = erasePairs F (runDiamondPruneTrace DT PDT F st).2 ∧
      I.2 ∈ instsOf F I.1 ∧ isIncrefOp I.2 = true ∧ D.2 ∈ instsOf F D.1 ∧
      I.1 ≠ D.1 ∧ isDecrefOp D.2 = true ∧ I.2.arg0 = D.2.arg0 ∧
      DT I D = true ∧ PDT D I = true ∧
      Fcur = erasePairs F pre ∧
      (∀ x, ReachAvoid F D.1 I.1 x → hasAnyDecrefInNode (instsOf Fcur x) = false) ∧
      (∀ x, ReachAvoid F D.1 I.1 x → ∀ d ∈ instsOf F x, isDecrefOp d = true →
        ∃ e ∈ pre, e.2.1 = (x, d)) ∧
      runDiamondPrune (domTreeOf diamondInterferenceFn) (postDomTreeOf diamondInterferenceFn)
        diamondInterferenceFn zeroStats = (diamondInterferenceFn, false, zeroStats) := by
  have hspec := diamondLoopTrace_spec DT PDT (collectIncrefs F) ((collectDecrefs F).map some)
    F false st.diamond
  have h' : (diamondLoopTrace DT PDT (collectIncrefs F) ((collectDecrefs F).map some) F false
      st.diamond).2 = pre ++ (I, D, Fcur) :: post := h
  obtain ⟨c1, c2, c3, c4⟩ := hspec.2.2 pre I D Fcur post h'
  obtain ⟨hI1, hI2⟩ := (mem_collectIncrefs F I).1 c1
  have hDmem : D ∈ collectDecrefs F := by
    obtain ⟨y, hy, e⟩ := List.mem_map.1 c2
    rw [← Option.some.inj e]
    exact hy
  obtain ⟨hD1, hD2⟩ := (mem_collectDecrefs F D).1 hDmem
  obtain ⟨t1, t2, t3, t4, t5⟩ := diamondTest_spec DT PDT Fcur I D c4
  have hsuccs : ∀ b, succs F b = succs Fcur b := by
    intro b
    rw [c3, succs_erasePairs]
  have hclean : ∀ x, ReachAvoid F D.1 I.1 x → hasAnyDecrefInNode (instsOf Fcur x) = false := by
    intro x hx
    exact no_decref_between Fcur D.1 I.1 _ t5 x (reachAvoid_congr F Fcur D.1 I.1 x hsuccs hx)
  have hfst : (runDiamondPruneTrace DT PDT F st).1 = runDiamondPrune DT PDT F st :=
    runDiamondPruneTrace_fst DT PDT F st
  refine ⟨hfst, ?_, hI1, hI2, hD1, t1, hD2, isRelatedDecref_arg _ _ t2, t3, t4, c3, hclean, ?_,
    by decide⟩
  · rw [← hfst]
    exact hspec.2.1
  · intro x hx d hd hdd
    have hnot : d ∉ instsOf Fcur x := by
      intro hmem
      have := hclean x hx
      unfold hasAnyDecrefInNode at this
      have h2 : (instsOf Fcur x).any isDecrefOp = true := List.any_eq_true.2 ⟨d, hmem, hdd⟩
      rw [this] at h2
      exact Bool.noConfusion h2
    rw [c3, mem_instsOf_erasePairs] at hnot
    have hex : ∃ e ∈ pre, (x, d) = e.1 ∨ (x, d) = e.2.1 := by
      by_contra hno
      apply hnot
      refine ⟨hd, fun e he => ⟨fun e1 => hno ⟨e, he, Or.inl e1⟩, fun e1 => hno ⟨e, he, Or.inr e1⟩⟩⟩
    obtain ⟨e, he, hcase⟩ := hex
    rcases hcase with e1 | e1
    · exfalso
      obtain ⟨s, t, hst⟩ := List.append_of_mem he
      have h3 : (diamondLoopTrace DT PDT (collectIncrefs F) ((collectDecrefs F).map some) F
          false st.diamond).2 = s ++ (e.1, e.2.1, e.2.2) :: (t ++ (I, D, Fcur) :: post) := by
        rw [h', hst]
        simp
      obtain ⟨q1, _, _, _⟩ := hspec.2.2 s e.1 e.2.1 e.2.2 _ h3
      have hinc := ((mem_collectIncrefs F e.1).1 q1).2
      rw [← e1] at hinc
      rw [isIncrefOp_not_isDecrefOp d hinc] at hdd
      exact Bool.noConfusion hdd
    · exact ⟨e, he, e1.symm⟩

/-- Claim C3 as amended, on the chain `A -> B -> C` with two pairs: the pair
on `%p` is recorded second, and the `decref %q` of block `B`, reached from
`A` without entering `C`, is the decref of the pair recorded first. -/
theorem diamond_soundness_witness :
    ∃ e ∈ [((0, mkIncref 1 8), (1, mkDecref 3 8), chainTwoPairsFn)],
      e.2.1 = ((1, mkDecref 3 8) : InstRef) :=
  (diamond_soundness (domTreeOf chainTwoPairsFn) (postDomTreeOf chainTwoPairsFn)
    chainTwoPairsFn zeroStats
    [((0, mkIncref 1 8), (1, mkDecref 3 8), chainTwoPairsFn)]
    (0, mkIncref 2 7) (2, mkDecref 4 7)
    [mkBlock [mkIncref 2 7] 10 [1], mkBlock [] 11 [2], mkBlock [mkDecref 4 7] 12 []] []
    (by decide)).2.2.2.2.2.2.2.2.2.2.2.2.1
    1 (ReachAvoid.step (ReachAvoid.refl 0) (by decide) (by decide)) (mkDecref 3 8)
    (by decide) (by decide)

end RefPrune
